import Mathlib

/-!
# Leaky-bucket rate limiter: `bucket.go` and `counter.go`

A shallow embedding of the Go sources.

* `int64` values are integers; every arithmetic result is reduced with `wrap64`
  (two's complement wrap-around), and `/` is Go's truncated division.
* `float64` values are modelled by `F64`: NaN, the two infinities, and finite
  values `(-1)^neg * m * 2^e` in IEEE-754 binary64 form (53-bit significand,
  exponents `-1074 .. 971`, signed zero).  Every arithmetic operation computes the
  exact result and rounds it to nearest, ties to even (`rnd`).
* A Go conversion `int64(f)` of a float that is NaN, infinite or outside the
  `int64` range yields an implementation-dependent value; the embedding takes that
  value from a parameter `oor : F64 → Int`.
* `time.Time` is an integer number of nanoseconds since the zero `time.Time`;
  `time.Now()` is the parameter `now` of `Counter.Add`.  `Time.Sub` saturates at
  the `int64` range like the Go library; `Time.Add` and `Time.Before` are integer
  addition and comparison.
* A Go run-time panic (integer division by zero) is the result `none`.

The file has three parts: the definitions (the embedding, then the values and
predicates used in the statements), the lemmas on the binary64 arithmetic and on
the buckets, and the properties of `Counter.Add`.
-/

set_option maxRecDepth 20000
set_option exponentiation.threshold 3000

namespace RateLimit

/-! ## int64 -/

/-- Two's complement reduction of an integer into the `int64` range. -/
def wrap64 (x : Int) : Int := (x + 9223372036854775808) % 18446744073709551616 - 9223372036854775808

/-- The value is an `int64`. -/
def IsInt64 (x : Int) : Prop := -9223372036854775808 ≤ x ∧ x ≤ 9223372036854775807

instance (x : Int) : Decidable (IsInt64 x) := by unfold IsInt64; infer_instance

/-- Go `time.Minute` in nanoseconds: `WindowDuration = 1 * time.Minute`. -/
def WindowDuration : Int := 60000000000

/-- Go `time.Second` in nanoseconds: `BurstTolerance = 1 * time.Second`. -/
def BurstTolerance : Int := 1000000000

/-- Go `Time.Sub`: the difference of two instants as a `Duration`, saturated at the
largest and the smallest `int64`. -/
def timeSub (t u : Int) : Int :=
  if t - u > 9223372036854775807 then 9223372036854775807
  else if t - u < -9223372036854775808 then -9223372036854775808
  else t - u

/-! ## float64 -/

/-- An IEEE-754 binary64 value: `fin neg m e` is `(-1)^neg * m * 2^e`. -/
inductive F64 where
  | nan : F64
  | inf (neg : Bool) : F64
  | fin (neg : Bool) (m : Nat) (e : Int) : F64
  deriving DecidableEq

namespace F64

/-- The finite values that are binary64 numbers: a significand below `2^53`, an
exponent in `-1074 .. 971`, and a significand below `2^52` only at the least
exponent (subnormal numbers and zero). -/
def Valid : F64 → Prop
  | nan => True
  | inf _ => True
  | fin _ m e => m < 9007199254740992 ∧ -1074 ≤ e ∧ e ≤ 971 ∧ (m < 4503599627370496 → e = -1074)

instance (x : F64) : Decidable (Valid x) := by
  cases x <;> unfold Valid <;> infer_instance

/-- Positive zero. -/
def zero : F64 := fin false 0 (-1074)

/-- Number of binary digits of `n`, with `fuel` bounding the recursion. -/
def bitsAux : Nat → Nat → Nat
  | 0, _ => 0
  | fuel + 1, n => if n = 0 then 0 else bitsAux fuel (n / 2) + 1

/-- Number of binary digits of `n`: the least `k` with `n < 2^k`. -/
def bits (n : Nat) : Nat := bitsAux n n

/-- The integer `floor (log2 (n / d))` for positive `n` and `d`. -/
def ilog2 (n d : Nat) : Int :=
  let k : Int := (bits n : Int) - (bits d : Int)
  if d * 2 ^ k.toNat ≤ n * 2 ^ (-k).toNat then k else k - 1

/-- The integer nearest to `n / d`, a tie going to the even neighbour. -/
def roundHalfEven (n d : Nat) : Nat :=
  if 2 * (n % d) < d then n / d
  else if d < 2 * (n % d) then n / d + 1
  else n / d + (n / d) % 2

/-- The exponent of the binary64 values around the magnitude `n / d`: the one that
puts the significand in `2^52 .. 2^53`, or the least exponent for the subnormal
magnitudes. -/
def rndExp (n d : Nat) : Int := max (ilog2 n d - 52) (-1074)

/-- The significand of `n / d` at the exponent `rndExp n d`, rounded to nearest, ties
to even. -/
def rndMant (n d : Nat) : Nat :=
  roundHalfEven (n * 2 ^ (-(rndExp n d)).toNat) (d * 2 ^ (rndExp n d).toNat)

/-- The value `(-1)^neg * m * 2^e` for a rounded significand `m` up to `2^53`: a
significand that rounded up to `2^53` moves to the next exponent, and an exponent
above `971` gives an infinity. -/
def pack (neg : Bool) (m : Nat) (e : Int) : F64 :=
  if m = 9007199254740992 then
    (if 971 < e + 1 then inf neg else fin neg 4503599627370496 (e + 1))
  else if 971 < e then inf neg
  else fin neg m e

/-- Rounding to nearest, ties to even: the binary64 value of sign `neg` nearest to
the magnitude `n / d` (`d` positive); magnitudes that round to `2^1024` or more give
an infinity. -/
def rnd (neg : Bool) (n d : Nat) : F64 :=
  if n = 0 then fin neg 0 (-1074)
  else pack neg (rndMant n d) (rndExp n d)

/-- Go `float64(i)` for an integer `i`. -/
def ofInt (i : Int) : F64 := rnd (decide (i < 0)) i.natAbs 1

/-- Sign change. -/
def neg : F64 → F64
  | nan => nan
  | inf s => inf (!s)
  | fin s m e => fin (!s) m e

/-- The integer of magnitude `n` and sign `s`. -/
def signed (s : Bool) (n : Nat) : Int := if s then -(n : Int) else (n : Int)

/-- Go `x + y` on `float64`. -/
def add : F64 → F64 → F64
  | nan, _ => nan
  | _, nan => nan
  | inf s, inf t => if s = t then inf s else nan
  | inf s, fin _ _ _ => inf s
  | fin _ _ _, inf t => inf t
  | fin s m e, fin t k f =>
    let g : Int := min e f
    let x : Int := signed s (m * 2 ^ (e - g).toNat)
    let y : Int := signed t (k * 2 ^ (f - g).toNat)
    if x + y = 0 then fin (s && t) 0 (-1074)
    else rnd (decide (x + y < 0)) ((x + y).natAbs * 2 ^ g.toNat) (2 ^ (-g).toNat)

/-- Go `x - y` on `float64`. -/
def sub (x y : F64) : F64 := add x (neg y)

/-- Go `x * y` on `float64`. -/
def mul : F64 → F64 → F64
  | nan, _ => nan
  | _, nan => nan
  | inf s, inf t => inf (xor s t)
  | inf s, fin t k _ => if k = 0 then nan else inf (xor s t)
  | fin s m _, inf t => if m = 0 then nan else inf (xor s t)
  | fin s m e, fin t k f =>
    rnd (xor s t) (m * k * 2 ^ (e + f).toNat) (2 ^ (-(e + f)).toNat)

/-- Go `x / y` on `float64`. -/
def div : F64 → F64 → F64
  | nan, _ => nan
  | _, nan => nan
  | inf _, inf _ => nan
  | inf s, fin t _ _ => inf (xor s t)
  | fin s _ _, inf t => fin (xor s t) 0 (-1074)
  | fin s m e, fin t k f =>
    if k = 0 then (if m = 0 then nan else inf (xor s t))
    else rnd (xor s t) (m * 2 ^ (e - f).toNat) (k * 2 ^ (f - e).toNat)

/-- Go `max(0.0, x)`: NaN is propagated, and negative zero is below zero. -/
def max0 : F64 → F64
  | nan => nan
  | inf s => if s then zero else inf false
  | fin s m e => if s || m = 0 then zero else fin s m e

/-- Go `x <= 0` on `float64` (false for NaN). -/
def le0 : F64 → Bool
  | nan => false
  | inf s => s
  | fin s m _ => s || m = 0

/-- Go `math.Ceil`. -/
def ceil : F64 → F64
  | nan => nan
  | inf s => inf s
  | fin s m e =>
    if 0 ≤ e then fin s m e
    else if s then
      (if m / 2 ^ (-e).toNat = 0 then fin true 0 (-1074) else rnd true (m / 2 ^ (-e).toNat) 1)
    else
      (if m = 0 then fin false 0 (-1074)
       else rnd false ((m + 2 ^ (-e).toNat - 1) / 2 ^ (-e).toNat) 1)

/-- The integer part (truncation toward zero) of a finite value. -/
def trunc (s : Bool) (m : Nat) (e : Int) : Int :=
  let t : Int := ((m * 2 ^ e.toNat / 2 ^ (-e).toNat : Nat) : Int)
  if s then -t else t

/-- Go `int64(x)` for a `float64` `x`: truncation toward zero when the result is an
`int64`, and otherwise the implementation-dependent value `oor x`. -/
def toInt64 (oor : F64 → Int) : F64 → Int
  | nan => wrap64 (oor nan)
  | inf s => wrap64 (oor (inf s))
  | fin s m e =>
    if -9223372036854775808 ≤ trunc s m e ∧ trunc s m e ≤ 9223372036854775807 then trunc s m e
    else wrap64 (oor (fin s m e))

end F64

/-! ## bucket.go -/

/-- Go `Bucket`: a single rate limit bucket. -/
structure Bucket where
  UpdatedAt : Int
  LimitPerWindow : Int
  Count : F64
  deriving DecidableEq

namespace Bucket

/-- Go `Bucket.countAt`:
`leakage := (float64(b.LimitPerWindow) * float64(now.Sub(b.UpdatedAt))) / float64(WindowDuration)`
and `max(0.0, b.Count-leakage)`. -/
def countAt (b : Bucket) (now : Int) : F64 :=
  let leakage :=
    F64.div (F64.mul (F64.ofInt b.LimitPerWindow) (F64.ofInt (timeSub now b.UpdatedAt)))
      (F64.ofInt WindowDuration)
  F64.max0 (F64.sub b.Count leakage)

/-- Go `Bucket.CountAt`: `int64(math.Ceil(b.countAt(now)))`. -/
def CountAt (oor : F64 → Int) (b : Bucket) (now : Int) : Int :=
  F64.toInt64 oor (F64.ceil (b.countAt now))

/-- Go `Bucket.Plus`: a copy of the bucket with the given amount of tokens added. -/
def Plus (b : Bucket) (now : Int) (limitPerWindow : Int) (add : Int) : Bucket :=
  { UpdatedAt := now
    LimitPerWindow := limitPerWindow
    Count := F64.add (b.countAt now) (F64.ofInt add) }

/-- Go `int64` division `x / y`: truncated, wrapping at `MinInt64 / -1`, and a
run-time panic (`none`) when `y` is zero. -/
def div64 (x y : Int) : Option Int :=
  if y = 0 then none else some (wrap64 (Int.tdiv x y))

/-- Go `Bucket.WillReach`: the time at which the bucket will have leaked down to
`count`, or `now` if it is already there; `none` is the division panic. -/
def WillReach (oor : F64 → Int) (b : Bucket) (count : Int) (now : Int) : Option Int :=
  if count < 0 then some now
  else
    let needToLeak := F64.sub b.Count (F64.ofInt count)
    if F64.le0 needToLeak then some now
    else
      match div64 (F64.toInt64 oor (F64.mul needToLeak (F64.ofInt WindowDuration)))
          b.LimitPerWindow with
      | none => none
      | some d =>
        let resetAt := b.UpdatedAt + d
        if resetAt < now then some now else some resetAt

end Bucket

/-- Go `bucket.Size` (`BucketSize` in `counter.go`): the capacity for a limit,
`(a + b - 1) / b` with `a = limitPerWindow * int64(BurstTolerance)` and
`b = int64(WindowDuration)`, in `int64` arithmetic. -/
def Size (limitPerWindow : Int) : Int :=
  let a := wrap64 (limitPerWindow * BurstTolerance)
  let b := WindowDuration
  wrap64 (Int.tdiv (wrap64 (wrap64 (a + b) - 1)) b)

/-! ## counter.go -/

/-- Go `Info`: rate limit information produced by a rate limit check. -/
structure Info where
  Bucket : String
  ResetAt : Int
  BucketSize : Int
  Remaining : Int
  Allowed : Bool
  deriving DecidableEq

/-- Go `Counter`: the map `buckets` from key to bucket; `none` is an absent key. -/
structure Counter where
  buckets : String → Option Bucket

/-- Go `NewCounter`: the empty registry. -/
def NewCounter : Counter := { buckets := fun _ => none }

/-- The zero value of `Bucket`, which a Go map lookup yields for an absent key. -/
def zeroBucket : Bucket := { UpdatedAt := 0, LimitPerWindow := 0, Count := F64.zero }

namespace Counter

/-- Go `p.buckets[key]`. -/
def lookup (p : Counter) (key : String) : Bucket :=
  match p.buckets key with
  | some b => b
  | none => zeroBucket

/-- Go `p.buckets[key] = b`. -/
def store (p : Counter) (key : String) (b : Bucket) : Counter :=
  { buckets := fun k => if k = key then some b else p.buckets k }

/-- Go `Counter.Add` called at the instant `now`: the returned `Info` and the
registry after the call, or `none` when the call panics. -/
def Add (oor : F64 → Int) (p : Counter) (now : Int) (key : String) (limitPerWindow : Int)
    (add : Int) : Option (Info × Counter) :=
  if limitPerWindow = 0 then
    some ({ Bucket := key, ResetAt := now, BucketSize := 0, Remaining := 0, Allowed := true }, p)
  else
    let existingBucket := p.lookup key
    let newBucket := existingBucket.Plus now limitPerWindow add
    let newCount := newBucket.CountAt oor now
    let bucketSize := Size limitPerWindow
    if newCount > bucketSize then
      match existingBucket.WillReach oor (wrap64 (bucketSize - add)) now with
      | none => none
      | some resetAt =>
        some ({ Bucket := key
                ResetAt := resetAt
                BucketSize := bucketSize
                Remaining := max 0 (wrap64 (bucketSize - existingBucket.CountAt oor now))
                Allowed := false }, p)
    else
      match newBucket.WillReach oor (wrap64 (bucketSize - 1)) now with
      | none => none
      | some resetAt =>
        some ({ Bucket := key
                ResetAt := resetAt
                BucketSize := bucketSize
                Remaining := wrap64 (bucketSize - newCount)
                Allowed := true }, store p key newBucket)

end Counter

/-! ## Conversions and concrete registries used in the examples -/

/-- The out-of-range conversion of the amd64 port of Go: every `float64` that is
NaN, infinite or outside the `int64` range converts to the least `int64`. -/
def oorAmd64 (_ : F64) : Int := -9223372036854775808

/-- An instant of the year 1997 (nanoseconds since the zero `time.Time`). -/
def t0 : Int := 63000000000000000000

/-- The registry after the admitted call `Add("k", limit, amount)` at `t0` on the empty
registry: one bucket for `"k"`. -/
def afterFirst (limit amount : Int) : Counter :=
  Counter.store NewCounter "k" (zeroBucket.Plus t0 limit amount)

/-- A registry holding one bucket whose stored limit is zero and whose count is 5. -/
def zeroLimitRegistry : Counter :=
  { buckets := fun k =>
      if k = "k" then some { UpdatedAt := 0, LimitPerWindow := 0, Count := F64.ofInt 5 } else none }

/-- The conversion `int64(x)` is fixed by the language: `x` is finite and its integer
part is an `int64`. -/
def F64.ExactInt64 : F64 → Prop
  | F64.nan => False
  | F64.inf _ => False
  | F64.fin s m e =>
    -9223372036854775808 ≤ F64.trunc s m e ∧ F64.trunc s m e ≤ 9223372036854775807

instance (x : F64) : Decidable (F64.ExactInt64 x) := by
  cases x <;> unfold F64.ExactInt64 <;> infer_instance

/-- The rational value of a finite `float64` (and `0` for NaN and the infinities). -/
def F64.toRat : F64 → ℚ
  | F64.fin s m e => (if s then -1 else 1) * (m : ℚ) * (2 : ℚ) ^ e
  | _ => 0

/-- The value is finite: neither NaN nor an infinity. -/
def F64.Finite : F64 → Prop
  | F64.fin _ _ _ => True
  | _ => False

instance (x : F64) : Decidable (F64.Finite x) := by
  cases x <;> unfold F64.Finite <;> infer_instance

/-- The magnitude `g` is that of a finite binary64 number: `g = k * 2^f` with
`k < 2^53` and `f` in `-1074 .. 971`. -/
def F64.Rep (g : ℚ) : Prop :=
  ∃ (k : Nat) (f : Int), k < 9007199254740992 ∧ -1074 ≤ f ∧ f ≤ 971 ∧ g = (k : ℚ) * (2 : ℚ) ^ f

/-- The sign `(-1)^s` as a rational number. -/
def F64.sgnQ (s : Bool) : ℚ := if s then -1 else 1

/-- The value `r` is a correct rounding of the exact result `v`: whenever `v` lies
between two numbers whose magnitudes are binary64 numbers, `r` is a finite binary64
number between them. -/
def F64.Rounds (r : F64) (v : ℚ) : Prop :=
  ∀ lo hi : ℚ, F64.Rep |lo| → F64.Rep |hi| → lo ≤ v → v ≤ hi →
    F64.Finite r ∧ F64.Valid r ∧ lo ≤ F64.toRat r ∧ F64.toRat r ≤ hi

/-- The `float64` value `1.0`. -/
def F64.one : F64 := F64.fin false 4503599627370496 (-52)

/-- The registry `p` is reachable from `NewCounter()` by `Add` calls at non-decreasing
times (the last one at `t`) whose limits satisfy `lim` and whose amounts satisfy
`amt`. -/
inductive ReachableBy (oor : F64 → Int) (lim amt : Int → Prop) : Counter → Int → Prop
  | init (t : Int) : ReachableBy oor lim amt NewCounter t
  | step (p : Counter) (t now : Int) (key : String) (L a : Int) (info : Info) (p' : Counter) :
      ReachableBy oor lim amt p t → t ≤ now → lim L → amt a →
      Counter.Add oor p now key L a = some (info, p') → ReachableBy oor lim amt p' now

/-- Limits whose capacity is computed without `int64` overflow: `0 .. 9223371976`. -/
def LimitInRange (L : Int) : Prop := 0 ≤ L ∧ L ≤ 9223371976

/-- Amounts from `0` to `2^62`. -/
def AmountInRange (a : Int) : Prop := 0 ≤ a ∧ a ≤ 4611686018427387904

/-- A stored bucket in good standing at time `t`: a limit in `1 .. 9223371976`, written
no later than `t`, and a count that is a binary64 number between `0` and the capacity of
that limit. -/
def Bucket.Good (b : Bucket) (t : Int) : Prop :=
  1 ≤ b.LimitPerWindow ∧ b.LimitPerWindow ≤ 9223371976 ∧ b.UpdatedAt ≤ t ∧
    F64.Finite b.Count ∧ F64.Valid b.Count ∧ 0 ≤ F64.toRat b.Count ∧
    F64.toRat b.Count ≤ ((Size b.LimitPerWindow : Int) : ℚ)

/-! ## Sequences of calls, the `float64` order and rounding -/

/-- A sequence of `Add` calls for one key with one limit, all at the instant `now`, the
amounts taken from the list in order: the `Info` of every call and the registry after the
last one, or `none` when a call panics. -/
def Counter.addAll (oor : F64 → Int) (now : Int) (key : String) (limitPerWindow : Int) :
    Counter → List Int → Option (List Info × Counter)
  | p, [] => some ([], p)
  | p, a :: rest =>
    match Counter.Add oor p now key limitPerWindow a with
    | none => none
    | some (info, p') =>
      match Counter.addAll oor now key limitPerWindow p' rest with
      | none => none
      | some (infos, q) => some (info :: infos, q)

/-- The admission rule for calls at one instant in the words of the specification: with
`s` the sum of the amounts admitted so far, a call of amount `a` is admitted exactly when
`s + a ≤ size` and then reports the remaining capacity `size - (s + a)`; the result lists,
call by call, `some remaining` for an admitted call and `none` for a rejected one. -/
def admissionRule (size : Int) : Int → List Int → List (Option Int)
  | _, [] => []
  | s, a :: rest =>
    if s + a ≤ size then some (size - (s + a)) :: admissionRule size (s + a) rest
    else none :: admissionRule size s rest

/-- What a caller observes of one call: the reported remaining capacity when the call
is admitted, and `none` when it is rejected. -/
def Info.observed (info : Info) : Option Int :=
  if info.Allowed then some info.Remaining else none

/-- The bucket of `key` in the registry `p` was written at `now` under the limit `L` and
holds the integer count `s` (or is absent, with `s = 0`); `s` is between `0` and the
largest capacity. -/
def Counter.HoldsAt (p : Counter) (key : String) (now L s : Int) : Prop :=
  0 ≤ s ∧ s ≤ 153722867 ∧
    ((p.buckets key = none ∧ s = 0) ∨
      ∃ N : F64, p.buckets key = some { UpdatedAt := now, LimitPerWindow := L, Count := N } ∧
        F64.Finite N ∧ F64.Valid N ∧ F64.toRat N = (s : ℚ))

/-- Go `x <= y` on `float64` (false when either side is NaN; the two zeros are equal). -/
def F64.le : F64 → F64 → Bool
  | F64.nan, _ => false
  | _, F64.nan => false
  | F64.inf s, F64.inf t => s || !t
  | F64.inf s, F64.fin _ _ _ => s
  | F64.fin _ _ _, F64.inf t => !t
  | F64.fin s m e, F64.fin t k f =>
    let g : Int := min e f
    decide (F64.signed s (m * 2 ^ (e - g).toNat) ≤ F64.signed t (k * 2 ^ (f - g).toNat))

/-- The value `r` is the rounding to nearest (ties to even) of the exact value `v`. -/
def F64.IsRnd (r : F64) (v : ℚ) : Prop :=
  ∃ (s : Bool) (n d : Nat), 0 < d ∧ r = F64.rnd s n d ∧ F64.sgnQ s * ((n : ℚ) / d) = v

/-! ## Registry invariants and sequences of calls at non-decreasing times -/

/-- Limits that are non-negative `int64` values. -/
def LimitNonneg (L : Int) : Prop := 0 ≤ L ∧ L ≤ 9223372036854775807

/-- A stored bucket within its capacity at time `t`: a positive `int64` limit, written no
later than `t`, and a count that is a binary64 number between `0` and the capacity
`Size` of that limit. -/
def Bucket.InCapacity (b : Bucket) (t : Int) : Prop :=
  1 ≤ b.LimitPerWindow ∧ b.LimitPerWindow ≤ 9223372036854775807 ∧ b.UpdatedAt ≤ t ∧
    F64.Finite b.Count ∧ F64.Valid b.Count ∧ 0 ≤ F64.toRat b.Count ∧
    F64.toRat b.Count ≤ ((Size b.LimitPerWindow : Int) : ℚ)

/-- A sequence of `Add` calls for one key with one limit, each call given as the pair of
its time and its amount, in order: the `Info` of every call and the registry after the
last one, or `none` when a call panics. -/
def Counter.addSeq (oor : F64 → Int) (key : String) (limitPerWindow : Int) :
    Counter → List (Int × Int) → Option (List Info × Counter)
  | p, [] => some ([], p)
  | p, (now, a) :: rest =>
    match Counter.Add oor p now key limitPerWindow a with
    | none => none
    | some (info, p') =>
      match Counter.addSeq oor key limitPerWindow p' rest with
      | none => none
      | some (infos, q) => some (info :: infos, q)

/-- The sum of the amounts of the admitted calls, given the `Info` of every call. -/
def admittedSum : List Info → List (Int × Int) → Int
  | info :: infos, (_, a) :: rest => (if info.Allowed then a else 0) + admittedSum infos rest
  | _, _ => 0

/-- The number of admitted calls. -/
def admittedCount : List Info → Nat
  | [] => 0
  | info :: infos => (if info.Allowed then 1 else 0) + admittedCount infos

/-- The time of the last call of a sequence, and `t` for the empty sequence. -/
def lastTime (t : Int) : List (Int × Int) → Int
  | [] => t
  | (now, _) :: rest => lastTime now rest

/-- The bound `B` is covered by the bucket of `key`: the key is absent and
`B ≤ L * τ / 1 minute`, or its bucket, written under the limit `L` at `UpdatedAt`, is in
good standing at `τ` and `B ≤ Count + L * UpdatedAt / 1 minute`. -/
def Counter.RateInv (p : Counter) (key : String) (L τ : Int) (B : ℚ) : Prop :=
  (p.buckets key = none ∧ B ≤ (L : ℚ) * (τ : ℚ) / 60000000000) ∨
    ∃ b : Bucket, p.buckets key = some b ∧ b.LimitPerWindow = L ∧ b.Good τ ∧
      B ≤ F64.toRat b.Count + (L : ℚ) * (b.UpdatedAt : ℚ) / 60000000000

/-! ## Sign of rounded values and the division in `WillReach` -/

open F64

theorem F64.rnd_sign (s : Bool) (n d : Nat) :
    rnd s n d = inf s ∨ ∃ m e, rnd s n d = fin s m e := by
  unfold rnd pack
  split_ifs <;> simp

theorem F64.le0_sub_zero_ofInt (c : Int) (hc : 0 ≤ c) :
    le0 (sub zero (ofInt c)) = true := by
  have hs : decide (c < 0) = false := by simpa using hc
  unfold ofInt
  rw [hs]
  rcases rnd_sign false c.natAbs 1 with h | ⟨m, e, h⟩
  · rw [h]; rfl
  · rw [h]
    simp only [sub, neg, zero, add, Bool.not_false]
    split_ifs with h0
    · simp [le0]
    · have hneg : signed false (0 * 2 ^ ((-1074 : Int) - min (-1074) e).toNat) +
          signed true (m * 2 ^ (e - min (-1074) e).toNat) < 0 := by
        simp only [signed] at h0 ⊢
        simp only [Bool.false_eq_true, if_false, if_true, Nat.zero_mul, Nat.cast_zero,
          zero_add] at h0 ⊢
        omega
      rw [decide_eq_true hneg]
      rcases rnd_sign true
        ((signed false (0 * 2 ^ ((-1074 : Int) - min (-1074) e).toNat) +
          signed true (m * 2 ^ (e - min (-1074) e).toNat)).natAbs * 2 ^ (min (-1074) e).toNat)
        (2 ^ (-(min (-1074) e)).toNat) with h1 | ⟨m1, e1, h1⟩
      · rw [h1]; rfl
      · rw [h1]; rfl

/-- On the zero-value bucket `WillReach` returns `now` before it reaches the division. -/
theorem Bucket.willReach_zeroBucket (oor : F64 → Int) (c now : Int) :
    zeroBucket.WillReach oor c now = some now := by
  unfold Bucket.WillReach
  by_cases hc : c < 0
  · simp [hc]
  · have h := F64.le0_sub_zero_ofInt c (by omega)
    simp only [hc, if_false]
    have : zeroBucket.Count = zero := rfl
    rw [this, h]
    simp

/-- With a non-zero stored limit `WillReach` does not panic. -/
theorem Bucket.willReach_isSome (oor : F64 → Int) (b : Bucket) (c now : Int)
    (hb : b.LimitPerWindow ≠ 0) : ∃ r, b.WillReach oor c now = some r := by
  unfold Bucket.WillReach Bucket.div64
  simp only [hb, if_false]
  split_ifs <;> simp

theorem Counter.lookup_of_none (p : Counter) (key : String) (h : p.buckets key = none) :
    p.lookup key = zeroBucket := by
  unfold Counter.lookup; rw [h]

/-- The pre-call bucket of a key never makes `WillReach` panic when the key is absent
or its stored limit is not zero. -/
theorem Counter.willReach_lookup_isSome (oor : F64 → Int) (p : Counter) (key : String)
    (c now : Int) (h : p.buckets key = none ∨ (p.lookup key).LimitPerWindow ≠ 0) :
    ∃ r, (p.lookup key).WillReach oor c now = some r := by
  rcases h with h | h
  · rw [Counter.lookup_of_none p key h]
    exact ⟨now, Bucket.willReach_zeroBucket oor c now⟩
  · exact Bucket.willReach_isSome oor _ c now h

/-- The three branches of `Counter.Add`: unlimited, rejected, admitted. -/
theorem Counter.add_cases (oor : F64 → Int) (p : Counter) (now : Int) (key : String)
    (L a : Int) :
    (L = 0 ∧ Counter.Add oor p now key L a =
      some ({ Bucket := key, ResetAt := now, BucketSize := 0, Remaining := 0, Allowed := true },
        p)) ∨
    (L ≠ 0 ∧ Size L < ((p.lookup key).Plus now L a).CountAt oor now ∧
      Counter.Add oor p now key L a =
        ((p.lookup key).WillReach oor (wrap64 (Size L - a)) now).map (fun r =>
          ({ Bucket := key, ResetAt := r, BucketSize := Size L,
             Remaining := max 0 (wrap64 (Size L - (p.lookup key).CountAt oor now)),
             Allowed := false }, p))) ∨
    (L ≠ 0 ∧ ¬ Size L < ((p.lookup key).Plus now L a).CountAt oor now ∧
      Counter.Add oor p now key L a =
        (((p.lookup key).Plus now L a).WillReach oor (wrap64 (Size L - 1)) now).map (fun r =>
          ({ Bucket := key, ResetAt := r, BucketSize := Size L,
             Remaining := wrap64 (Size L - ((p.lookup key).Plus now L a).CountAt oor now),
             Allowed := true }, p.store key ((p.lookup key).Plus now L a)))) := by
  by_cases hL : L = 0
  · left
    exact ⟨hL, by simp [Counter.Add, hL]⟩
  · by_cases hc : Size L < ((p.lookup key).Plus now L a).CountAt oor now
    · right; left
      refine ⟨hL, hc, ?_⟩
      simp only [Counter.Add, hL, if_false, gt_iff_lt, hc, if_true]
      cases (p.lookup key).WillReach oor (wrap64 (Size L - a)) now <;> rfl
    · right; right
      refine ⟨hL, hc, ?_⟩
      simp only [Counter.Add, hL, if_false, gt_iff_lt, hc]
      cases ((p.lookup key).Plus now L a).WillReach oor (wrap64 (Size L - 1)) now <;> rfl

theorem Counter.lookup_store_ne (p : Counter) (k k2 : String) (b : Bucket) (hk : k2 ≠ k) :
    (p.store k b).lookup k2 = p.lookup k2 := by
  simp [Counter.lookup, Counter.store, hk]

/-- The `Info` of `Add` for a key depends on the registry only through `lookup key`. -/
theorem Counter.add_info_congr (oor : F64 → Int) (p q : Counter) (now : Int) (key : String)
    (L a : Int) (h : p.lookup key = q.lookup key) :
    (Counter.Add oor p now key L a).map Prod.fst = (Counter.Add oor q now key L a).map Prod.fst := by
  rcases Counter.add_cases oor p now key L a with ⟨h0, e⟩ | ⟨h0, hc, e⟩ | ⟨h0, hc, e⟩
  · rcases Counter.add_cases oor q now key L a with ⟨-, e2⟩ | ⟨h1, -, -⟩ | ⟨h1, -, -⟩
    · rw [e, e2]; rfl
    · exact absurd h0 h1
    · exact absurd h0 h1
  · rw [h] at hc
    rcases Counter.add_cases oor q now key L a with ⟨h1, -⟩ | ⟨-, -, e2⟩ | ⟨-, hc2, -⟩
    · exact absurd h1 h0
    · rw [e, e2, h]
      cases (q.lookup key).WillReach oor (wrap64 (Size L - a)) now <;> rfl
    · exact absurd hc hc2
  · rw [h] at hc
    rcases Counter.add_cases oor q now key L a with ⟨h1, -⟩ | ⟨-, hc2, -⟩ | ⟨-, -, e2⟩
    · exact absurd h1 h0
    · exact absurd hc2 hc
    · rw [e, e2, h]
      cases ((q.lookup key).Plus now L a).WillReach oor (wrap64 (Size L - 1)) now <;> rfl

/-! ## Signs of counts and the `remaining` field -/

theorem wrap64_isInt64 (x : Int) : IsInt64 (wrap64 x) := by
  unfold IsInt64 wrap64
  omega

theorem wrap64_eq_self (x : Int) (h : IsInt64 x) : wrap64 x = x := by
  unfold IsInt64 at h
  unfold wrap64
  omega

theorem F64.max0_form (x : F64) :
    max0 x = nan ∨ max0 x = inf false ∨ ∃ m e, max0 x = fin false m e := by
  cases x with
  | nan => left; rfl
  | inf s => cases s <;> simp [max0, zero]
  | fin s m e =>
    cases s
    · by_cases hm : m = 0 <;> simp [max0, zero, hm]
    · simp [max0, zero]

theorem F64.ceil_form (x : F64)
    (hx : x = nan ∨ x = inf false ∨ ∃ m e, x = fin false m e) :
    ceil x = nan ∨ ceil x = inf false ∨ ∃ m e, ceil x = fin false m e := by
  rcases hx with h | h | ⟨m, e, h⟩
  · subst h; left; rfl
  · subst h; right; left; rfl
  · subst h
    simp only [ceil, Bool.false_eq_true, if_false]
    split_ifs with h1 h2
    · exact Or.inr (Or.inr ⟨_, _, rfl⟩)
    · exact Or.inr (Or.inr ⟨_, _, rfl⟩)
    · rcases rnd_sign false ((m + 2 ^ (-e).toNat - 1) / 2 ^ (-e).toNat) 1 with h3 | h3
      · exact Or.inr (Or.inl h3)
      · exact Or.inr (Or.inr h3)

theorem F64.toInt64_nonneg (oor : F64 → Int) (x : F64)
    (hx : x = nan ∨ x = inf false ∨ ∃ m e, x = fin false m e) (hex : ExactInt64 x) :
    0 ≤ toInt64 oor x := by
  rcases hx with h | h | ⟨m, e, h⟩
  · subst h; exact absurd hex (by simp [ExactInt64])
  · subst h; exact absurd hex (by simp [ExactInt64])
  · subst h
    simp only [ExactInt64] at hex
    simp only [toInt64, hex, and_self, if_true]
    simp only [trunc, Bool.false_eq_true, if_false]
    exact Int.natCast_nonneg _

/-- The reported count of a bucket is never negative when the conversion to `int64` is
exact. -/
theorem Bucket.countAt_int_nonneg (oor : F64 → Int) (b : Bucket) (now : Int)
    (hex : F64.ExactInt64 (F64.ceil (b.countAt now))) : 0 ≤ b.CountAt oor now := by
  unfold Bucket.CountAt
  exact F64.toInt64_nonneg oor _ (F64.ceil_form _ (F64.max0_form _)) hex

/-! ## Correct rounding: the binary64 arithmetic -/

theorem F64.bitsAux_spec (fuel : Nat) : ∀ n : Nat, n ≤ fuel →
    n < 2 ^ bitsAux fuel n ∧ (0 < n → 2 ^ (bitsAux fuel n - 1) ≤ n ∧ 0 < bitsAux fuel n) := by
  induction fuel with
  | zero =>
    intro n hn
    have : n = 0 := by omega
    subst this
    simp [bitsAux]
  | succ f ih =>
    intro n hn
    unfold bitsAux
    by_cases h0 : n = 0
    · subst h0; simp
    · simp only [h0, if_false]
      have hlt : n / 2 ≤ f := by omega
      obtain ⟨h1, h2⟩ := ih (n / 2) hlt
      refine ⟨?_, fun _ => ⟨?_, by omega⟩⟩
      · rw [pow_succ]; omega
      · simp only [Nat.add_sub_cancel]
        by_cases h3 : n / 2 = 0
        · have : bitsAux f (n / 2) = 0 := by
            rw [h3]; cases f <;> simp [bitsAux]
          rw [this]; simp; omega
        · obtain ⟨h4, h5⟩ := h2 (by omega)
          have : 2 ^ bitsAux f (n / 2) = 2 ^ (bitsAux f (n / 2) - 1) * 2 := by
            rw [← pow_succ]; congr 1; omega
          omega

theorem F64.bits_spec (n : Nat) (hn : 0 < n) :
    2 ^ (bits n - 1) ≤ n ∧ n < 2 ^ bits n ∧ 0 < bits n := by
  obtain ⟨h1, h2⟩ := bitsAux_spec n n le_rfl
  obtain ⟨h3, h4⟩ := h2 hn
  exact ⟨h3, h1, h4⟩

/-- A power of two with an integer exponent as a quotient of natural powers. -/
theorem two_zpow_split (e : Int) :
    ((2 : ℚ) ^ e.toNat) / ((2 : ℚ) ^ (-e).toNat) = (2 : ℚ) ^ e := by
  rcases le_total 0 e with h | h
  · have h1 : (-e).toNat = 0 := by omega
    rw [h1, pow_zero, div_one, ← zpow_natCast, Int.toNat_of_nonneg h]
  · have h1 : e.toNat = 0 := by omega
    have h2 : e = -((-e).toNat : Int) := by omega
    rw [h1, pow_zero, one_div]
    conv_rhs => rw [h2]
    rw [zpow_neg, zpow_natCast]

theorem two_zpow_pos (e : Int) : (0 : ℚ) < (2 : ℚ) ^ e := by positivity

/-- The test of `ilog2` compares `n / d` with `2^k`. -/
theorem F64.scaled_le_iff (n d : Nat) (hd : 0 < d) (k : Int) :
    d * 2 ^ k.toNat ≤ n * 2 ^ (-k).toNat ↔ (2 : ℚ) ^ k ≤ (n : ℚ) / d := by
  have hd' : (0 : ℚ) < d := by exact_mod_cast hd
  have hp : (0 : ℚ) < (2 : ℚ) ^ (-k).toNat := by positivity
  rw [← two_zpow_split k, div_le_div_iff₀ hp hd']
  constructor
  · intro h
    have : ((d * 2 ^ k.toNat : Nat) : ℚ) ≤ ((n * 2 ^ (-k).toNat : Nat) : ℚ) := by exact_mod_cast h
    push_cast at this
    linarith
  · intro h
    have : ((d * 2 ^ k.toNat : Nat) : ℚ) ≤ ((n * 2 ^ (-k).toNat : Nat) : ℚ) := by
      push_cast; linarith
    exact_mod_cast this

theorem F64.ilog2_spec (n d : Nat) (hn : 0 < n) (hd : 0 < d) :
    (2 : ℚ) ^ (ilog2 n d) ≤ (n : ℚ) / d ∧ (n : ℚ) / d < (2 : ℚ) ^ (ilog2 n d + 1) := by
  obtain ⟨hn1, hn2, hn3⟩ := bits_spec n hn
  obtain ⟨hd1, hd2, hd3⟩ := bits_spec d hd
  have hd' : (0 : ℚ) < d := by exact_mod_cast hd
  have hn' : (0 : ℚ) < n := by exact_mod_cast hn
  have qn1 : (2 : ℚ) ^ ((bits n : Int) - 1) ≤ n := by
    have : ((2 ^ (bits n - 1) : Nat) : ℚ) ≤ n := by exact_mod_cast hn1
    have e : ((bits n : Int) - 1) = ((bits n - 1 : Nat) : Int) := by omega
    rw [e, zpow_natCast]; exact_mod_cast this
  have qn2 : (n : ℚ) < (2 : ℚ) ^ (bits n : Int) := by
    rw [zpow_natCast]; exact_mod_cast hn2
  have qd1 : (2 : ℚ) ^ ((bits d : Int) - 1) ≤ d := by
    have : ((2 ^ (bits d - 1) : Nat) : ℚ) ≤ d := by exact_mod_cast hd1
    have e : ((bits d : Int) - 1) = ((bits d - 1 : Nat) : Int) := by omega
    rw [e, zpow_natCast]; exact_mod_cast this
  have qd2 : (d : ℚ) < (2 : ℚ) ^ (bits d : Int) := by
    rw [zpow_natCast]; exact_mod_cast hd2
  -- bounds on the quotient
  have hlo : (2 : ℚ) ^ ((bits n : Int) - (bits d : Int) - 1) < (n : ℚ) / d := by
    rw [lt_div_iff₀ hd']
    have e : (2 : ℚ) ^ ((bits n : Int) - 1) =
        (2 : ℚ) ^ ((bits n : Int) - (bits d : Int) - 1) * (2 : ℚ) ^ (bits d : Int) := by
      rw [← zpow_add₀ (by norm_num : (2 : ℚ) ≠ 0)]; congr 1; ring
    have hp := two_zpow_pos ((bits n : Int) - (bits d : Int) - 1)
    calc (2 : ℚ) ^ ((bits n : Int) - (bits d : Int) - 1) * d
        < (2 : ℚ) ^ ((bits n : Int) - (bits d : Int) - 1) * (2 : ℚ) ^ (bits d : Int) :=
          mul_lt_mul_of_pos_left qd2 hp
      _ = (2 : ℚ) ^ ((bits n : Int) - 1) := e.symm
      _ ≤ n := qn1
  have hhi : (n : ℚ) / d < (2 : ℚ) ^ ((bits n : Int) - (bits d : Int) + 1) := by
    rw [div_lt_iff₀ hd']
    have e : (2 : ℚ) ^ (bits n : Int) =
        (2 : ℚ) ^ ((bits n : Int) - (bits d : Int) + 1) * (2 : ℚ) ^ ((bits d : Int) - 1) := by
      rw [← zpow_add₀ (by norm_num : (2 : ℚ) ≠ 0)]; congr 1; ring
    have hp := two_zpow_pos ((bits n : Int) - (bits d : Int) + 1)
    calc (n : ℚ) < (2 : ℚ) ^ (bits n : Int) := qn2
      _ = (2 : ℚ) ^ ((bits n : Int) - (bits d : Int) + 1) * (2 : ℚ) ^ ((bits d : Int) - 1) := e
      _ ≤ (2 : ℚ) ^ ((bits n : Int) - (bits d : Int) + 1) * d :=
          mul_le_mul_of_nonneg_left qd1 hp.le
  unfold ilog2
  simp only
  split_ifs with h
  · rw [scaled_le_iff n d hd] at h
    exact ⟨h, hhi⟩
  · rw [scaled_le_iff n d hd] at h
    refine ⟨hlo.le, ?_⟩
    rw [sub_add_cancel]
    exact lt_of_not_le h

/-! ### Rounding a quotient to the nearest integer -/

theorem F64.roundHalfEven_le (N D j : Nat) (hD : 0 < D) (h : N ≤ j * D) :
    roundHalfEven N D ≤ j := by
  have hdm := Nat.div_add_mod N D
  have hm := Nat.mod_lt N hD
  have hq : N / D ≤ j := by
    rw [Nat.div_le_iff_le_mul_add_pred hD]
    have : j * D = D * j := Nat.mul_comm _ _
    omega
  unfold roundHalfEven
  have hpos : 0 < N % D → N / D + 1 ≤ j := by
    intro hr
    by_contra hc
    have hj : j = N / D := by omega
    rw [hj, Nat.mul_comm] at h
    omega
  split_ifs with h1 h2
  · exact hq
  · exact hpos (by omega)
  · have : (N / D) % 2 ≤ 1 := by omega
    have := hpos (by omega)
    omega

theorem F64.le_roundHalfEven (N D j : Nat) (hD : 0 < D) (h : j * D ≤ N) :
    j ≤ roundHalfEven N D := by
  have hq : j ≤ N / D := (Nat.le_div_iff_mul_le hD).2 h
  unfold roundHalfEven
  split_ifs <;> omega

theorem F64.roundHalfEven_le_of_rat (N D j : Nat) (hD : 0 < D) (h : (N : ℚ) / D ≤ j) :
    roundHalfEven N D ≤ j := by
  apply roundHalfEven_le N D j hD
  have hD' : (0 : ℚ) < D := by exact_mod_cast hD
  rw [div_le_iff₀ hD'] at h
  exact_mod_cast h

theorem F64.le_roundHalfEven_of_rat (N D j : Nat) (hD : 0 < D) (h : (j : ℚ) ≤ (N : ℚ) / D) :
    j ≤ roundHalfEven N D := by
  apply le_roundHalfEven N D j hD
  have hD' : (0 : ℚ) < D := by exact_mod_cast hD
  rw [le_div_iff₀ hD'] at h
  exact_mod_cast h

/-! ### The exponent and the significand chosen by `rnd` -/

theorem F64.rndExp_ge (n d : Nat) : -1074 ≤ rndExp n d := le_max_right _ _

theorem F64.rndExp_upper (n d : Nat) (hn : 0 < n) (hd : 0 < d) :
    (n : ℚ) / d < (2 : ℚ) ^ (rndExp n d + 53) := by
  have h := (ilog2_spec n d hn hd).2
  refine lt_of_lt_of_le h ?_
  apply zpow_le_zpow_right₀ (by norm_num)
  have : ilog2 n d - 52 ≤ rndExp n d := le_max_left _ _
  omega

theorem F64.rndExp_lower (n d : Nat) (hn : 0 < n) (hd : 0 < d) (he : -1074 < rndExp n d) :
    (2 : ℚ) ^ (rndExp n d + 52) ≤ (n : ℚ) / d := by
  have h := (ilog2_spec n d hn hd).1
  have e : rndExp n d = ilog2 n d - 52 := by
    unfold rndExp at he ⊢
    rcases max_cases (ilog2 n d - 52) (-1074) with ⟨h1, _⟩ | ⟨h1, _⟩
    · exact h1
    · rw [h1] at he; omega
  rw [e, sub_add_cancel]
  exact h

/-- The scaled quotient whose nearest integer is the significand. -/
theorem F64.scaled_quot (n d : Nat) (hd : 0 < d) (e : Int) :
    ((n * 2 ^ (-e).toNat : Nat) : ℚ) / ((d * 2 ^ e.toNat : Nat) : ℚ)
      = (n : ℚ) / d / (2 : ℚ) ^ e := by
  have hd' : (d : ℚ) ≠ 0 := by exact_mod_cast hd.ne'
  rw [← two_zpow_split e]
  push_cast
  field_simp

theorem F64.scaled_den_pos (d : Nat) (hd : 0 < d) (e : Int) : 0 < d * 2 ^ e.toNat :=
  Nat.mul_pos hd (by positivity)

theorem F64.rndMant_le_of (n d : Nat) (hd : 0 < d) (j : Nat)
    (h : (n : ℚ) / d ≤ (j : ℚ) * (2 : ℚ) ^ (rndExp n d)) : rndMant n d ≤ j := by
  unfold rndMant
  apply roundHalfEven_le_of_rat _ _ _ (scaled_den_pos d hd _)
  rw [scaled_quot n d hd, div_le_iff₀ (two_zpow_pos _)]
  exact h

theorem F64.le_rndMant_of (n d : Nat) (hd : 0 < d) (j : Nat)
    (h : (j : ℚ) * (2 : ℚ) ^ (rndExp n d) ≤ (n : ℚ) / d) : j ≤ rndMant n d := by
  unfold rndMant
  apply le_roundHalfEven_of_rat _ _ _ (scaled_den_pos d hd _)
  rw [scaled_quot n d hd, le_div_iff₀ (two_zpow_pos _)]
  exact h

theorem two_zpow_add (a b : Int) : (2 : ℚ) ^ (a + b) = (2 : ℚ) ^ a * (2 : ℚ) ^ b :=
  zpow_add₀ (by norm_num) a b

theorem two_pow_53 : (2 : ℚ) ^ (53 : Int) = 9007199254740992 := by norm_num

theorem two_pow_52 : (2 : ℚ) ^ (52 : Int) = 4503599627370496 := by norm_num

theorem F64.rndMant_le (n d : Nat) (hn : 0 < n) (hd : 0 < d) :
    rndMant n d ≤ 9007199254740992 := by
  apply rndMant_le_of n d hd
  have h := rndExp_upper n d hn hd
  rw [two_zpow_add, two_pow_53, mul_comm] at h
  push_cast
  exact h.le

theorem F64.le_rndMant (n d : Nat) (hn : 0 < n) (hd : 0 < d) (he : -1074 < rndExp n d) :
    4503599627370496 ≤ rndMant n d := by
  apply le_rndMant_of n d hd
  have h := rndExp_lower n d hn hd he
  rw [two_zpow_add, two_pow_52, mul_comm] at h
  push_cast
  exact h

/-! ### Rounding never crosses a binary64 number -/

theorem F64.rnd_eq_pack (s : Bool) (n d : Nat) (hn : 0 < n) :
    rnd s n d = pack s (rndMant n d) (rndExp n d) := by
  unfold rnd
  simp [hn.ne']

theorem F64.pack_fin_val (s s' : Bool) (M m : Nat) (e e' : Int)
    (h : pack s M e = fin s' m e') : s' = s ∧ (m : ℚ) * (2 : ℚ) ^ e' = (M : ℚ) * (2 : ℚ) ^ e := by
  unfold pack at h
  split_ifs at h with h1 h2 h3
  · simp only [fin.injEq] at h
    obtain ⟨hs, hm, he⟩ := h
    subst hs; subst hm; subst he
    refine ⟨rfl, ?_⟩
    rw [h1, two_zpow_add]
    norm_num
    ring
  · simp only [fin.injEq] at h
    obtain ⟨hs, hm, he⟩ := h
    subst hs; subst hm; subst he
    exact ⟨rfl, rfl⟩

/-- A representable magnitude at an exponent not below `e` is a multiple of `2^e`. -/
theorem F64.rep_multiple (k : Nat) (f e : Int) (h : e ≤ f) :
    ((k * 2 ^ (f - e).toNat : Nat) : ℚ) * (2 : ℚ) ^ e = (k : ℚ) * (2 : ℚ) ^ f := by
  push_cast
  have : (2 : ℚ) ^ (f - e).toNat = (2 : ℚ) ^ (f - e) := by
    rw [← zpow_natCast, Int.toNat_of_nonneg (by omega)]
  rw [this, mul_assoc, ← two_zpow_add]
  congr 2
  ring

theorem F64.rep_lt (k : Nat) (f : Int) (hk : k < 9007199254740992) :
    (k : ℚ) * (2 : ℚ) ^ f < (2 : ℚ) ^ (f + 53) := by
  rw [two_zpow_add, two_pow_53, mul_comm]
  apply mul_lt_mul_of_pos_left _ (two_zpow_pos f)
  exact_mod_cast hk

/-- The value of the rounded significand is at most every representable magnitude
above the quotient. -/
theorem F64.rnd_mant_val_le (n d : Nat) (hn : 0 < n) (hd : 0 < d) (k : Nat) (f : Int)
    (hk : k < 9007199254740992) (hf : -1074 ≤ f)
    (h : (n : ℚ) / d ≤ (k : ℚ) * (2 : ℚ) ^ f) :
    (rndMant n d : ℚ) * (2 : ℚ) ^ (rndExp n d) ≤ (k : ℚ) * (2 : ℚ) ^ f := by
  by_cases hfe : rndExp n d ≤ f
  · have hj := rndMant_le_of n d hd (k * 2 ^ (f - rndExp n d).toNat)
      (by rw [rep_multiple k f _ hfe]; exact h)
    rw [← rep_multiple k f _ hfe]
    apply mul_le_mul_of_nonneg_right _ (two_zpow_pos _).le
    exact_mod_cast hj
  · exfalso
    have he : -1074 < rndExp n d := by omega
    have h1 := rndExp_lower n d hn hd he
    have h2 := rep_lt k f hk
    have h3 : (2 : ℚ) ^ (f + 53) ≤ (2 : ℚ) ^ (rndExp n d + 52) :=
      zpow_le_zpow_right₀ (by norm_num) (by omega)
    linarith

/-- The value of the rounded significand is at least every representable magnitude
below the quotient. -/
theorem F64.le_rnd_mant_val (n d : Nat) (hn : 0 < n) (hd : 0 < d) (k : Nat) (f : Int)
    (hk : k < 9007199254740992) (hf : -1074 ≤ f)
    (h : (k : ℚ) * (2 : ℚ) ^ f ≤ (n : ℚ) / d) :
    (k : ℚ) * (2 : ℚ) ^ f ≤ (rndMant n d : ℚ) * (2 : ℚ) ^ (rndExp n d) := by
  by_cases hfe : rndExp n d ≤ f
  · have hj := le_rndMant_of n d hd (k * 2 ^ (f - rndExp n d).toNat)
      (by rw [rep_multiple k f _ hfe]; exact h)
    rw [← rep_multiple k f _ hfe]
    apply mul_le_mul_of_nonneg_right _ (two_zpow_pos _).le
    exact_mod_cast hj
  · have he : -1074 < rndExp n d := by omega
    have h1 := le_rndMant n d hn hd he
    have h2 := rep_lt k f hk
    have h3 : (2 : ℚ) ^ (f + 53) ≤ (2 : ℚ) ^ (rndExp n d + 52) :=
      zpow_le_zpow_right₀ (by norm_num) (by omega)
    have h4 : (2 : ℚ) ^ (rndExp n d + 52) ≤ (rndMant n d : ℚ) * (2 : ℚ) ^ (rndExp n d) := by
      rw [two_zpow_add, two_pow_52, mul_comm]
      apply mul_le_mul_of_nonneg_right _ (two_zpow_pos _).le
      exact_mod_cast h1
    linarith

/-- Upper bound: a quotient at most a representable magnitude `g` rounds to a finite
binary64 number of magnitude at most `g`. -/
theorem F64.rnd_upper (s : Bool) (n d : Nat) (hn : 0 < n) (hd : 0 < d) (g : ℚ) (hg : Rep g)
    (h : (n : ℚ) / d ≤ g) :
    ∃ m e, rnd s n d = fin s m e ∧ Valid (fin s m e) ∧ (m : ℚ) * (2 : ℚ) ^ e ≤ g := by
  obtain ⟨k, f, hk, hf1, hf2, rfl⟩ := hg
  have hV := rnd_mant_val_le n d hn hd k f hk hf1 h
  have hlt := rep_lt k f hk
  have hM := rndMant_le n d hn hd
  have hE := rndExp_ge n d
  rw [rnd_eq_pack s n d hn]
  unfold pack
  by_cases h1 : rndMant n d = 9007199254740992
  · have he : rndExp n d < f := by
      by_contra hc
      have h3 : (2 : ℚ) ^ (f + 53) ≤ (2 : ℚ) ^ (rndExp n d + 53) :=
        zpow_le_zpow_right₀ (by norm_num) (by omega)
      rw [h1] at hV
      have h4 : (2 : ℚ) ^ (rndExp n d + 53) = ((9007199254740992 : Nat) : ℚ) * (2 : ℚ) ^ (rndExp n d) := by
        rw [two_zpow_add, two_pow_53, mul_comm]; norm_num
      linarith
    have h2 : ¬ (971 < rndExp n d + 1) := by omega
    simp only [h1, if_true, h2, if_false]
    refine ⟨_, _, rfl, ?_, ?_⟩
    · simp only [Valid]
      refine ⟨by norm_num, by omega, by omega, fun hc => absurd hc (by norm_num)⟩
    · rw [h1] at hV
      rw [two_zpow_add]
      norm_num at hV ⊢
      linarith
  · have h2 : ¬ (971 < rndExp n d) := by
      intro hc
      have he : -1074 < rndExp n d := by omega
      have h1' := le_rndMant n d hn hd he
      have h3 : (2 : ℚ) ^ (f + 53) ≤ (2 : ℚ) ^ (rndExp n d + 52) :=
        zpow_le_zpow_right₀ (by norm_num) (by omega)
      have h4 : (2 : ℚ) ^ (rndExp n d + 52) ≤ (rndMant n d : ℚ) * (2 : ℚ) ^ (rndExp n d) := by
        rw [two_zpow_add, two_pow_52, mul_comm]
        apply mul_le_mul_of_nonneg_right _ (two_zpow_pos _).le
        exact_mod_cast h1'
      linarith
    simp only [h1, if_false, h2]
    refine ⟨_, _, rfl, ?_, hV⟩
    simp only [Valid]
    refine ⟨by omega, hE, by omega, fun hc => ?_⟩
    by_contra hne
    have := le_rndMant n d hn hd (by omega)
    omega

/-- Lower bound: a quotient at least a representable magnitude `g` rounds, when the
result is finite, to a magnitude at least `g`. -/
theorem F64.rnd_lower (s : Bool) (n d : Nat) (hn : 0 < n) (hd : 0 < d) (g : ℚ) (hg : Rep g)
    (h : g ≤ (n : ℚ) / d) (s' : Bool) (m : Nat) (e : Int) (hr : rnd s n d = fin s' m e) :
    g ≤ (m : ℚ) * (2 : ℚ) ^ e := by
  obtain ⟨k, f, hk, hf, -, rfl⟩ := hg
  rw [rnd_eq_pack s n d hn] at hr
  rw [(pack_fin_val _ _ _ _ _ _ hr).2]
  exact le_rnd_mant_val n d hn hd k f hk hf h
/-! ### Correct rounding of the arithmetic operations -/

theorem F64.toRat_fin (s : Bool) (m : Nat) (e : Int) :
    toRat (fin s m e) = sgnQ s * (m : ℚ) * (2 : ℚ) ^ e := rfl

theorem F64.sgnQ_xor (s t : Bool) : sgnQ (xor s t) = sgnQ s * sgnQ t := by
  cases s <;> cases t <;> simp [sgnQ]

theorem F64.signed_cast (s : Bool) (n : Nat) : ((signed s n : Int) : ℚ) = sgnQ s * (n : ℚ) := by
  cases s <;> simp [signed, sgnQ]

theorem F64.rnd_bounds (s : Bool) (n d : Nat) (hn : 0 < n) (hd : 0 < d) (lo hi : ℚ)
    (hlo : Rep |lo|) (hhi : Rep |hi|) (h1 : lo ≤ sgnQ s * ((n : ℚ) / d))
    (h2 : sgnQ s * ((n : ℚ) / d) ≤ hi) :
    Finite (rnd s n d) ∧ Valid (rnd s n d) ∧ lo ≤ toRat (rnd s n d) ∧ toRat (rnd s n d) ≤ hi := by
  have hq : (0 : ℚ) < (n : ℚ) / d := by
    have hn' : (0 : ℚ) < n := by exact_mod_cast hn
    have hd' : (0 : ℚ) < d := by exact_mod_cast hd
    positivity
  cases s with
  | false =>
    simp only [sgnQ, Bool.false_eq_true, if_false, one_mul] at h1 h2
    have hhi' : Rep hi := by rwa [abs_of_pos (lt_of_lt_of_le hq h2)] at hhi
    obtain ⟨m, e, hr, hv, hle⟩ := rnd_upper false n d hn hd hi hhi' h2
    have hnn : (0 : ℚ) ≤ (m : ℚ) * (2 : ℚ) ^ e :=
      mul_nonneg (Nat.cast_nonneg m) (two_zpow_pos e).le
    have hlow : lo ≤ (m : ℚ) * (2 : ℚ) ^ e := by
      rcases le_or_lt lo 0 with hl | hl
      · linarith
      · rw [abs_of_pos hl] at hlo
        exact rnd_lower false n d hn hd lo hlo h1 false m e hr
    rw [hr]
    refine ⟨trivial, hv, ?_, ?_⟩
    · rw [toRat_fin]; simp only [sgnQ, Bool.false_eq_true, if_false, one_mul]; exact hlow
    · rw [toRat_fin]; simp only [sgnQ, Bool.false_eq_true, if_false, one_mul]; exact hle
  | true =>
    simp only [sgnQ, if_true] at h1 h2
    have hlneg : lo < 0 := by linarith
    have hlo' : Rep (-lo) := by rwa [abs_of_neg hlneg] at hlo
    obtain ⟨m, e, hr, hv, hle⟩ := rnd_upper true n d hn hd (-lo) hlo' (by linarith)
    have hnn : (0 : ℚ) ≤ (m : ℚ) * (2 : ℚ) ^ e :=
      mul_nonneg (Nat.cast_nonneg m) (two_zpow_pos e).le
    have hup : -((m : ℚ) * (2 : ℚ) ^ e) ≤ hi := by
      rcases le_or_lt 0 hi with hl | hl
      · linarith
      · rw [abs_of_neg hl] at hhi
        have := rnd_lower true n d hn hd (-hi) hhi (by linarith) true m e hr
        linarith
    rw [hr]
    refine ⟨trivial, hv, ?_, ?_⟩
    · rw [toRat_fin]; simp only [sgnQ, if_true]; linarith
    · rw [toRat_fin]; simp only [sgnQ, if_true]; linarith

theorem F64.rep_zero : Rep 0 := ⟨0, 0, by norm_num, by norm_num, by norm_num, by simp⟩

theorem F64.rounds_zero (s : Bool) : Rounds (fin s 0 (-1074)) 0 := by
  intro lo hi _ _ h1 h2
  refine ⟨trivial, ?_, ?_, ?_⟩
  · simp [Valid]
  · rw [toRat_fin]; simpa using h1
  · rw [toRat_fin]; simpa using h2

theorem F64.rnd_rounds (s : Bool) (n d : Nat) (hd : 0 < d) :
    Rounds (rnd s n d) (sgnQ s * ((n : ℚ) / d)) := by
  rcases Nat.eq_zero_or_pos n with hn | hn
  · subst hn
    have : rnd s 0 d = fin s 0 (-1074) := by simp [rnd]
    rw [this]
    simpa using rounds_zero s
  · intro lo hi hlo hhi h1 h2
    exact rnd_bounds s n d hn hd lo hi hlo hhi h1 h2

theorem F64.Rounds.congr {r : F64} {v w : ℚ} (h : Rounds r v) (hvw : v = w) : Rounds r w := by
  subst hvw; exact h

/-- A correct rounding of a value whose magnitude is a binary64 number is that
value. -/
theorem F64.Rounds.exact {r : F64} {v : ℚ} (h : Rounds r v) (hv : Rep |v|) :
    Finite r ∧ Valid r ∧ toRat r = v := by
  obtain ⟨h1, h2, h3, h4⟩ := h v v hv hv le_rfl le_rfl
  exact ⟨h1, h2, le_antisymm h4 h3⟩

theorem F64.sgnQ_natAbs (z : Int) : sgnQ (decide (z < 0)) * ((z.natAbs : Nat) : ℚ) = (z : ℚ) := by
  rw [Nat.cast_natAbs]
  rcases lt_or_le z 0 with h | h
  · have h' : (z : ℚ) < 0 := by exact_mod_cast h
    simp only [h, decide_True, sgnQ, if_true, Int.cast_abs, abs_of_neg h']
    ring
  · have h' : (0 : ℚ) ≤ z := by exact_mod_cast h
    have hd : decide (z < 0) = false := by simpa using h
    simp only [hd, sgnQ, Bool.false_eq_true, if_false, Int.cast_abs, abs_of_nonneg h', one_mul]

theorem F64.ofInt_rounds (i : Int) : Rounds (ofInt i) (i : ℚ) := by
  unfold ofInt
  refine (rnd_rounds _ i.natAbs 1 (by norm_num)).congr ?_
  rw [Nat.cast_one, div_one]
  exact sgnQ_natAbs i

theorem two_pow_toNat_sub (e g : Int) (h : g ≤ e) :
    ((2 : ℚ) ^ (e - g).toNat) * (2 : ℚ) ^ g = (2 : ℚ) ^ e := by
  rw [← zpow_natCast, Int.toNat_of_nonneg (by omega), ← two_zpow_add]
  congr 1
  ring

theorem F64.add_rounds (x y : F64) (hx : Finite x) (hy : Finite y) :
    Rounds (add x y) (toRat x + toRat y) := by
  cases x with
  | nan => exact absurd hx (by simp [Finite])
  | inf s => exact absurd hx (by simp [Finite])
  | fin s m e =>
  cases y with
  | nan => exact absurd hy (by simp [Finite])
  | inf s => exact absurd hy (by simp [Finite])
  | fin t k f =>
    have hge : min e f ≤ e := min_le_left _ _
    have hgf : min e f ≤ f := min_le_right _ _
    have hX : ((signed s (m * 2 ^ (e - min e f).toNat) : Int) : ℚ) * (2 : ℚ) ^ (min e f)
        = toRat (fin s m e) := by
      rw [signed_cast, toRat_fin]
      push_cast
      rw [mul_assoc, mul_assoc, two_pow_toNat_sub e _ hge]
      ring
    have hY : ((signed t (k * 2 ^ (f - min e f).toNat) : Int) : ℚ) * (2 : ℚ) ^ (min e f)
        = toRat (fin t k f) := by
      rw [signed_cast, toRat_fin]
      push_cast
      rw [mul_assoc, mul_assoc, two_pow_toNat_sub f _ hgf]
      ring
    simp only [add]
    split_ifs with h0
    · refine (rounds_zero _).congr ?_
      rw [← hX, ← hY, ← add_mul]
      have : ((signed s (m * 2 ^ (e - min e f).toNat) : Int) : ℚ)
          + ((signed t (k * 2 ^ (f - min e f).toNat) : Int) : ℚ) = 0 := by
        exact_mod_cast h0
      rw [this, zero_mul]
    · refine (rnd_rounds _ _ _ (by positivity)).congr ?_
      rw [← hX, ← hY, ← add_mul, ← Int.cast_add]
      generalize signed s (m * 2 ^ (e - min e f).toNat)
        + signed t (k * 2 ^ (f - min e f).toNat) = z
      push_cast
      rw [mul_div_assoc, two_zpow_split, ← mul_assoc, sgnQ_natAbs]

theorem F64.toRat_neg (x : F64) : toRat (neg x) = -toRat x := by
  cases x with
  | nan => simp [neg, toRat]
  | inf s => simp [neg, toRat]
  | fin s m e => cases s <;> simp [neg, toRat]

theorem F64.finite_neg (x : F64) (h : Finite x) : Finite (neg x) := by
  cases x <;> simp_all [neg, Finite]

theorem F64.sub_rounds (x y : F64) (hx : Finite x) (hy : Finite y) :
    Rounds (sub x y) (toRat x - toRat y) := by
  unfold sub
  refine (add_rounds x (neg y) hx (finite_neg y hy)).congr ?_
  rw [toRat_neg]; ring

theorem F64.mul_rounds (x y : F64) (hx : Finite x) (hy : Finite y) :
    Rounds (mul x y) (toRat x * toRat y) := by
  cases x with
  | nan => exact absurd hx (by simp [Finite])
  | inf s => exact absurd hx (by simp [Finite])
  | fin s m e =>
  cases y with
  | nan => exact absurd hy (by simp [Finite])
  | inf s => exact absurd hy (by simp [Finite])
  | fin t k f =>
    simp only [mul]
    refine (rnd_rounds _ _ _ (by positivity)).congr ?_
    rw [toRat_fin, toRat_fin, sgnQ_xor]
    push_cast
    rw [mul_div_assoc, two_zpow_split, two_zpow_add]
    ring

theorem F64.div_rounds (x y : F64) (hx : Finite x) (hy : Finite y) (hy0 : toRat y ≠ 0) :
    Rounds (div x y) (toRat x / toRat y) := by
  cases x with
  | nan => exact absurd hx (by simp [Finite])
  | inf s => exact absurd hx (by simp [Finite])
  | fin s m e =>
  cases y with
  | nan => exact absurd hy (by simp [Finite])
  | inf s => exact absurd hy (by simp [Finite])
  | fin t k f =>
    have hk : k ≠ 0 := by
      rintro rfl
      exact hy0 (by simp [toRat])
    have hk' : (k : ℚ) ≠ 0 := by exact_mod_cast hk
    simp only [div, hk, if_false]
    refine (rnd_rounds _ _ _ (Nat.mul_pos (Nat.pos_of_ne_zero hk) (by positivity))).congr ?_
    rw [toRat_fin, toRat_fin, sgnQ_xor]
    have h1 : (2 : ℚ) ^ (e - f).toNat / (2 : ℚ) ^ (f - e).toNat = (2 : ℚ) ^ e / (2 : ℚ) ^ f := by
      have := two_zpow_split (e - f)
      rw [show -(e - f) = f - e by ring] at this
      rw [this, zpow_sub₀ (by norm_num)]
    have hs : sgnQ t ≠ 0 := by cases t <;> simp [sgnQ]
    have hp : (2 : ℚ) ^ f ≠ 0 := (two_zpow_pos f).ne'
    have hp2 : (2 : ℚ) ^ (f - e).toNat ≠ 0 := by positivity
    push_cast
    have h2 : (m : ℚ) * (2 : ℚ) ^ (e - f).toNat / ((k : ℚ) * (2 : ℚ) ^ (f - e).toNat)
        = (m : ℚ) / k * ((2 : ℚ) ^ (e - f).toNat / (2 : ℚ) ^ (f - e).toNat) := by
      field_simp
    rw [h2, h1]
    have hst : sgnQ s * sgnQ t = sgnQ s / sgnQ t := by
      cases s <;> cases t <;> simp [sgnQ]
    rw [hst]
    field_simp
    ring

/-! ### Values of `max0`, `le0`, `math.Ceil` and the conversion to `int64` -/

theorem F64.rep_of_valid (x : F64) (hf : Finite x) (hv : Valid x) : Rep |toRat x| := by
  cases x with
  | nan => exact absurd hf (by simp [Finite])
  | inf s => exact absurd hf (by simp [Finite])
  | fin s m e =>
    obtain ⟨h1, h2, h3, -⟩ := hv
    refine ⟨m, e, h1, h2, h3, ?_⟩
    rw [toRat_fin]
    have hnn : (0 : ℚ) ≤ (m : ℚ) * (2 : ℚ) ^ e :=
      mul_nonneg (Nat.cast_nonneg m) (two_zpow_pos e).le
    cases s
    · simp only [sgnQ, Bool.false_eq_true, if_false, one_mul]
      exact abs_of_nonneg hnn
    · simp only [sgnQ, if_true]
      rw [show (-1 : ℚ) * (m : ℚ) * (2 : ℚ) ^ e = -((m : ℚ) * (2 : ℚ) ^ e) by ring, abs_neg]
      exact abs_of_nonneg hnn

theorem F64.rep_nat (n : Nat) (h : n < 9007199254740992) : Rep (n : ℚ) :=
  ⟨n, 0, h, by norm_num, by norm_num, by simp⟩

theorem F64.rep_abs_int (z : Int) (h1 : -9007199254740992 < z) (h2 : z < 9007199254740992) :
    Rep |(z : ℚ)| := by
  have : |(z : ℚ)| = ((z.natAbs : Nat) : ℚ) := by
    rw [Nat.cast_natAbs, Int.cast_abs]
  rw [this]
  exact rep_nat _ (by omega)

theorem F64.max0_val (x : F64) (hf : Finite x) :
    Finite (max0 x) ∧ toRat (max0 x) = max 0 (toRat x) ∧ (Valid x → Valid (max0 x)) := by
  cases x with
  | nan => exact absurd hf (by simp [Finite])
  | inf s => exact absurd hf (by simp [Finite])
  | fin s m e =>
    have hp := two_zpow_pos e
    cases s
    · by_cases hm : m = 0
      · subst hm
        simp [max0, zero, Finite, toRat, Valid]
      · have hm' : (0 : ℚ) < m := by exact_mod_cast Nat.pos_of_ne_zero hm
        simp only [max0, Bool.false_or, decide_eq_true_eq, hm, if_false]
        refine ⟨trivial, ?_, id⟩
        rw [toRat_fin]
        simp only [sgnQ, Bool.false_eq_true, if_false, one_mul]
        rw [max_eq_right (by positivity)]
    · simp only [max0, Bool.true_or, if_true, zero]
      refine ⟨trivial, ?_, fun _ => by simp [Valid]⟩
      rw [toRat_fin, toRat_fin]
      simp only [sgnQ, if_true, Bool.false_eq_true, if_false]
      have : (-1 : ℚ) * (m : ℚ) * (2 : ℚ) ^ e ≤ 0 := by
        have : (0 : ℚ) ≤ (m : ℚ) * (2 : ℚ) ^ e := by positivity
        linarith
      rw [max_eq_left this]
      simp

theorem F64.le0_iff (x : F64) (hf : Finite x) : le0 x = true ↔ toRat x ≤ 0 := by
  cases x with
  | nan => exact absurd hf (by simp [Finite])
  | inf s => exact absurd hf (by simp [Finite])
  | fin s m e =>
    have hp := two_zpow_pos e
    rw [toRat_fin]
    cases s
    · simp only [le0, Bool.false_or, decide_eq_true_eq, sgnQ, Bool.false_eq_true, if_false,
        one_mul]
      constructor
      · rintro rfl; simp
      · intro h
        by_contra hm
        have hm' : (0 : ℚ) < m := by exact_mod_cast Nat.pos_of_ne_zero hm
        have : (0 : ℚ) < (m : ℚ) * (2 : ℚ) ^ e := by positivity
        linarith
    · simp only [le0, Bool.true_or, sgnQ, if_true, true_iff]
      have : (0 : ℚ) ≤ (m : ℚ) * (2 : ℚ) ^ e := by positivity
      linarith

theorem two_zpow_neg_eq (e : Int) (he : e < 0) :
    (2 : ℚ) ^ e = 1 / ((2 ^ (-e).toNat : Nat) : ℚ) := by
  have := two_zpow_split e
  have h1 : e.toNat = 0 := by omega
  rw [h1, pow_zero] at this
  rw [← this]
  push_cast
  rfl

theorem nat_add_pred_le_mul (m P : Nat) (hm : 0 < m) (hP : 0 < P) : m + P - 1 ≤ P * m := by
  obtain ⟨m', rfl⟩ : ∃ m', m = m' + 1 := ⟨m - 1, by omega⟩
  obtain ⟨P', rfl⟩ : ∃ P', P = P' + 1 := ⟨P - 1, by omega⟩
  have : (P' + 1) * (m' + 1) = P' * m' + P' + m' + 1 := by ring
  omega

theorem ceil_nat_div (m P : Nat) (hP : 0 < P) :
    ⌈(m : ℚ) / (P : ℚ)⌉ = (((m + P - 1) / P : Nat) : Int) := by
  have hP' : (0 : ℚ) < (P : ℚ) := by exact_mod_cast hP
  have hdm := Nat.div_add_mod (m + P - 1) P
  have hml := Nat.mod_lt (m + P - 1) hP
  rw [Int.ceil_eq_iff]
  have h4 : ((P * ((m + P - 1) / P) : Nat) : ℚ) < (m : ℚ) + P := by
    have : P * ((m + P - 1) / P) < m + P := by omega
    exact_mod_cast this
  have h5 : (m : ℚ) ≤ ((P * ((m + P - 1) / P) : Nat) : ℚ) := by
    have : m ≤ P * ((m + P - 1) / P) := by omega
    exact_mod_cast this
  rw [Nat.cast_mul] at h4 h5
  rw [Int.cast_natCast]
  constructor
  · rw [lt_div_iff₀ hP']
    nlinarith
  · rw [div_le_iff₀ hP']
    nlinarith

theorem ceil_neg_nat_div (m P : Nat) (hP : 0 < P) :
    ⌈-((m : ℚ) / (P : ℚ))⌉ = -(((m / P : Nat) : Int)) := by
  have hP' : (0 : ℚ) < (P : ℚ) := by exact_mod_cast hP
  have hdm := Nat.div_add_mod m P
  have hml := Nat.mod_lt m hP
  rw [Int.ceil_eq_iff]
  have h4 : ((P * (m / P) : Nat) : ℚ) ≤ (m : ℚ) := by
    have : P * (m / P) ≤ m := by omega
    exact_mod_cast this
  have h5 : (m : ℚ) < ((P * (m / P) : Nat) : ℚ) + P := by
    have : m < P * (m / P) + P := by omega
    exact_mod_cast this
  rw [Nat.cast_mul] at h4 h5
  rw [Int.cast_neg, Int.cast_natCast]
  constructor
  · have : (m : ℚ) / P < ((m / P : Nat) : ℚ) + 1 := by
      rw [div_lt_iff₀ hP']; nlinarith
    linarith
  · have : ((m / P : Nat) : ℚ) ≤ (m : ℚ) / P := by
      rw [le_div_iff₀ hP']; nlinarith
    linarith

theorem F64.toRat_fin_neg_exp (s : Bool) (m : Nat) (e : Int) (he : e < 0) :
    toRat (fin s m e) = sgnQ s * ((m : ℚ) / ((2 ^ (-e).toNat : Nat) : ℚ)) := by
  rw [toRat_fin, two_zpow_neg_eq e he]
  ring

theorem F64.rnd_nat_exact (s : Bool) (c : Nat) (hc : c < 9007199254740992) :
    Finite (rnd s c 1) ∧ Valid (rnd s c 1) ∧ toRat (rnd s c 1) = sgnQ s * (c : ℚ) := by
  have h := (rnd_rounds s c 1 (by norm_num)).exact (by
    rw [Nat.cast_one, div_one]
    have : |sgnQ s * (c : ℚ)| = (c : ℚ) := by
      cases s
      · simp [sgnQ]
      · simp [sgnQ]
    rw [this]
    exact rep_nat c hc)
  rw [Nat.cast_one, div_one] at h
  exact h

theorem F64.ceil_val (x : F64) (hf : Finite x) (hv : Valid x) :
    Finite (ceil x) ∧ Valid (ceil x) ∧ toRat (ceil x) = ((⌈toRat x⌉ : Int) : ℚ) := by
  cases x with
  | nan => exact absurd hf (by simp [Finite])
  | inf s => exact absurd hf (by simp [Finite])
  | fin s m e =>
    obtain ⟨hm, -, -, -⟩ := id hv
    by_cases he : 0 ≤ e
    · simp only [ceil, he, if_true]
      refine ⟨trivial, hv, ?_⟩
      have : toRat (fin s m e) = ((signed s (m * 2 ^ e.toNat) : Int) : ℚ) := by
        rw [toRat_fin, signed_cast]
        push_cast
        rw [← zpow_natCast, Int.toNat_of_nonneg he]
        ring
      rw [this, Int.ceil_intCast]
    · have he' : e < 0 := by omega
      have hP : 0 < 2 ^ (-e).toNat := by positivity
      have hcm : m / 2 ^ (-e).toNat ≤ m := Nat.div_le_self _ _
      rw [toRat_fin_neg_exp s m e he']
      cases s
      · -- positive values
        simp only [sgnQ, Bool.false_eq_true, if_false, one_mul]
        rw [ceil_nat_div m _ hP]
        by_cases hm0 : m = 0
        · subst hm0
          simp only [ceil, he, if_false, Bool.false_eq_true, if_true]
          refine ⟨trivial, by simp [Valid], ?_⟩
          have : (0 + 2 ^ (-e).toNat - 1) / 2 ^ (-e).toNat = 0 := by
            apply Nat.div_eq_of_lt; omega
          rw [this]
          simp [toRat]
        · simp only [ceil, he, if_false, Bool.false_eq_true, hm0]
          have hcle : (m + 2 ^ (-e).toNat - 1) / 2 ^ (-e).toNat ≤ m := by
            apply Nat.div_le_of_le_mul
            exact nat_add_pred_le_mul m _ (Nat.pos_of_ne_zero hm0) hP
          obtain ⟨h1, h2, h3⟩ := rnd_nat_exact false
            ((m + 2 ^ (-e).toNat - 1) / 2 ^ (-e).toNat) (by omega)
          refine ⟨h1, h2, ?_⟩
          rw [h3]
          simp only [sgnQ, Bool.false_eq_true, if_false, one_mul]
          rw [Int.cast_natCast]
      · -- negative values
        simp only [sgnQ, if_true, neg_one_mul]
        rw [ceil_neg_nat_div m _ hP]
        simp only [ceil, he, if_false, if_true]
        by_cases hc0 : m / 2 ^ (-e).toNat = 0
        · simp only [hc0, if_true]
          refine ⟨trivial, by simp [Valid], ?_⟩
          simp [toRat]
        · simp only [hc0, if_false]
          obtain ⟨h1, h2, h3⟩ := rnd_nat_exact true (m / 2 ^ (-e).toNat) (by omega)
          refine ⟨h1, h2, ?_⟩
          rw [h3]
          simp only [sgnQ, if_true, neg_one_mul]
          rw [Int.cast_neg, Int.cast_natCast]

/-- The conversion to `int64` of a finite value that is an integer in range. -/
theorem F64.toInt64_of_int (oor : F64 → Int) (x : F64) (hf : Finite x) (z : Int)
    (hz : toRat x = (z : ℚ)) (hr : IsInt64 z) : toInt64 oor x = z := by
  cases x with
  | nan => exact absurd hf (by simp [Finite])
  | inf s => exact absurd hf (by simp [Finite])
  | fin s m e =>
    have hP : 0 < 2 ^ (-e).toNat := by positivity
    have hP' : (0 : ℚ) < ((2 ^ (-e).toNat : Nat) : ℚ) := by exact_mod_cast hP
    have hw : ((m * 2 ^ e.toNat : Nat) : ℚ) / ((2 ^ (-e).toNat : Nat) : ℚ) = (m : ℚ) * (2 : ℚ) ^ e := by
      push_cast
      rw [mul_div_assoc, two_zpow_split]
    have habs : (m : ℚ) * (2 : ℚ) ^ e = ((z.natAbs : Nat) : ℚ) := by
      rw [Nat.cast_natAbs, Int.cast_abs, ← hz, toRat_fin]
      have hnn : (0 : ℚ) ≤ (m : ℚ) * (2 : ℚ) ^ e :=
        mul_nonneg (Nat.cast_nonneg m) (two_zpow_pos e).le
      cases s
      · simp only [sgnQ, Bool.false_eq_true, if_false, one_mul]
        exact (abs_of_nonneg hnn).symm
      · simp only [sgnQ, if_true]
        rw [show (-1 : ℚ) * (m : ℚ) * (2 : ℚ) ^ e = -((m : ℚ) * (2 : ℚ) ^ e) by ring, abs_neg]
        exact (abs_of_nonneg hnn).symm
    have hdiv : m * 2 ^ e.toNat / 2 ^ (-e).toNat = z.natAbs := by
      rw [habs, div_eq_iff hP'.ne'] at hw
      have : m * 2 ^ e.toNat = z.natAbs * 2 ^ (-e).toNat := by exact_mod_cast hw
      rw [this, Nat.mul_div_cancel _ hP]
    have htr : trunc s m e = z := by
      simp only [trunc, hdiv]
      have hz' : sgnQ s * ((z.natAbs : Nat) : ℚ) = (z : ℚ) := by
        rw [← habs, ← hz, toRat_fin]; ring
      cases s
      · simp only [Bool.false_eq_true, if_false]
        simp only [sgnQ, Bool.false_eq_true, if_false, one_mul] at hz'
        have hz0 : (0 : ℚ) ≤ (z : ℚ) := by rw [← hz']; exact Nat.cast_nonneg _
        have hz1 : 0 ≤ z := by exact_mod_cast hz0
        omega
      · simp only [if_true]
        simp only [sgnQ, if_true] at hz'
        have hz0 : (z : ℚ) ≤ 0 := by
          rw [← hz']
          have : (0 : ℚ) ≤ ((z.natAbs : Nat) : ℚ) := Nat.cast_nonneg _
          linarith
        have hz1 : z ≤ 0 := by exact_mod_cast hz0
        omega
    unfold IsInt64 at hr
    simp only [toInt64, htr, hr.1, hr.2, and_self, if_true]

/-- The reported count `int64(math.Ceil(c))` of a finite fill `c` whose ceiling is an
`int64`. -/
theorem F64.toInt64_ceil (oor : F64 → Int) (c : F64) (hf : Finite c) (hv : Valid c)
    (hr : IsInt64 ⌈toRat c⌉) : toInt64 oor (ceil c) = ⌈toRat c⌉ := by
  obtain ⟨h1, -, h3⟩ := ceil_val c hf hv
  exact toInt64_of_int oor (ceil c) h1 _ h3 hr

/-! ### Exact conversions and the fill of particular buckets -/

theorem timeSub_eq (t u : Int) (h : IsInt64 (t - u)) : timeSub t u = t - u := by
  unfold IsInt64 at h
  unfold timeSub
  split_ifs <;> omega

theorem timeSub_isInt64 (t u : Int) : IsInt64 (timeSub t u) := by
  unfold IsInt64 timeSub
  split_ifs <;> omega

theorem F64.rep_two_pow_63 : Rep |(9223372036854775808 : ℚ)| :=
  ⟨1, 63, by norm_num, by norm_num, by norm_num, by norm_num⟩

theorem F64.rep_neg_two_pow_63 : Rep |(-9223372036854775808 : ℚ)| :=
  ⟨1, 63, by norm_num, by norm_num, by norm_num, by norm_num⟩

/-- The conversion of an `int64` to `float64` is finite, of magnitude at most `2^63`. -/
theorem F64.ofInt_int64 (i : Int) (h : IsInt64 i) :
    Finite (ofInt i) ∧ Valid (ofInt i) ∧ -9223372036854775808 ≤ toRat (ofInt i) ∧
      toRat (ofInt i) ≤ 9223372036854775808 := by
  unfold IsInt64 at h
  refine ofInt_rounds i _ _ rep_neg_two_pow_63 rep_two_pow_63 ?_ ?_
  · have : (-9223372036854775808 : Int) ≤ i := h.1
    exact_mod_cast this
  · have : i ≤ (9223372036854775808 : Int) := by omega
    exact_mod_cast this

/-- The conversion of an integer of magnitude below `2^53` is exact. -/
theorem F64.ofInt_exact (i : Int) (h1 : -9007199254740992 < i) (h2 : i < 9007199254740992) :
    Finite (ofInt i) ∧ Valid (ofInt i) ∧ toRat (ofInt i) = (i : ℚ) :=
  (ofInt_rounds i).exact (rep_abs_int i h1 h2)

theorem F64.ofInt_window : ofInt WindowDuration = fin false 7864320000000000 (-17) := by decide

theorem F64.toRat_window : toRat (ofInt WindowDuration) = 60000000000 := by
  rw [ofInt_window, toRat_fin]
  simp only [sgnQ, Bool.false_eq_true, if_false, one_mul]
  norm_num

theorem F64.finite_window : Finite (ofInt WindowDuration) := by
  rw [ofInt_window]; trivial

/-- A zero product divided by the window and subtracted from `+0` leaves `+0`. -/
theorem F64.zero_leak (y : F64) (hy : Finite y) :
    max0 (sub zero (div (mul (ofInt 0) y) (ofInt WindowDuration))) = zero := by
  cases y with
  | nan => exact absurd hy (by simp [Finite])
  | inf s => exact absurd hy (by simp [Finite])
  | fin s m e =>
    have h0 : ofInt 0 = fin false 0 (-1074) := by decide
    rw [h0, ofInt_window]
    simp only [mul, Nat.zero_mul, rnd, if_true, Bool.false_xor, div, Bool.xor_false]
    cases s <;> rfl

/-- The decayed fill of the zero-value bucket is `+0` at every instant. -/
theorem Bucket.zeroBucket_countAt (now : Int) : zeroBucket.countAt now = zero := by
  unfold Bucket.countAt
  exact zero_leak _ (ofInt_int64 _ (timeSub_isInt64 _ _)).1


theorem F64.rep_pos (k : Nat) (f : Int) (hk : k < 9007199254740992) (hf1 : -1074 ≤ f)
    (hf2 : f ≤ 971) (v : ℚ) (hv : v = (k : ℚ) * (2 : ℚ) ^ f) : Rep |v| := by
  refine ⟨k, f, hk, hf1, hf2, ?_⟩
  rw [hv]
  exact abs_of_nonneg (mul_nonneg (Nat.cast_nonneg k) (two_zpow_pos f).le)

theorem F64.toRat_one : toRat one = 1 := by
  unfold one
  rw [toRat_fin]
  simp only [sgnQ, Bool.false_eq_true, if_false, one_mul]
  norm_num

theorem Bucket.plus_zeroBucket_one (t : Int) :
    zeroBucket.Plus t 60 1 = { UpdatedAt := t, LimitPerWindow := 60, Count := one } := by
  unfold Bucket.Plus
  rw [Bucket.zeroBucket_countAt]
  have : add zero (ofInt 1) = one := by decide
  rw [this]

theorem timeSub_self (t : Int) : timeSub t t = 0 := by
  rw [timeSub_eq t t (by unfold IsInt64; omega)]
  omega

/-- Under limit 60, the wait computed by `WillReach` for a bucket holding one token and
the target count 0 is one second. -/
theorem Bucket.willReach_one (oor : F64 → Int) (t now : Int) (h : now ≤ t + 1000000000) :
    Bucket.WillReach oor { UpdatedAt := t, LimitPerWindow := 60, Count := one } 0 now
      = some (t + 1000000000) := by
  have h1 : le0 (sub one (ofInt 0)) = false := by decide
  have h2 : toInt64 oor (mul (sub one (ofInt 0)) (ofInt WindowDuration)) = 60000000000 := by rfl
  have h3 : Bucket.div64 60000000000 60 = some 1000000000 := by decide
  have e : Bucket.WillReach oor { UpdatedAt := t, LimitPerWindow := 60, Count := one } 0 now =
      (if (0 : Int) < 0 then some now
       else if le0 (sub one (ofInt 0)) then some now
       else match Bucket.div64 (toInt64 oor (mul (sub one (ofInt 0)) (ofInt WindowDuration))) 60 with
        | none => none
        | some d => if t + d < now then some now else some (t + d)) := rfl
  rw [e, h1, h2, h3, if_neg (lt_irrefl 0), if_neg Bool.false_ne_true]
  show (if t + 1000000000 < now then some now else some (t + 1000000000)) = _
  rw [if_neg (by omega)]

/-- The fill of a bucket holding one token under limit 60, less than a second after it
was written: between `2^-30` and `1`. -/
theorem Bucket.countAt_one_bounds (t0 t1 : Int) (h01 : t0 ≤ t1) (h1 : t1 < t0 + 1000000000) :
    Finite (Bucket.countAt { UpdatedAt := t0, LimitPerWindow := 60, Count := one } t1) ∧
    Valid (Bucket.countAt { UpdatedAt := t0, LimitPerWindow := 60, Count := one } t1) ∧
    (1 : ℚ) / 1073741824 ≤
      toRat (Bucket.countAt { UpdatedAt := t0, LimitPerWindow := 60, Count := one } t1) ∧
    toRat (Bucket.countAt { UpdatedAt := t0, LimitPerWindow := 60, Count := one } t1) ≤ 1 := by
  have hδ : timeSub t1 t0 = t1 - t0 := timeSub_eq t1 t0 (by unfold IsInt64; omega)
  obtain ⟨hA1, -, hA3⟩ := ofInt_exact 60 (by norm_num) (by norm_num)
  obtain ⟨hB1, -, hB3⟩ := ofInt_exact (t1 - t0) (by omega) (by omega)
  have hd0 : (0 : ℚ) ≤ ((t1 - t0 : Int) : ℚ) := by
    have : (0 : Int) ≤ t1 - t0 := by omega
    exact_mod_cast this
  have hd1 : ((t1 - t0 : Int) : ℚ) ≤ 999999999 := by
    have : t1 - t0 ≤ (999999999 : Int) := by omega
    exact_mod_cast this
  obtain ⟨hP1, -, hP3⟩ := (mul_rounds _ _ hA1 hB1).exact (by
    rw [hA3, hB3]
    have : ((60 : Int) : ℚ) * ((t1 - t0 : Int) : ℚ) = ((60 * (t1 - t0) : Int) : ℚ) := by
      push_cast; ring
    rw [this]
    exact rep_abs_int _ (by omega) (by omega))
  rw [hA3, hB3] at hP3
  have hW0 : toRat (ofInt WindowDuration) ≠ 0 := by rw [toRat_window]; norm_num
  obtain ⟨hQ1, -, hQ3, hQ4⟩ := div_rounds _ _ hP1 finite_window hW0 0 (1073741823 / 1073741824)
    (by simpa using rep_zero)
    (rep_pos 1073741823 (-30) (by norm_num) (by norm_num) (by norm_num) _ (by norm_num))
    (by rw [hP3, toRat_window]; push_cast at hd0 ⊢; apply div_nonneg <;> [linarith; norm_num])
    (by rw [hP3, toRat_window, div_le_iff₀ (by norm_num)]; push_cast at hd1 ⊢; linarith)
  obtain ⟨hR1, hR2, hR3, hR4⟩ := sub_rounds one _ trivial hQ1 (1 / 1073741824) 1
    (rep_pos 1 (-30) (by norm_num) (by norm_num) (by norm_num) _ (by norm_num))
    (rep_pos 1 0 (by norm_num) (by norm_num) (by norm_num) _ (by norm_num))
    (by rw [toRat_one]; linarith) (by rw [toRat_one]; linarith)
  obtain ⟨hM1, hM2, hM3⟩ := max0_val _ hR1
  have hcount : Bucket.countAt { UpdatedAt := t0, LimitPerWindow := 60, Count := one } t1 =
      max0 (sub one (div (mul (ofInt 60) (ofInt (t1 - t0))) (ofInt WindowDuration))) := by
    unfold Bucket.countAt
    simp only [hδ]
  rw [hcount]
  refine ⟨hM1, hM3 hR2, ?_, ?_⟩
  · rw [hM2]; exact le_trans hR3 (le_max_right _ _)
  · rw [hM2]; exact max_le (by norm_num) hR4

/-- Adding one token to a fill between `2^-30` and `1` gives a bucket whose reported
count at the instant of the addition is 2. -/
theorem Bucket.countAt_plus_one (oor : F64 → Int) (b : Bucket) (now : Int)
    (hf : Finite (b.countAt now)) (hlo : (1 : ℚ) / 1073741824 ≤ toRat (b.countAt now))
    (hhi : toRat (b.countAt now) ≤ 1) :
    (b.Plus now 60 1).CountAt oor now = 2 := by
  obtain ⟨hI1, -, hI3⟩ := ofInt_exact 1 (by norm_num) (by norm_num)
  obtain ⟨hN1, hN2, hN3, hN4⟩ := add_rounds _ _ hf hI1 (1073741825 / 1073741824) 2
    (rep_pos 1073741825 (-30) (by norm_num) (by norm_num) (by norm_num) _ (by norm_num))
    (rep_pos 2 0 (by norm_num) (by norm_num) (by norm_num) _ (by norm_num))
    (by rw [hI3]; push_cast; linarith) (by rw [hI3]; push_cast; linarith)
  have hz : div (mul (ofInt 60) (ofInt 0)) (ofInt WindowDuration) = zero := by decide
  have hz0 : toRat zero = 0 := by simp [zero, toRat]
  obtain ⟨hS1, hS2, hS3⟩ := (sub_rounds (add (b.countAt now) (ofInt 1)) zero hN1 trivial).exact (by
    rw [hz0, sub_zero]; exact rep_of_valid _ hN1 hN2)
  rw [hz0, sub_zero] at hS3
  obtain ⟨hM1, hM2, hM3⟩ := max0_val _ hS1
  have hcount : (b.Plus now 60 1).countAt now =
      max0 (sub (add (b.countAt now) (ofInt 1)) zero) := by
    have e1 : (b.Plus now 60 1).countAt now =
        max0 (sub (add (b.countAt now) (ofInt 1))
          (div (mul (ofInt 60) (ofInt (timeSub now now))) (ofInt WindowDuration))) := rfl
    rw [e1, timeSub_self, hz]
  have hval : toRat ((b.Plus now 60 1).countAt now) = toRat (add (b.countAt now) (ofInt 1)) := by
    rw [hcount, hM2, hS3]
    exact max_eq_right (by linarith)
  have hceil : ⌈toRat ((b.Plus now 60 1).countAt now)⌉ = 2 := by
    rw [hval, Int.ceil_eq_iff]
    constructor
    · push_cast; linarith
    · push_cast; linarith
  unfold Bucket.CountAt
  rw [toInt64_ceil oor _ (by rw [hcount]; exact hM1) (by rw [hcount]; exact hM3 hS2)
    (by rw [hceil]; unfold IsInt64; omega), hceil]


theorem Counter.lookup_store_self (p : Counter) (key : String) (b : Bucket) :
    (p.store key b).lookup key = b := by
  simp [Counter.lookup, Counter.store]

/-! ### Validity of computed values and the range of `Size` -/

theorem F64.rnd_valid (s : Bool) (n d : Nat) (hd : 0 < d) : Valid (rnd s n d) := by
  rcases Nat.eq_zero_or_pos n with hn | hn
  · subst hn
    simp [rnd, Valid]
  · have hM := rndMant_le n d hn hd
    have hE := rndExp_ge n d
    rw [rnd_eq_pack s n d hn]
    unfold pack
    split_ifs with h1 h2 h3
    · trivial
    · simp only [Valid]
      refine ⟨by norm_num, by omega, by omega, fun hc => absurd hc (by norm_num)⟩
    · trivial
    · simp only [Valid]
      refine ⟨by omega, hE, by omega, fun hc => ?_⟩
      by_contra hne
      have := le_rndMant n d hn hd (by omega)
      omega

theorem F64.add_valid (x y : F64) : Valid (add x y) := by
  cases x with
  | nan => simp [add, Valid]
  | inf s =>
    cases y with
    | nan => simp [add, Valid]
    | inf t => by_cases h : s = t <;> simp [add, Valid, h]
    | fin t k f => simp [add, Valid]
  | fin s m e =>
    cases y with
    | nan => simp [add, Valid]
    | inf t => simp [add, Valid]
    | fin t k f =>
      simp only [add]
      split_ifs
      · simp [Valid]
      · exact rnd_valid _ _ _ (by positivity)

theorem F64.max0_valid (x : F64) (h : Valid x) : Valid (max0 x) := by
  cases x with
  | nan => trivial
  | inf s => cases s <;> simp [max0, zero, Valid]
  | fin s m e =>
    simp only [max0]
    split_ifs
    · simp [zero, Valid]
    · exact h

theorem Bucket.countAt_valid (b : Bucket) (now : Int) : Valid (b.countAt now) := by
  unfold Bucket.countAt
  exact max0_valid _ (add_valid _ _)

theorem F64.finite_of_ceil (x : F64) (h : Finite (ceil x)) : Finite x := by
  cases x with
  | nan => exact h
  | inf s => exact h
  | fin s m e => trivial

theorem F64.finite_of_exact (x : F64) (h : ExactInt64 x) : Finite x := by
  cases x with
  | nan => exact h
  | inf s => exact h
  | fin s m e => trivial

/-- The integer part of a finite value that is an integer. -/
theorem F64.trunc_of_int (s : Bool) (m : Nat) (e : Int) (z : Int)
    (hz : toRat (fin s m e) = (z : ℚ)) : trunc s m e = z := by
  have hP : 0 < 2 ^ (-e).toNat := by positivity
  have hP' : (0 : ℚ) < ((2 ^ (-e).toNat : Nat) : ℚ) := by exact_mod_cast hP
  have hw : ((m * 2 ^ e.toNat : Nat) : ℚ) / ((2 ^ (-e).toNat : Nat) : ℚ) = (m : ℚ) * (2 : ℚ) ^ e := by
    push_cast
    rw [mul_div_assoc, two_zpow_split]
  have habs : (m : ℚ) * (2 : ℚ) ^ e = ((z.natAbs : Nat) : ℚ) := by
    rw [Nat.cast_natAbs, Int.cast_abs, ← hz, toRat_fin]
    have hnn : (0 : ℚ) ≤ (m : ℚ) * (2 : ℚ) ^ e :=
      mul_nonneg (Nat.cast_nonneg m) (two_zpow_pos e).le
    cases s
    · simp only [sgnQ, Bool.false_eq_true, if_false, one_mul]
      exact (abs_of_nonneg hnn).symm
    · simp only [sgnQ, if_true]
      rw [show (-1 : ℚ) * (m : ℚ) * (2 : ℚ) ^ e = -((m : ℚ) * (2 : ℚ) ^ e) by ring, abs_neg]
      exact (abs_of_nonneg hnn).symm
  have hdiv : m * 2 ^ e.toNat / 2 ^ (-e).toNat = z.natAbs := by
    rw [habs, div_eq_iff hP'.ne'] at hw
    have : m * 2 ^ e.toNat = z.natAbs * 2 ^ (-e).toNat := by exact_mod_cast hw
    rw [this, Nat.mul_div_cancel _ hP]
  simp only [trunc, hdiv]
  have hz' : sgnQ s * ((z.natAbs : Nat) : ℚ) = (z : ℚ) := by
    rw [← habs, ← hz, toRat_fin]; ring
  cases s
  · simp only [Bool.false_eq_true, if_false]
    simp only [sgnQ, Bool.false_eq_true, if_false, one_mul] at hz'
    have hz0 : (0 : ℚ) ≤ (z : ℚ) := by rw [← hz']; exact Nat.cast_nonneg _
    have hz1 : 0 ≤ z := by exact_mod_cast hz0
    omega
  · simp only [if_true]
    simp only [sgnQ, if_true] at hz'
    have hz0 : (z : ℚ) ≤ 0 := by
      rw [← hz']
      have : (0 : ℚ) ≤ ((z.natAbs : Nat) : ℚ) := Nat.cast_nonneg _
      linarith
    have hz1 : z ≤ 0 := by exact_mod_cast hz0
    omega

/-- When the conversion of `math.Ceil(c)` is exact, the reported count is the ceiling
of the fill, and it is an `int64`. -/
theorem F64.toInt64_ceil_exact (oor : F64 → Int) (c : F64) (hv : Valid c)
    (hex : ExactInt64 (ceil c)) :
    Finite c ∧ toInt64 oor (ceil c) = ⌈toRat c⌉ ∧ IsInt64 ⌈toRat c⌉ := by
  have hf : Finite c := finite_of_ceil c (finite_of_exact _ hex)
  obtain ⟨h1, -, h3⟩ := ceil_val c hf hv
  have hr : IsInt64 ⌈toRat c⌉ := by
    cases hc : ceil c with
    | nan => rw [hc] at h1; exact absurd h1 (by simp [Finite])
    | inf s => rw [hc] at h1; exact absurd h1 (by simp [Finite])
    | fin s m e =>
      rw [hc] at hex h3
      have := trunc_of_int s m e _ h3
      simp only [ExactInt64, this] at hex
      exact hex
  exact ⟨hf, toInt64_of_int oor (ceil c) h1 _ h3 hr, hr⟩

theorem tdiv_window (x : Int) :
    Int.tdiv x 60000000000 = if 0 ≤ x then x / 60000000000 else -((-x) / 60000000000) := by
  split_ifs with h
  · exact Int.tdiv_eq_ediv h (by norm_num)
  · have h1 : x = -(-x) := by ring
    rw [h1, Int.neg_tdiv, Int.tdiv_eq_ediv (by omega) (by norm_num)]
    simp

/-- Every capacity `Size L` lies between `-153722867` and `153722867`. -/
theorem size_bounds (L : Int) : -153722867 ≤ Size L ∧ Size L ≤ 153722867 := by
  unfold Size
  simp only [WindowDuration]
  have hx := wrap64_isInt64 (wrap64 (wrap64 (L * BurstTolerance) + 60000000000) - 1)
  unfold IsInt64 at hx
  rw [tdiv_window]
  split_ifs with h
  · rw [wrap64_eq_self _ (by unfold IsInt64; omega)]
    omega
  · rw [wrap64_eq_self _ (by unfold IsInt64; omega)]
    omega


theorem F64.max0_toRat_nonneg (x : F64) : 0 ≤ toRat (max0 x) := by
  cases x with
  | nan => simp [max0, toRat]
  | inf s => cases s <;> simp [max0, zero, toRat]
  | fin s m e =>
    rw [(max0_val (fin s m e) trivial).2.1]
    exact le_max_left _ _

theorem Bucket.countAt_toRat_nonneg (b : Bucket) (now : Int) : 0 ≤ toRat (b.countAt now) := by
  unfold Bucket.countAt
  exact max0_toRat_nonneg _

/-- The leakage over an empty interval is a finite zero. -/
theorem F64.leak_zero (L : Int) (hL : IsInt64 L) :
    Finite (div (mul (ofInt L) (ofInt 0)) (ofInt WindowDuration)) ∧
      toRat (div (mul (ofInt L) (ofInt 0)) (ofInt WindowDuration)) = 0 := by
  obtain ⟨hA, -, -, -⟩ := ofInt_int64 L hL
  obtain ⟨hB1, -, hB3⟩ := ofInt_exact 0 (by norm_num) (by norm_num)
  obtain ⟨hP1, -, hP3⟩ := (mul_rounds _ _ hA hB1).exact (by
    rw [hB3]; simpa using rep_zero)
  rw [hB3] at hP3
  have hW0 : toRat (ofInt WindowDuration) ≠ 0 := by rw [toRat_window]; norm_num
  obtain ⟨hQ1, -, hQ3⟩ := (div_rounds _ _ hP1 finite_window hW0).exact (by
    rw [hP3]; simpa using rep_zero)
  rw [hP3] at hQ3
  exact ⟨hQ1, by simpa using hQ3⟩

/-- The fill of a bucket at the instant it was written is its stored count, when that
count is a positive binary64 number. -/
theorem Bucket.countAt_self (U L : Int) (N : F64) (hL : IsInt64 L) (hf : Finite N)
    (hv : Valid N) (hpos : 0 ≤ toRat N) :
    Finite (Bucket.countAt { UpdatedAt := U, LimitPerWindow := L, Count := N } U) ∧
      toRat (Bucket.countAt { UpdatedAt := U, LimitPerWindow := L, Count := N } U) = toRat N := by
  obtain ⟨hZ1, hZ3⟩ := leak_zero L hL
  obtain ⟨hS1, -, hS3⟩ := (sub_rounds N _ hf hZ1).exact (by
    rw [hZ3, sub_zero]; exact rep_of_valid _ hf hv)
  rw [hZ3, sub_zero] at hS3
  obtain ⟨hM1, hM2, -⟩ := max0_val _ hS1
  have e1 : Bucket.countAt { UpdatedAt := U, LimitPerWindow := L, Count := N } U =
      max0 (sub N (div (mul (ofInt L) (ofInt (timeSub U U))) (ofInt WindowDuration))) := rfl
  rw [e1, timeSub_self]
  exact ⟨hM1, by rw [hM2, hS3]; exact max_eq_right hpos⟩

/-- Adding a small amount to a small fill raises the reported count by at most the
amount. -/
theorem Bucket.countAt_plus_le (oor : F64 → Int) (b : Bucket) (now L a : Int)
    (hL : IsInt64 L) (hf : Finite (b.countAt now)) (ha : 1 ≤ a)
    (hsmall : a + ⌈toRat (b.countAt now)⌉ < 9007199254740992) :
    (b.Plus now L a).CountAt oor now ≤ ⌈toRat (b.countAt now)⌉ + a := by
  have hc0 := Bucket.countAt_toRat_nonneg b now
  have hE0 : 0 ≤ ⌈toRat (b.countAt now)⌉ := Int.ceil_nonneg hc0
  have hcE : toRat (b.countAt now) ≤ (⌈toRat (b.countAt now)⌉ : ℚ) := Int.le_ceil _
  obtain ⟨hI1, -, hI3⟩ := ofInt_exact a (by omega) (by omega)
  have ha' : (1 : ℚ) ≤ (a : ℚ) := by exact_mod_cast ha
  obtain ⟨hN1, hN2, hN3, hN4⟩ := add_rounds _ _ hf hI1 (a : ℚ)
    ((⌈toRat (b.countAt now)⌉ + a : Int) : ℚ)
    (rep_abs_int a (by omega) (by omega))
    (rep_abs_int _ (by omega) (by omega))
    (by rw [hI3]; linarith) (by rw [hI3]; push_cast; linarith)
  obtain ⟨hC1, hC3⟩ := Bucket.countAt_self now L _ hL hN1 hN2 (by linarith)
  have hplus : b.Plus now L a =
      { UpdatedAt := now, LimitPerWindow := L, Count := add (b.countAt now) (ofInt a) } := rfl
  have hceil : ⌈toRat ((b.Plus now L a).countAt now)⌉ ≤ ⌈toRat (b.countAt now)⌉ + a := by
    rw [hplus, hC3]
    exact Int.ceil_le.2 hN4
  have hceil0 : 0 ≤ ⌈toRat ((b.Plus now L a).countAt now)⌉ :=
    Int.ceil_nonneg (Bucket.countAt_toRat_nonneg _ _)
  unfold Bucket.CountAt
  rw [toInt64_ceil oor _ (by rw [hplus]; exact hC1) (Bucket.countAt_valid _ _)
    (by unfold IsInt64; omega)]
  exact hceil

/-! ### Reachable registries: stored counts stay within the capacity -/

/-- Without overflow the capacity is the ceiling of `L / 60`. -/
theorem size_in_range (L : Int) (h1 : 0 ≤ L) (h2 : L ≤ 9223371976) :
    Size L = (L * 1000000000 + 59999999999) / 60000000000 := by
  unfold Size
  simp only [WindowDuration, BurstTolerance]
  rw [wrap64_eq_self (L * 1000000000) (by unfold IsInt64; omega),
    wrap64_eq_self (L * 1000000000 + 60000000000) (by unfold IsInt64; omega),
    wrap64_eq_self (L * 1000000000 + 60000000000 - 1) (by unfold IsInt64; omega),
    tdiv_window, if_pos (by omega),
    wrap64_eq_self _ (by unfold IsInt64; omega)]
  congr 1
  ring

theorem size_pos_le (L : Int) (h1 : 1 ≤ L) (h2 : L ≤ 9223371976) :
    1 ≤ Size L ∧ Size L ≤ L ∧ Size L ≤ 153722867 := by
  rw [size_in_range L (by omega) h2]
  omega

theorem F64.rep_two_pow (f : Nat) (hf : f ≤ 971) : Rep |((2 : ℚ) ^ f)| := by
  refine rep_pos 1 (f : Int) (by norm_num) (by omega) (by omega) _ ?_
  rw [zpow_natCast]; simp

theorem F64.rep_neg_two_pow (f : Nat) (hf : f ≤ 971) : Rep |(-(2 : ℚ) ^ f)| := by
  rw [abs_neg]; exact rep_two_pow f hf

/-- The leakage of a bucket in good standing, at or after its last write, is finite and
not negative. -/
theorem Bucket.leak_nonneg (L0 d : Int) (hL1 : 1 ≤ L0) (hL2 : L0 ≤ 9223371976)
    (hd0 : 0 ≤ d) (hd : IsInt64 d) :
    Finite (div (mul (ofInt L0) (ofInt d)) (ofInt WindowDuration)) ∧
      0 ≤ toRat (div (mul (ofInt L0) (ofInt d)) (ofInt WindowDuration)) ∧
      toRat (div (mul (ofInt L0) (ofInt d)) (ofInt WindowDuration)) ≤ (2 : ℚ) ^ 97 := by
  obtain ⟨hA1, -, hA3⟩ := ofInt_exact L0 (by omega) (by omega)
  have hd0' : (0 : ℚ) ≤ (d : ℚ) := by exact_mod_cast hd0
  have hd1' : (d : ℚ) ≤ 9223372036854775808 := by
    unfold IsInt64 at hd
    have : d ≤ (9223372036854775808 : Int) := by omega
    exact_mod_cast this
  obtain ⟨hD1, -, hD3, hD4⟩ := ofInt_rounds d 0 9223372036854775808
    (by simpa using rep_zero) rep_two_pow_63 hd0' hd1'
  have hL0' : (1 : ℚ) ≤ (L0 : ℚ) := by exact_mod_cast hL1
  have hL1' : (L0 : ℚ) ≤ 9223371976 := by exact_mod_cast hL2
  obtain ⟨hP1, -, hP3, hP4⟩ := mul_rounds _ _ hA1 hD1 0 ((2 : ℚ) ^ 97)
    (by simpa using rep_zero) (rep_two_pow 97 (by norm_num))
    (by rw [hA3]; positivity)
    (by rw [hA3]
        calc (L0 : ℚ) * toRat (ofInt d) ≤ 9223371976 * 9223372036854775808 := by
              apply mul_le_mul hL1' hD4 hD3 (by norm_num)
          _ ≤ (2 : ℚ) ^ 97 := by norm_num)
  have hW0 : toRat (ofInt WindowDuration) ≠ 0 := by rw [toRat_window]; norm_num
  obtain ⟨hQ1, -, hQ3, hQ4⟩ := div_rounds _ _ hP1 finite_window hW0 0 ((2 : ℚ) ^ 97)
    (by simpa using rep_zero) (rep_two_pow 97 (by norm_num))
    (by rw [toRat_window]; positivity)
    (by rw [toRat_window, div_le_iff₀ (by norm_num)]
        calc toRat (mul (ofInt L0) (ofInt d)) ≤ (2 : ℚ) ^ 97 := hP4
          _ ≤ (2 : ℚ) ^ 97 * 60000000000 := by norm_num)
  exact ⟨hQ1, hQ3, hQ4⟩

/-- The fill of a bucket in good standing, at or after its last write, is a finite
number between `0` and the capacity of its stored limit. -/
theorem Bucket.Good.countAt_bounds (b : Bucket) (t now : Int) (hb : b.Good t) (ht : t ≤ now) :
    Finite (b.countAt now) ∧ 0 ≤ toRat (b.countAt now) ∧
      toRat (b.countAt now) ≤ ((Size b.LimitPerWindow : Int) : ℚ) := by
  obtain ⟨hL1, hL2, hU, hCf, hCv, hC0, hC1⟩ := hb
  obtain ⟨hS1, hS2, hS3⟩ := size_pos_le _ hL1 hL2
  have hd := timeSub_isInt64 now b.UpdatedAt
  have hd0 : 0 ≤ timeSub now b.UpdatedAt := by
    unfold timeSub; split_ifs <;> omega
  obtain ⟨hQ1, hQ3, hQ4⟩ := Bucket.leak_nonneg _ _ hL1 hL2 hd0 hd
  have hS0' : (0 : ℚ) ≤ ((Size b.LimitPerWindow : Int) : ℚ) := by
    have : (0 : Int) ≤ Size b.LimitPerWindow := by omega
    exact_mod_cast this
  obtain ⟨hR1, -, hR3, hR4⟩ := sub_rounds _ _ hCf hQ1 (-(2 : ℚ) ^ 97)
    ((Size b.LimitPerWindow : Int) : ℚ)
    (rep_neg_two_pow 97 (by norm_num)) (rep_abs_int _ (by omega) (by omega))
    (by linarith) (by linarith)
  obtain ⟨hM1, hM2, -⟩ := max0_val _ hR1
  have e1 : b.countAt now = max0 (sub b.Count
      (div (mul (ofInt b.LimitPerWindow) (ofInt (timeSub now b.UpdatedAt)))
        (ofInt WindowDuration))) := rfl
  rw [e1]
  exact ⟨hM1, by rw [hM2]; exact le_max_left _ _, by rw [hM2]; exact max_le hS0' hR4⟩


/-- One full window after its last write a bucket in good standing has leaked out: its
fill is zero. -/
theorem Bucket.Good.countAt_window (b : Bucket) (t now : Int) (hb : b.Good t)
    (hw : b.UpdatedAt + 60000000000 ≤ now) :
    Finite (b.countAt now) ∧ toRat (b.countAt now) = 0 := by
  obtain ⟨hL1, hL2, hU, hCf, hCv, hC0, hC1⟩ := hb
  obtain ⟨hS1, hS2, hS3⟩ := size_pos_le _ hL1 hL2
  have hd := timeSub_isInt64 now b.UpdatedAt
  have hd0 : 60000000000 ≤ timeSub now b.UpdatedAt := by
    unfold timeSub; split_ifs <;> omega
  obtain ⟨hA1, -, hA3⟩ := ofInt_exact b.LimitPerWindow (by omega) (by omega)
  have hd0' : (60000000000 : ℚ) ≤ ((timeSub now b.UpdatedAt : Int) : ℚ) := by
    exact_mod_cast hd0
  have hd1' : ((timeSub now b.UpdatedAt : Int) : ℚ) ≤ 9223372036854775808 := by
    unfold IsInt64 at hd
    have : timeSub now b.UpdatedAt ≤ (9223372036854775808 : Int) := by omega
    exact_mod_cast this
  obtain ⟨hD1, -, hD3, hD4⟩ := ofInt_rounds (timeSub now b.UpdatedAt) 60000000000
    9223372036854775808
    (rep_pos 60000000000 0 (by norm_num) (by norm_num) (by norm_num) _ (by norm_num))
    rep_two_pow_63 hd0' hd1'
  have hL0' : (1 : ℚ) ≤ (b.LimitPerWindow : ℚ) := by exact_mod_cast hL1
  have hL1' : (b.LimitPerWindow : ℚ) ≤ 9223371976 := by exact_mod_cast hL2
  have hSL : ((Size b.LimitPerWindow : Int) : ℚ) ≤ (b.LimitPerWindow : ℚ) := by
    exact_mod_cast hS2
  have hS0' : (0 : ℚ) ≤ ((Size b.LimitPerWindow : Int) : ℚ) := by
    have : (0 : Int) ≤ Size b.LimitPerWindow := by omega
    exact_mod_cast this
  -- the capacity times the window is a binary64 number
  have hrepSW : Rep |((Size b.LimitPerWindow : Int) : ℚ) * 60000000000| := by
    refine rep_pos (29296875 * (Size b.LimitPerWindow).toNat) 11 (by omega) (by norm_num)
      (by norm_num) _ ?_
    have : ((Size b.LimitPerWindow : Int) : ℚ) = (((Size b.LimitPerWindow).toNat : Nat) : ℚ) := by
      have h : Size b.LimitPerWindow = (((Size b.LimitPerWindow).toNat : Nat) : Int) := by omega
      conv_lhs => rw [h]
      rfl
    rw [this]
    push_cast
    norm_num
    ring
  obtain ⟨hP1, -, hP3, hP4⟩ := mul_rounds _ _ hA1 hD1
    (((Size b.LimitPerWindow : Int) : ℚ) * 60000000000) ((2 : ℚ) ^ 97)
    hrepSW (rep_two_pow 97 (by norm_num))
    (by rw [hA3]
        calc ((Size b.LimitPerWindow : Int) : ℚ) * 60000000000
            ≤ (b.LimitPerWindow : ℚ) * 60000000000 := by
              apply mul_le_mul_of_nonneg_right hSL (by norm_num)
          _ ≤ (b.LimitPerWindow : ℚ) * toRat (ofInt (timeSub now b.UpdatedAt)) := by
              apply mul_le_mul_of_nonneg_left hD3 (by linarith))
    (by rw [hA3]
        calc (b.LimitPerWindow : ℚ) * toRat (ofInt (timeSub now b.UpdatedAt))
            ≤ 9223371976 * 9223372036854775808 := by
              apply mul_le_mul hL1' hD4 (by linarith) (by norm_num)
          _ ≤ (2 : ℚ) ^ 97 := by norm_num)
  have hW0 : toRat (ofInt WindowDuration) ≠ 0 := by rw [toRat_window]; norm_num
  obtain ⟨hQ1, -, hQ3, hQ4⟩ := div_rounds _ _ hP1 finite_window hW0
    ((Size b.LimitPerWindow : Int) : ℚ) ((2 : ℚ) ^ 97)
    (rep_abs_int _ (by omega) (by omega)) (rep_two_pow 97 (by norm_num))
    (by rw [toRat_window, le_div_iff₀ (by norm_num)]; exact hP3)
    (by rw [toRat_window, div_le_iff₀ (by norm_num)]
        calc toRat (mul (ofInt b.LimitPerWindow) (ofInt (timeSub now b.UpdatedAt)))
            ≤ (2 : ℚ) ^ 97 := hP4
          _ ≤ (2 : ℚ) ^ 97 * 60000000000 := by norm_num)
  obtain ⟨hR1, -, hR3, hR4⟩ := sub_rounds _ _ hCf hQ1 (-(2 : ℚ) ^ 97) 0
    (rep_neg_two_pow 97 (by norm_num)) (by simpa using rep_zero)
    (by linarith) (by linarith)
  obtain ⟨hM1, hM2, -⟩ := max0_val _ hR1
  have e1 : b.countAt now = max0 (sub b.Count
      (div (mul (ofInt b.LimitPerWindow) (ofInt (timeSub now b.UpdatedAt)))
        (ofInt WindowDuration))) := rfl
  rw [e1]
  exact ⟨hM1, by rw [hM2]; exact max_eq_left hR4⟩

/-- The bucket written by an admitted call is in good standing: the admission check
bounds its count by the capacity. -/
theorem Bucket.good_of_admitted (oor : F64 → Int) (b : Bucket) (now L a : Int)
    (hf : Finite (b.countAt now)) (hc : toRat (b.countAt now) ≤ 153722867)
    (hL1 : 1 ≤ L) (hL2 : L ≤ 9223371976) (ha : AmountInRange a)
    (hadm : ¬ Size L < (b.Plus now L a).CountAt oor now) :
    (b.Plus now L a).Good now := by
  obtain ⟨ha0, ha1⟩ := ha
  have hc0 := Bucket.countAt_toRat_nonneg b now
  have ha0' : (0 : ℚ) ≤ (a : ℚ) := by exact_mod_cast ha0
  have ha1' : (a : ℚ) ≤ 4611686018427387904 := by exact_mod_cast ha1
  obtain ⟨hI1, -, hI3, hI4⟩ := ofInt_rounds a 0 4611686018427387904
    (by simpa using rep_zero)
    (rep_pos 1 62 (by norm_num) (by norm_num) (by norm_num) _ (by norm_num)) ha0' ha1'
  obtain ⟨hN1, hN2, hN3, hN4⟩ := add_rounds _ _ hf hI1 0 4611686018695823360
    (by simpa using rep_zero)
    (rep_pos 17179869185 28 (by norm_num) (by norm_num) (by norm_num) _ (by norm_num))
    (by linarith) (by linarith)
  have hL : IsInt64 L := by unfold IsInt64; omega
  obtain ⟨hC1, hC3⟩ := Bucket.countAt_self now L _ hL hN1 hN2 hN3
  have hplus : b.Plus now L a =
      { UpdatedAt := now, LimitPerWindow := L, Count := add (b.countAt now) (ofInt a) } := rfl
  have hceil0 : 0 ≤ ⌈toRat (add (b.countAt now) (ofInt a))⌉ := Int.ceil_nonneg hN3
  have hceil1 : ⌈toRat (add (b.countAt now) (ofInt a))⌉ ≤ 4611686018695823360 :=
    Int.ceil_le.2 (by push_cast; exact hN4)
  have hcount : (b.Plus now L a).CountAt oor now = ⌈toRat (add (b.countAt now) (ofInt a))⌉ := by
    unfold Bucket.CountAt
    rw [toInt64_ceil oor _ (by rw [hplus]; exact hC1) (Bucket.countAt_valid _ _)
      (by rw [hplus, hC3]; unfold IsInt64; omega), hplus, hC3]
  rw [hcount] at hadm
  have hle : toRat (add (b.countAt now) (ofInt a)) ≤ ((Size L : Int) : ℚ) := by
    have h1 : ⌈toRat (add (b.countAt now) (ofInt a))⌉ ≤ Size L := by omega
    exact Int.ceil_le.1 h1
  exact ⟨hL1, hL2, le_refl _, hN1, hN2, hN3, hle⟩

theorem Bucket.Good.mono (b : Bucket) (t now : Int) (hb : b.Good t) (ht : t ≤ now) :
    b.Good now := by
  obtain ⟨h1, h2, h3, h4⟩ := hb
  exact ⟨h1, h2, by omega, h4⟩

/-- Registry invariant for limits `0 .. 9223371976` and amounts `0 .. 2^62`: every stored
bucket is in good standing. -/
theorem ReachableBy.good (oor : F64 → Int) (p : Counter) (t : Int)
    (h : ReachableBy oor LimitInRange AmountInRange p t) :
    ∀ key b, p.buckets key = some b → b.Good t := by
  induction h with
  | init t => intro key b hb; exact absurd hb (by simp [NewCounter])
  | step p t now key L a info p' _ ht hL ha hadd ih =>
    intro key' b hb
    rcases Counter.add_cases oor p now key L a with ⟨-, e⟩ | ⟨-, -, e⟩ | ⟨hL0, hc, e⟩
    · rw [e] at hadd
      simp only [Option.some.injEq, Prod.mk.injEq] at hadd
      rw [← hadd.2] at hb
      exact (ih key' b hb).mono _ _ _ ht
    · rw [e] at hadd
      simp only [Option.map_eq_some', Prod.mk.injEq] at hadd
      obtain ⟨r, -, -, hp⟩ := hadd
      rw [← hp] at hb
      exact (ih key' b hb).mono _ _ _ ht
    · rw [e] at hadd
      simp only [Option.map_eq_some', Prod.mk.injEq] at hadd
      obtain ⟨r, -, -, hp⟩ := hadd
      rw [← hp] at hb
      by_cases hk : key' = key
      · subst hk
        simp only [Counter.store, if_true, Option.some.injEq] at hb
        rw [← hb]
        obtain ⟨hL1, hL2⟩ := hL
        have hfc : Finite ((p.lookup key').countAt now) ∧
            toRat ((p.lookup key').countAt now) ≤ 153722867 := by
          cases hlk : p.buckets key' with
          | none =>
            rw [Counter.lookup_of_none p key' hlk, Bucket.zeroBucket_countAt]
            exact ⟨trivial, by simp [zero, toRat]⟩
          | some b0 =>
            have hb0 := ih key' b0 hlk
            have : p.lookup key' = b0 := by simp [Counter.lookup, hlk]
            rw [this]
            obtain ⟨h1, -, h3⟩ := hb0.countAt_bounds _ _ _ ht
            obtain ⟨-, -, hS3⟩ := size_pos_le _ hb0.1 hb0.2.1
            refine ⟨h1, le_trans h3 ?_⟩
            exact_mod_cast hS3
        exact Bucket.good_of_admitted oor _ now L a hfc.1 hfc.2 (by omega) hL2 ha hc
      · simp only [Counter.store, hk, if_false] at hb
        exact (ih key' b hb).mono _ _ _ ht

theorem afterFirst_bucket (limit amount : Int) :
    (afterFirst limit amount).buckets "k" = some (zeroBucket.Plus t0 limit amount) := by
  show (if "k" = "k" then some (zeroBucket.Plus t0 limit amount) else NewCounter.buckets "k") = _
  exact if_pos rfl

/-- The bucket of `afterFirst` was written at `t0`. -/
theorem afterFirst_window (limit amount : Int) :
    ∀ b, (afterFirst limit amount).buckets "k" = some b →
      b.UpdatedAt + 60000000000 ≤ t0 + 60000000000 := by
  intro b hb
  rw [afterFirst_bucket] at hb
  rw [← Option.some.inj hb]
  exact le_refl _

/-- The registry after one admitted one-token call under limit 60 is reachable. -/
theorem afterFirst_reachable (oor : F64 → Int) (lim amt : Int → Prop) (h1 : lim 60)
    (h2 : amt 1) : ReachableBy oor lim amt (afterFirst 60 1) t0 :=
  ReachableBy.step NewCounter t0 t0 "k" 60 1
    { Bucket := "k", ResetAt := t0 + 1000000000, BucketSize := 1, Remaining := 0,
      Allowed := true }
    (afterFirst 60 1) (ReachableBy.init t0) le_rfl h1 h2 (by rfl)

/-! ### `WillReach`: early returns and the clamp at `now` -/

/-- The sum of two finite values whose exact sum is not positive is not positive. -/
theorem F64.le0_add_of_nonpos (s : Bool) (m : Nat) (e : Int) (t : Bool) (k : Nat) (f : Int)
    (h : toRat (fin s m e) + toRat (fin t k f) ≤ 0) : le0 (add (fin s m e) (fin t k f)) = true := by
  have hge : min e f ≤ e := min_le_left _ _
  have hgf : min e f ≤ f := min_le_right _ _
  have hX : ((signed s (m * 2 ^ (e - min e f).toNat) : Int) : ℚ) * (2 : ℚ) ^ (min e f)
      = toRat (fin s m e) := by
    rw [signed_cast, toRat_fin]
    push_cast
    rw [mul_assoc, mul_assoc, two_pow_toNat_sub e _ hge]
    ring
  have hY : ((signed t (k * 2 ^ (f - min e f).toNat) : Int) : ℚ) * (2 : ℚ) ^ (min e f)
      = toRat (fin t k f) := by
    rw [signed_cast, toRat_fin]
    push_cast
    rw [mul_assoc, mul_assoc, two_pow_toNat_sub f _ hgf]
    ring
  have hz : signed s (m * 2 ^ (e - min e f).toNat) + signed t (k * 2 ^ (f - min e f).toNat) ≤ 0 := by
    rw [← hX, ← hY, ← add_mul, ← Int.cast_add] at h
    have hp := two_zpow_pos (min e f)
    have : ((signed s (m * 2 ^ (e - min e f).toNat)
        + signed t (k * 2 ^ (f - min e f).toNat) : Int) : ℚ) ≤ 0 := by
      by_contra hc
      push_neg at hc
      have := mul_pos hc hp
      linarith
    exact_mod_cast this
  simp only [add]
  split_ifs with h0
  · simp [le0]
  · have hneg : signed s (m * 2 ^ (e - min e f).toNat)
        + signed t (k * 2 ^ (f - min e f).toNat) < 0 := by omega
    rw [decide_eq_true hneg]
    rcases rnd_sign true
      ((signed s (m * 2 ^ (e - min e f).toNat)
        + signed t (k * 2 ^ (f - min e f).toNat)).natAbs * 2 ^ (min e f).toNat)
      (2 ^ (-(min e f)).toNat) with h1 | ⟨m1, e1, h1⟩
    · rw [h1]; rfl
    · rw [h1]; rfl

/-- Whatever `WillReach` returns is not before `now`. -/
theorem Bucket.willReach_ge (oor : F64 → Int) (b : Bucket) (c now r : Int)
    (h : b.WillReach oor c now = some r) : now ≤ r := by
  simp only [Bucket.WillReach] at h
  by_cases h1 : c < 0
  · rw [if_pos h1] at h
    simp only [Option.some.injEq] at h; omega
  · rw [if_neg h1] at h
    by_cases h2 : le0 (sub b.Count (ofInt c)) = true
    · rw [if_pos h2] at h
      simp only [Option.some.injEq] at h; omega
    · rw [if_neg h2] at h
      cases hd : Bucket.div64
        (toInt64 oor (mul (sub b.Count (ofInt c)) (ofInt WindowDuration))) b.LimitPerWindow with
      | none => rw [hd] at h; exact Option.noConfusion h
      | some d =>
        rw [hd] at h
        simp only at h
        by_cases h3 : b.UpdatedAt + d < now
        · rw [if_pos h3] at h
          simp only [Option.some.injEq] at h; omega
        · rw [if_neg h3] at h
          simp only [Option.some.injEq] at h; omega

/-! ### Calls at one instant -/

theorem Counter.lookup_of_some (p : Counter) (key : String) (b : Bucket)
    (h : p.buckets key = some b) : p.lookup key = b := by
  simp [Counter.lookup, h]

/-- Adding `a` tokens to a bucket whose fill at `now` is the integer `s`: for small `a`
the new count is exactly `s + a`, and for large `a` it is at least `2^52`. -/
theorem Bucket.plus_int (oor : F64 → Int) (b : Bucket) (now L a s : Int) (hL : IsInt64 L)
    (hf : Finite (b.countAt now)) (hs : toRat (b.countAt now) = (s : ℚ))
    (hs0 : 0 ≤ s) (hs1 : s ≤ 153722867) (ha0 : 0 ≤ a) (ha1 : a ≤ 4611686018427387904) :
    (a ≤ 4503599627370496 →
      Finite (b.Plus now L a).Count ∧ Valid (b.Plus now L a).Count ∧
        toRat (b.Plus now L a).Count = ((s + a : Int) : ℚ) ∧
        (b.Plus now L a).CountAt oor now = s + a) ∧
    (4503599627370496 < a → 4503599627370496 ≤ (b.Plus now L a).CountAt oor now) := by
  have hP : b.Plus now L a
      = { UpdatedAt := now, LimitPerWindow := L, Count := F64.add (b.countAt now) (ofInt a) } := rfl
  have hC : (b.Plus now L a).Count = F64.add (b.countAt now) (ofInt a) := rfl
  have hCA : ∀ N : F64, Bucket.CountAt oor { UpdatedAt := now, LimitPerWindow := L, Count := N } now
      = toInt64 oor (ceil (Bucket.countAt { UpdatedAt := now, LimitPerWindow := L, Count := N } now)) :=
    fun _ => rfl
  constructor
  · intro hsm
    obtain ⟨hfa, hva, hta⟩ := ofInt_exact a (by omega) (by omega)
    have hr := add_rounds (b.countAt now) (ofInt a) hf hfa
    rw [hs, hta, ← Int.cast_add] at hr
    obtain ⟨hfN, hvN, htN⟩ := hr.exact (rep_abs_int (s + a) (by omega) (by omega))
    have hpos : (0 : ℚ) ≤ toRat (F64.add (b.countAt now) (ofInt a)) := by
      rw [htN]; exact_mod_cast (by omega : 0 ≤ s + a)
    obtain ⟨hfc, htc⟩ := Bucket.countAt_self now L _ hL hfN hvN hpos
    refine ⟨hC ▸ hfN, hC ▸ hvN, hC ▸ htN, ?_⟩
    rw [hP, hCA]
    have hceil : ⌈toRat (Bucket.countAt
        (Bucket.mk now L (F64.add (b.countAt now) (ofInt a))) now)⌉ = s + a := by
      rw [htc, htN]; exact Int.ceil_intCast _
    rw [toInt64_ceil oor _ hfc (Bucket.countAt_valid _ _) (by rw [hceil]; constructor <;> omega)]
    exact hceil
  · intro hbig
    have hs0' : (0 : ℚ) ≤ (s : ℚ) := by exact_mod_cast hs0
    have hs1' : (s : ℚ) ≤ 153722867 := by exact_mod_cast hs1
    have hbig' : (4503599627370496 : ℚ) ≤ (a : ℚ) := by exact_mod_cast hbig.le
    have ha1' : (a : ℚ) ≤ 4611686018427387904 := by exact_mod_cast ha1
    have r52 : Rep |(4503599627370496 : ℚ)| :=
      rep_pos 4503599627370496 0 (by norm_num) (by norm_num) (by norm_num) _ (by norm_num)
    have r62 : Rep |(4611686018427387904 : ℚ)| :=
      rep_pos 1 62 (by norm_num) (by norm_num) (by norm_num) _ (by norm_num)
    have r62' : Rep |(4611686018695823360 : ℚ)| :=
      rep_pos 17179869185 28 (by norm_num) (by norm_num) (by norm_num) _ (by norm_num)
    obtain ⟨hfa, hva, hla, hua⟩ := ofInt_rounds a _ _ r52 r62 hbig' ha1'
    obtain ⟨hfN, hvN, hlN, huN⟩ := add_rounds (b.countAt now) (ofInt a) hf hfa _ _ r52 r62'
      (by rw [hs]; linarith) (by rw [hs]; linarith)
    obtain ⟨hfc, htc⟩ := Bucket.countAt_self now L _ hL hfN hvN (by linarith)
    rw [hP, hCA]
    have hlc : (4503599627370496 : Int) ≤ ⌈toRat (Bucket.countAt
        (Bucket.mk now L (F64.add (b.countAt now) (ofInt a))) now)⌉ := by
      rw [htc, Int.le_ceil_iff]
      push_cast
      linarith
    have huc : ⌈toRat (Bucket.countAt
        (Bucket.mk now L (F64.add (b.countAt now) (ofInt a))) now)⌉
        ≤ (4611686018695823360 : Int) := by
      rw [htc, Int.ceil_le]
      push_cast
      linarith
    rw [toInt64_ceil oor _ hfc (Bucket.countAt_valid _ _) (by constructor <;> omega)]
    exact hlc

/-- One call at the instant of the stored bucket: admitted exactly when the integer
count plus the amount fits the capacity. -/
theorem Counter.add_holdsAt (oor : F64 → Int) (p : Counter) (now : Int) (key : String)
    (L a s : Int) (hL : IsInt64 L) (hL0 : L ≠ 0) (ha0 : 0 ≤ a)
    (ha1 : a ≤ 4611686018427387904) (hinv : p.HoldsAt key now L s) :
    (s + a ≤ Size L → ∃ r q,
      Counter.Add oor p now key L a =
        some ({ Bucket := key, ResetAt := r, BucketSize := Size L,
                Remaining := Size L - (s + a), Allowed := true }, q) ∧
      q.HoldsAt key now L (s + a)) ∧
    (¬ s + a ≤ Size L → ∃ info,
      Counter.Add oor p now key L a = some (info, p) ∧ info.Allowed = false) := by
  obtain ⟨hs0, hs1, hb⟩ := hinv
  have hc : Finite ((p.lookup key).countAt now) ∧ toRat ((p.lookup key).countAt now) = (s : ℚ) := by
    rcases hb with ⟨hn, hz⟩ | ⟨N, hN, hf, hv, ht⟩
    · rw [Counter.lookup_of_none p key hn, Bucket.zeroBucket_countAt, hz]
      exact ⟨trivial, by simp [toRat, zero]⟩
    · rw [Counter.lookup_of_some p key _ hN]
      have := Bucket.countAt_self now L N hL hf hv (by rw [ht]; exact_mod_cast hs0)
      exact ⟨this.1, by rw [this.2, ht]⟩
  have hex : p.buckets key = none ∨ (p.lookup key).LimitPerWindow ≠ 0 := by
    rcases hb with ⟨hn, _⟩ | ⟨N, hN, _⟩
    · exact Or.inl hn
    · right; rw [Counter.lookup_of_some p key _ hN]; exact hL0
  obtain ⟨hsmall, hbig⟩ := Bucket.plus_int oor (p.lookup key) now L a s hL hc.1 hc.2 hs0 hs1 ha0 ha1
  have hSz := size_bounds L
  constructor
  · intro hle
    obtain ⟨hfN, hvN, htN, hcnt⟩ := hsmall (by omega)
    rcases Counter.add_cases oor p now key L a with ⟨h0, _⟩ | ⟨_, hrej, _⟩ | ⟨_, _, hadd⟩
    · exact absurd h0 hL0
    · rw [hcnt] at hrej; omega
    · obtain ⟨r, hr⟩ := Bucket.willReach_isSome oor ((p.lookup key).Plus now L a)
        (wrap64 (Size L - 1)) now hL0
      refine ⟨r, p.store key ((p.lookup key).Plus now L a), ?_, ?_⟩
      · rw [hadd, hr, hcnt, wrap64_eq_self _ (by constructor <;> omega)]
        rfl
      · refine ⟨by omega, by omega, Or.inr ⟨((p.lookup key).Plus now L a).Count, ?_, hfN, hvN, htN⟩⟩
        show (if key = key then some ((p.lookup key).Plus now L a) else p.buckets key) = _
        rw [if_pos rfl]
        rfl
  · intro hgt
    have hrej : Size L < ((p.lookup key).Plus now L a).CountAt oor now := by
      by_cases hsm : a ≤ 4503599627370496
      · rw [(hsmall hsm).2.2.2]; omega
      · have := hbig (by omega); omega
    rcases Counter.add_cases oor p now key L a with ⟨h0, _⟩ | ⟨_, _, hadd⟩ | ⟨_, hadm, _⟩
    · exact absurd h0 hL0
    · obtain ⟨r, hr⟩ := Counter.willReach_lookup_isSome oor p key (wrap64 (Size L - a)) now hex
      rw [hr] at hadd
      exact ⟨_, hadd, rfl⟩
    · exact absurd hrej hadm

/-- Calls at one instant from a bucket holding the integer count `s` follow the
admission rule started at `s`. -/
theorem Counter.addAll_holdsAt (oor : F64 → Int) (now : Int) (key : String) (L : Int)
    (hL : IsInt64 L) (hL0 : L ≠ 0) :
    ∀ (amounts : List Int) (p : Counter) (s : Int),
      (∀ a ∈ amounts, 0 ≤ a ∧ a ≤ 4611686018427387904) → p.HoldsAt key now L s →
      ∃ infos q, Counter.addAll oor now key L p amounts = some (infos, q) ∧
        infos.map Info.observed = admissionRule (Size L) s amounts := by
  intro amounts
  induction amounts with
  | nil => intro p s _ _; exact ⟨[], p, rfl, rfl⟩
  | cons a rest ih =>
    intro p s hall hinv
    have ha := hall a (List.mem_cons_self a rest)
    have hrest : ∀ x ∈ rest, 0 ≤ x ∧ x ≤ 4611686018427387904 :=
      fun x hx => hall x (List.mem_cons_of_mem a hx)
    obtain ⟨hadm, hrej⟩ := Counter.add_holdsAt oor p now key L a s hL hL0 ha.1 ha.2 hinv
    by_cases hle : s + a ≤ Size L
    · obtain ⟨r, q, hadd, hq⟩ := hadm hle
      obtain ⟨infos, q', hrun, hobs⟩ := ih q (s + a) hrest hq
      refine ⟨Info.mk key r (Size L) (Size L - (s + a)) true :: infos, q', ?_, ?_⟩
      · simp only [Counter.addAll, hadd, hrun]
      · simp only [List.map_cons, admissionRule, if_pos hle, hobs]
        rfl
    · obtain ⟨info, hadd, hall'⟩ := hrej hle
      obtain ⟨infos, q', hrun, hobs⟩ := ih p s hrest hinv
      refine ⟨info :: infos, q', ?_, ?_⟩
      · simp only [Counter.addAll, hadd, hrun]
      · simp only [List.map_cons, admissionRule, if_neg hle, hobs, Info.observed, hall']
        rfl

/-- Under the admission rule, of `N` one-token calls exactly the first
`min N (size - s)` are admitted. -/
theorem admissionRule_ones (size : Int) : ∀ (N : Nat) (s : Int),
    (admissionRule size s (List.replicate N 1)).map Option.isSome =
      List.replicate (min N (size - s).toNat) true ++
        List.replicate (N - min N (size - s).toNat) false := by
  intro N
  induction N with
  | zero => intro s; simp [admissionRule]
  | succ n ih =>
    intro s
    by_cases hle : s + 1 ≤ size
    · have e : (size - s).toNat = (size - (s + 1)).toNat + 1 := by omega
      simp only [List.replicate_succ, admissionRule, if_pos hle, List.map_cons, Option.isSome_some,
        ih (s + 1), e, Nat.add_min_add_right, Nat.add_sub_add_right, List.cons_append]
    · have e : (size - s).toNat = 0 := by omega
      have := ih s
      rw [e] at this ⊢
      simp only [List.replicate_succ, admissionRule, if_neg hle, List.map_cons, Option.isSome_none,
        this, Nat.min_zero, Nat.sub_zero, List.replicate_zero, List.nil_append]

theorem Info.observed_isSome (info : Info) : info.observed.isSome = info.Allowed := by
  unfold Info.observed
  cases info.Allowed <;> rfl

/-! ### Rounding is monotone -/

theorem F64.roundHalfEven_mono (N D N' D' : Nat) (hD : 0 < D) (hD' : 0 < D')
    (h : N * D' ≤ N' * D) : roundHalfEven N D ≤ roundHalfEven N' D' := by
  have hq : N / D ≤ N' / D' := by
    rw [Nat.le_div_iff_mul_le hD']
    have h1 : N / D * D ≤ N := Nat.div_mul_le_self N D
    have h2 : N / D * D' * D ≤ N' * D := by
      calc N / D * D' * D = N / D * D * D' := by ring
        _ ≤ N * D' := Nat.mul_le_mul_right _ h1
        _ ≤ N' * D := h
    exact Nat.le_of_mul_le_mul_right h2 hD
  rcases Nat.lt_or_eq_of_le hq with hlt | heq
  · have h1 : roundHalfEven N D ≤ N / D + 1 :=
      roundHalfEven_le N D (N / D + 1) hD (by
        have := Nat.lt_div_mul_add (a := N) hD
        nlinarith)
    have h2 : N' / D' ≤ roundHalfEven N' D' :=
      le_roundHalfEven N' D' (N' / D') hD' (Nat.div_mul_le_self N' D')
    omega
  · have e1 : N = D * (N / D) + N % D := (Nat.div_add_mod N D).symm
    have e2 : N' = D' * (N' / D') + N' % D' := (Nat.div_add_mod N' D').symm
    have hr : N % D * D' ≤ N' % D' * D := by
      rw [← heq] at e2
      generalize N / D = q at e1 e2
      generalize N % D = r at e1 e2 ⊢
      generalize N' % D' = r' at e2 ⊢
      subst e1 e2
      nlinarith
    have hm : N / D % 2 ≤ 1 := by omega
    have hge : D ≤ 2 * (N % D) → D' ≤ 2 * (N' % D') := by
      intro hh
      by_contra hc
      push_neg at hc
      have h3 : 2 * (N' % D') * D < D' * D := Nat.mul_lt_mul_of_pos_right hc hD
      have h4 : D * D' ≤ 2 * (N % D) * D' := Nat.mul_le_mul_right _ hh
      nlinarith
    have hgt : D < 2 * (N % D) → D' < 2 * (N' % D') := by
      intro hh
      by_contra hc
      push_neg at hc
      have h3 : 2 * (N' % D') * D ≤ D' * D := Nat.mul_le_mul_right _ hc
      have h4 : D * D' < 2 * (N % D) * D' := Nat.mul_lt_mul_of_pos_right hh hD'
      nlinarith
    unfold roundHalfEven
    rw [← heq]
    split_ifs <;> omega

theorem F64.ilog2_mono (n d n' d' : Nat) (hn : 0 < n) (hd : 0 < d) (hn' : 0 < n')
    (hd' : 0 < d') (h : (n : ℚ) / d ≤ (n' : ℚ) / d') : ilog2 n d ≤ ilog2 n' d' := by
  have h1 := (ilog2_spec n d hn hd).1
  have h2 := (ilog2_spec n' d' hn' hd').2
  have h3 : (2 : ℚ) ^ (ilog2 n d) < (2 : ℚ) ^ (ilog2 n' d' + 1) := by linarith
  have := (zpow_lt_zpow_iff_right₀ (by norm_num : (1 : ℚ) < 2)).1 h3
  omega

theorem F64.rndExp_mono (n d n' d' : Nat) (hn : 0 < n) (hd : 0 < d) (hn' : 0 < n')
    (hd' : 0 < d') (h : (n : ℚ) / d ≤ (n' : ℚ) / d') : rndExp n d ≤ rndExp n' d' := by
  unfold rndExp
  have := ilog2_mono n d n' d' hn hd hn' hd' h
  omega

/-- The rounded magnitude is monotone in the exact magnitude. -/
theorem F64.rnd_mant_val_mono (n d n' d' : Nat) (hn : 0 < n) (hd : 0 < d) (hn' : 0 < n')
    (hd' : 0 < d') (h : (n : ℚ) / d ≤ (n' : ℚ) / d') :
    (rndMant n d : ℚ) * (2 : ℚ) ^ (rndExp n d) ≤ (rndMant n' d' : ℚ) * (2 : ℚ) ^ (rndExp n' d') := by
  rcases lt_or_eq_of_le (rndExp_mono n d n' d' hn hd hn' hd' h) with hlt | heq
  · have hM : (rndMant n d : ℚ) ≤ 9007199254740992 := by exact_mod_cast rndMant_le n d hn hd
    have hM' : (4503599627370496 : ℚ) ≤ (rndMant n' d' : ℚ) := by
      exact_mod_cast le_rndMant n' d' hn' hd' (by have := rndExp_ge n d; omega)
    have hp := two_zpow_pos (rndExp n d)
    have hp' := two_zpow_pos (rndExp n' d')
    have h2 : (2 : ℚ) ^ (rndExp n d + 1) ≤ (2 : ℚ) ^ (rndExp n' d') :=
      zpow_le_zpow_right₀ (by norm_num) (by omega)
    rw [two_zpow_add] at h2
    calc (rndMant n d : ℚ) * (2 : ℚ) ^ (rndExp n d)
        ≤ 9007199254740992 * (2 : ℚ) ^ (rndExp n d) := mul_le_mul_of_nonneg_right hM hp.le
      _ = 4503599627370496 * ((2 : ℚ) ^ (rndExp n d) * (2 : ℚ) ^ (1 : Int)) := by
          rw [zpow_one]; ring
      _ ≤ 4503599627370496 * (2 : ℚ) ^ (rndExp n' d') :=
          mul_le_mul_of_nonneg_left h2 (by norm_num)
      _ ≤ (rndMant n' d' : ℚ) * (2 : ℚ) ^ (rndExp n' d') := mul_le_mul_of_nonneg_right hM' hp'.le
  · have hcross : n * d' ≤ n' * d := by
      have hd0 : (0 : ℚ) < d := by exact_mod_cast hd
      have hd0' : (0 : ℚ) < d' := by exact_mod_cast hd'
      rw [div_le_div_iff₀ hd0 hd0'] at h
      exact_mod_cast h
    have hm : rndMant n d ≤ rndMant n' d' := by
      unfold rndMant
      rw [← heq]
      apply roundHalfEven_mono _ _ _ _ (scaled_den_pos d hd _) (scaled_den_pos d' hd' _)
      calc n * 2 ^ (-rndExp n d).toNat * (d' * 2 ^ (rndExp n d).toNat)
          = n * d' * (2 ^ (-rndExp n d).toNat * 2 ^ (rndExp n d).toNat) := by ring
        _ ≤ n' * d * (2 ^ (-rndExp n d).toNat * 2 ^ (rndExp n d).toNat) :=
            Nat.mul_le_mul_right _ hcross
        _ = n' * 2 ^ (-rndExp n d).toNat * (d * 2 ^ (rndExp n d).toNat) := by ring
    rw [← heq]
    exact mul_le_mul_of_nonneg_right (by exact_mod_cast hm) (two_zpow_pos _).le

/-- The result of rounding a positive magnitude: finite with the rounded magnitude when
that is below `2^1024`, and an infinity otherwise. -/
theorem F64.rnd_cases (s : Bool) (n d : Nat) (hn : 0 < n) (hd : 0 < d) :
    ((rndMant n d : ℚ) * (2 : ℚ) ^ (rndExp n d) < (2 : ℚ) ^ (1024 : Int) ∧
      ∃ m e, rnd s n d = fin s m e ∧
        (m : ℚ) * (2 : ℚ) ^ e = (rndMant n d : ℚ) * (2 : ℚ) ^ (rndExp n d)) ∨
    ((2 : ℚ) ^ (1024 : Int) ≤ (rndMant n d : ℚ) * (2 : ℚ) ^ (rndExp n d) ∧ rnd s n d = inf s) := by
  have hM := rndMant_le n d hn hd
  have hge := rndExp_ge n d
  have hp := two_zpow_pos (rndExp n d)
  rw [rnd_eq_pack s n d hn]
  unfold pack
  by_cases h1 : rndMant n d = 9007199254740992
  · rw [if_pos h1, h1]
    have hv : ((9007199254740992 : Nat) : ℚ) * (2 : ℚ) ^ (rndExp n d)
        = (2 : ℚ) ^ (rndExp n d + 53) := by
      rw [two_zpow_add, two_pow_53]; push_cast; ring
    rw [hv]
    by_cases h2 : 971 < rndExp n d + 1
    · rw [if_pos h2]
      exact Or.inr ⟨zpow_le_zpow_right₀ (by norm_num) (by omega), rfl⟩
    · rw [if_neg h2]
      refine Or.inl ⟨zpow_lt_zpow_right₀ (by norm_num) (by omega), _, _, rfl, ?_⟩
      rw [show rndExp n d + 53 = (rndExp n d + 1) + 52 by ring, two_zpow_add (rndExp n d + 1),
        two_pow_52]
      push_cast; ring
  · rw [if_neg h1]
    have hlt : (rndMant n d : ℚ) < 9007199254740992 := by
      exact_mod_cast lt_of_le_of_ne hM h1
    by_cases h2 : 971 < rndExp n d
    · rw [if_pos h2]
      have hM' : (4503599627370496 : ℚ) ≤ (rndMant n d : ℚ) := by
        exact_mod_cast le_rndMant n d hn hd (by omega)
      have h3 : (2 : ℚ) ^ (972 : Int) ≤ (2 : ℚ) ^ (rndExp n d) :=
        zpow_le_zpow_right₀ (by norm_num) (by omega)
      refine Or.inr ⟨?_, rfl⟩
      calc (2 : ℚ) ^ (1024 : Int) = 4503599627370496 * (2 : ℚ) ^ (972 : Int) := by norm_num
        _ ≤ 4503599627370496 * (2 : ℚ) ^ (rndExp n d) := mul_le_mul_of_nonneg_left h3 (by norm_num)
        _ ≤ (rndMant n d : ℚ) * (2 : ℚ) ^ (rndExp n d) := mul_le_mul_of_nonneg_right hM' hp.le
    · rw [if_neg h2]
      have h3 : (2 : ℚ) ^ (rndExp n d) ≤ (2 : ℚ) ^ (971 : Int) :=
        zpow_le_zpow_right₀ (by norm_num) (by omega)
      refine Or.inl ⟨?_, _, _, rfl, rfl⟩
      calc (rndMant n d : ℚ) * (2 : ℚ) ^ (rndExp n d)
          < 9007199254740992 * (2 : ℚ) ^ (rndExp n d) := mul_lt_mul_of_pos_right hlt hp
        _ ≤ 9007199254740992 * (2 : ℚ) ^ (971 : Int) := mul_le_mul_of_nonneg_left h3 (by norm_num)
        _ = (2 : ℚ) ^ (1024 : Int) := by norm_num

theorem F64.le_fin_iff (s : Bool) (m : Nat) (e : Int) (t : Bool) (k : Nat) (f : Int) :
    le (fin s m e) (fin t k f) = true ↔ toRat (fin s m e) ≤ toRat (fin t k f) := by
  have hge : min e f ≤ e := min_le_left _ _
  have hgf : min e f ≤ f := min_le_right _ _
  have hX : ((signed s (m * 2 ^ (e - min e f).toNat) : Int) : ℚ) * (2 : ℚ) ^ (min e f)
      = toRat (fin s m e) := by
    rw [signed_cast, toRat_fin]
    push_cast
    rw [mul_assoc, mul_assoc, two_pow_toNat_sub e _ hge]
    ring
  have hY : ((signed t (k * 2 ^ (f - min e f).toNat) : Int) : ℚ) * (2 : ℚ) ^ (min e f)
      = toRat (fin t k f) := by
    rw [signed_cast, toRat_fin]
    push_cast
    rw [mul_assoc, mul_assoc, two_pow_toNat_sub f _ hgf]
    ring
  have hp := two_zpow_pos (min e f)
  rw [← hX, ← hY, mul_le_mul_right hp]
  simp only [le, decide_eq_true_eq]
  exact Int.cast_le.symm

theorem F64.le_iff (x y : F64) (hx : Finite x) (hy : Finite y) :
    le x y = true ↔ toRat x ≤ toRat y := by
  cases x with
  | nan => exact False.elim hx
  | inf s => exact False.elim hx
  | fin s m e =>
    cases y with
    | nan => exact False.elim hy
    | inf s => exact False.elim hy
    | fin t k f => exact le_fin_iff s m e t k f

theorem F64.le_self (x : F64) (hx : x ≠ nan) : le x x = true := by
  cases x with
  | nan => exact absurd rfl hx
  | inf s => cases s <;> rfl
  | fin s m e => exact (le_fin_iff s m e s m e).2 le_rfl

theorem F64.toRat_fin_true_nonpos (m : Nat) (e : Int) : toRat (fin true m e) ≤ 0 := by
  rw [toRat_fin]
  have : sgnQ true = -1 := rfl
  rw [this]
  have : (0 : ℚ) ≤ (m : ℚ) * (2 : ℚ) ^ e := mul_nonneg (Nat.cast_nonneg m) (two_zpow_pos e).le
  linarith

theorem F64.toRat_fin_false_nonneg (m : Nat) (e : Int) : 0 ≤ toRat (fin false m e) := by
  rw [toRat_fin]
  have : sgnQ false = 1 := rfl
  rw [this, one_mul]
  exact mul_nonneg (Nat.cast_nonneg m) (two_zpow_pos e).le

/-- Rounding is monotone: the rounding of a smaller exact value is `<=` the rounding of
a larger one, infinities included. -/
theorem F64.rnd_le (s : Bool) (n d : Nat) (s' : Bool) (n' d' : Nat) (hd : 0 < d) (hd' : 0 < d')
    (h : sgnQ s * ((n : ℚ) / d) ≤ sgnQ s' * ((n' : ℚ) / d')) :
    le (rnd s n d) (rnd s' n' d') = true := by
  have hd0 : (0 : ℚ) < d := by exact_mod_cast hd
  have hd0' : (0 : ℚ) < d' := by exact_mod_cast hd'
  have hzero : ∀ (σ : Bool) (δ : Nat), rnd σ 0 δ = fin σ 0 (-1074) := fun σ δ => by simp [rnd]
  have hz0 : ∀ σ : Bool, toRat (fin σ 0 (-1074)) = 0 := fun σ => by simp [toRat]
  cases s <;> cases s'
  · have h' : (n : ℚ) / d ≤ (n' : ℚ) / d' := by
      simpa [sgnQ] using h
    rcases Nat.eq_zero_or_pos n with hn | hn
    · subst hn
      rw [hzero]
      rcases rnd_sign false n' d' with h1 | ⟨m1, e1, h1⟩
      · rw [h1]; rfl
      · rw [h1, le_fin_iff, hz0]; exact toRat_fin_false_nonneg m1 e1
    · have hn' : 0 < n' := by
        rcases Nat.eq_zero_or_pos n' with hn' | hn'
        · subst hn'
          have hpos : (0 : ℚ) < (n : ℚ) / d := div_pos (by exact_mod_cast hn) hd0
          simp only [Nat.cast_zero, zero_div] at h'
          linarith
        · exact hn'
      have hmono := rnd_mant_val_mono n d n' d' hn hd hn' hd' h'
      rcases rnd_cases false n' d' hn' hd' with ⟨hv', m', e', hr', hm'⟩ | ⟨_, hr'⟩
      · rcases rnd_cases false n d hn hd with ⟨_, m, e, hr, hm⟩ | ⟨hv, _⟩
        · rw [hr, hr', le_fin_iff, toRat_fin, toRat_fin]
          have : sgnQ false = 1 := rfl
          rw [this, one_mul, one_mul, hm, hm']
          exact hmono
        · linarith
      · rw [hr']
        rcases rnd_sign false n d with h1 | ⟨m1, e1, h1⟩
        · rw [h1]; rfl
        · rw [h1]; rfl
  · have h' : (n : ℚ) / d ≤ -((n' : ℚ) / d') := by
      simpa [sgnQ] using h
    have h1 : (0 : ℚ) ≤ (n : ℚ) / d := div_nonneg (Nat.cast_nonneg n) hd0.le
    have h2 : (0 : ℚ) ≤ (n' : ℚ) / d' := div_nonneg (Nat.cast_nonneg n') hd0'.le
    have hn : n = 0 := by
      have : (n : ℚ) / d = 0 := by linarith
      rcases div_eq_zero_iff.1 this with h3 | h3
      · exact_mod_cast h3
      · exact absurd h3 hd0.ne'
    have hn' : n' = 0 := by
      have : (n' : ℚ) / d' = 0 := by linarith
      rcases div_eq_zero_iff.1 this with h3 | h3
      · exact_mod_cast h3
      · exact absurd h3 hd0'.ne'
    subst hn hn'
    rw [hzero, hzero, le_fin_iff, hz0, hz0]
  · rcases rnd_sign true n d with h1 | ⟨m1, e1, h1⟩
    · rw [h1]
      rcases rnd_sign false n' d' with h2 | ⟨m2, e2, h2⟩
      · rw [h2]; rfl
      · rw [h2]; rfl
    · rw [h1]
      rcases rnd_sign false n' d' with h2 | ⟨m2, e2, h2⟩
      · rw [h2]; rfl
      · rw [h2, le_fin_iff]
        exact le_trans (toRat_fin_true_nonpos m1 e1) (toRat_fin_false_nonneg m2 e2)
  · have h' : (n' : ℚ) / d' ≤ (n : ℚ) / d := by
      have : -((n : ℚ) / d) ≤ -((n' : ℚ) / d') := by simpa [sgnQ] using h
      linarith
    rcases Nat.eq_zero_or_pos n' with hn' | hn'
    · subst hn'
      rw [hzero true d']
      rcases rnd_sign true n d with h1 | ⟨m1, e1, h1⟩
      · rw [h1]; rfl
      · rw [h1, le_fin_iff, hz0]; exact toRat_fin_true_nonpos m1 e1
    · have hn : 0 < n := by
        rcases Nat.eq_zero_or_pos n with hn | hn
        · subst hn
          have hpos : (0 : ℚ) < (n' : ℚ) / d' := div_pos (by exact_mod_cast hn') hd0'
          simp only [Nat.cast_zero, zero_div] at h'
          linarith
        · exact hn
      have hmono := rnd_mant_val_mono n' d' n d hn' hd' hn hd h'
      rcases rnd_cases true n d hn hd with ⟨hv, m, e, hr, hm⟩ | ⟨_, hr⟩
      · rcases rnd_cases true n' d' hn' hd' with ⟨_, m', e', hr', hm'⟩ | ⟨hv', _⟩
        · rw [hr, hr', le_fin_iff, toRat_fin, toRat_fin]
          have : sgnQ true = -1 := rfl
          rw [this, mul_assoc, mul_assoc, hm, hm']
          linarith
        · linarith
      · rw [hr]
        rcases rnd_sign true n' d' with h1 | ⟨m1, e1, h1⟩
        · rw [h1]; rfl
        · rw [h1]; rfl

theorem F64.IsRnd.le {r r' : F64} {v v' : ℚ} (h : IsRnd r v) (h' : IsRnd r' v')
    (hv : v ≤ v') : F64.le r r' = true := by
  obtain ⟨s, n, d, hd, hr, hval⟩ := h
  obtain ⟨s', n', d', hd', hr', hval'⟩ := h'
  rw [hr, hr']
  exact rnd_le s n d s' n' d' hd hd' (by rw [hval, hval']; exact hv)

theorem F64.ofInt_isRnd (i : Int) : IsRnd (ofInt i) (i : ℚ) :=
  ⟨decide (i < 0), i.natAbs, 1, by norm_num, rfl, by
    rw [Nat.cast_one, div_one]; exact sgnQ_natAbs i⟩

theorem F64.add_isRnd (x y : F64) (hx : Finite x) (hy : Finite y) :
    IsRnd (add x y) (toRat x + toRat y) := by
  cases x with
  | nan => exact False.elim hx
  | inf s => exact False.elim hx
  | fin s m e =>
  cases y with
  | nan => exact False.elim hy
  | inf s => exact False.elim hy
  | fin t k f =>
    have hge : min e f ≤ e := min_le_left _ _
    have hgf : min e f ≤ f := min_le_right _ _
    have hX : ((signed s (m * 2 ^ (e - min e f).toNat) : Int) : ℚ) * (2 : ℚ) ^ (min e f)
        = toRat (fin s m e) := by
      rw [signed_cast, toRat_fin]
      push_cast
      rw [mul_assoc, mul_assoc, two_pow_toNat_sub e _ hge]
      ring
    have hY : ((signed t (k * 2 ^ (f - min e f).toNat) : Int) : ℚ) * (2 : ℚ) ^ (min e f)
        = toRat (fin t k f) := by
      rw [signed_cast, toRat_fin]
      push_cast
      rw [mul_assoc, mul_assoc, two_pow_toNat_sub f _ hgf]
      ring
    simp only [add]
    split_ifs with h0
    · refine ⟨s && t, 0, 1, by norm_num, by simp [rnd], ?_⟩
      rw [← hX, ← hY, ← add_mul]
      have : ((signed s (m * 2 ^ (e - min e f).toNat) : Int) : ℚ)
          + ((signed t (k * 2 ^ (f - min e f).toNat) : Int) : ℚ) = 0 := by
        exact_mod_cast h0
      rw [this, zero_mul]
      simp
    · refine ⟨_, _, _, by positivity, rfl, ?_⟩
      rw [← hX, ← hY, ← add_mul, ← Int.cast_add]
      generalize signed s (m * 2 ^ (e - min e f).toNat)
        + signed t (k * 2 ^ (f - min e f).toNat) = z
      push_cast
      rw [mul_div_assoc, two_zpow_split, ← mul_assoc, sgnQ_natAbs]

theorem F64.sub_isRnd (x y : F64) (hx : Finite x) (hy : Finite y) :
    IsRnd (sub x y) (toRat x - toRat y) := by
  have h := add_isRnd x (neg y) hx (finite_neg y hy)
  rw [toRat_neg, ← sub_eq_add_neg] at h
  exact h

theorem F64.mul_isRnd (x y : F64) (hx : Finite x) (hy : Finite y) :
    IsRnd (mul x y) (toRat x * toRat y) := by
  cases x with
  | nan => exact False.elim hx
  | inf s => exact False.elim hx
  | fin s m e =>
  cases y with
  | nan => exact False.elim hy
  | inf s => exact False.elim hy
  | fin t k f =>
    simp only [mul]
    refine ⟨_, _, _, by positivity, rfl, ?_⟩
    rw [toRat_fin, toRat_fin, sgnQ_xor]
    push_cast
    rw [mul_div_assoc, two_zpow_split, two_zpow_add]
    ring

theorem F64.div_isRnd (x y : F64) (hx : Finite x) (hy : Finite y) (hy0 : toRat y ≠ 0) :
    IsRnd (div x y) (toRat x / toRat y) := by
  cases x with
  | nan => exact False.elim hx
  | inf s => exact False.elim hx
  | fin s m e =>
  cases y with
  | nan => exact False.elim hy
  | inf s => exact False.elim hy
  | fin t k f =>
    have hk : k ≠ 0 := by
      rintro rfl
      exact hy0 (by simp [toRat])
    have hk' : (k : ℚ) ≠ 0 := by exact_mod_cast hk
    simp only [div, hk, if_false]
    refine ⟨_, _, _, Nat.mul_pos (Nat.pos_of_ne_zero hk) (by positivity), rfl, ?_⟩
    rw [toRat_fin, toRat_fin, sgnQ_xor]
    have h1 : (2 : ℚ) ^ (e - f).toNat / (2 : ℚ) ^ (f - e).toNat = (2 : ℚ) ^ e / (2 : ℚ) ^ f := by
      have := two_zpow_split (e - f)
      rw [show -(e - f) = f - e by ring] at this
      rw [this, zpow_sub₀ (by norm_num)]
    have hs : sgnQ t ≠ 0 := by cases t <;> simp [sgnQ]
    have hp : (2 : ℚ) ^ f ≠ 0 := (two_zpow_pos f).ne'
    have hp2 : (2 : ℚ) ^ (f - e).toNat ≠ 0 := by positivity
    push_cast
    have h2 : (m : ℚ) * (2 : ℚ) ^ (e - f).toNat / ((k : ℚ) * (2 : ℚ) ^ (f - e).toNat)
        = (m : ℚ) / k * ((2 : ℚ) ^ (e - f).toNat / (2 : ℚ) ^ (f - e).toNat) := by
      field_simp
    rw [h2, h1]
    have hst : sgnQ s * sgnQ t = sgnQ s / sgnQ t := by
      cases s <;> cases t <;> simp [sgnQ]
    rw [hst]
    field_simp
    ring

theorem F64.max0_mono (x y : F64) (h : le x y = true) : le (max0 x) (max0 y) = true := by
  cases x with
  | nan => exact absurd h (by simp [le])
  | inf s =>
    cases y with
    | nan => exact absurd h (by simp [le])
    | inf t => cases s <;> cases t <;> first | rfl | exact absurd h (by decide)
    | fin t k f =>
      have hs : s = true := h
      subst hs
      have e1 : max0 (inf true) = zero := rfl
      rw [e1]
      have hy := max0_val (fin t k f) trivial
      rw [le_iff zero _ trivial hy.1, hy.2.1]
      have : toRat zero = 0 := by simp [toRat, zero]
      rw [this]
      exact le_max_left _ _
  | fin s m e =>
    have hx := max0_val (fin s m e) trivial
    cases y with
    | nan => exact absurd h (by simp [le])
    | inf t =>
      have ht : t = false := by
        cases t
        · rfl
        · exact absurd h (by simp [le])
      subst ht
      have e1 : max0 (inf false) = inf false := rfl
      rw [e1]
      cases hm : max0 (fin s m e) with
      | nan => rw [hm] at hx; exact False.elim hx.1
      | inf u => rw [hm] at hx; exact False.elim hx.1
      | fin u a b => rfl
    | fin t k f =>
      have hy := max0_val (fin t k f) trivial
      rw [le_fin_iff] at h
      rw [le_iff _ _ hx.1 hy.1, hx.2.1, hy.2.1]
      exact max_le_max le_rfl h

theorem timeSub_mono (t1 t2 u : Int) (h : t1 ≤ t2) : timeSub t1 u ≤ timeSub t2 u := by
  unfold timeSub
  split_ifs <;> omega

/-- The leakage of an `int64` limit over an `int64` duration is finite. -/
theorem Bucket.leak_finite (L d : Int) (hL : IsInt64 L) (hd : IsInt64 d) :
    Finite (mul (ofInt L) (ofInt d)) ∧
      Finite (div (mul (ofInt L) (ofInt d)) (ofInt WindowDuration)) := by
  obtain ⟨hfL, _, hL1, hL2⟩ := ofInt_int64 L hL
  obtain ⟨hfd, _, hd1, hd2⟩ := ofInt_int64 d hd
  have habs : |toRat (ofInt L) * toRat (ofInt d)| ≤ (2 : ℚ) ^ 126 := by
    rw [abs_mul]
    have h1 : |toRat (ofInt L)| ≤ 9223372036854775808 := abs_le.2 ⟨hL1, hL2⟩
    have h2 : |toRat (ofInt d)| ≤ 9223372036854775808 := abs_le.2 ⟨hd1, hd2⟩
    calc |toRat (ofInt L)| * |toRat (ofInt d)|
        ≤ 9223372036854775808 * 9223372036854775808 :=
          mul_le_mul h1 h2 (abs_nonneg _) (by norm_num)
      _ = (2 : ℚ) ^ 126 := by norm_num
  obtain ⟨hlo, hhi⟩ := abs_le.1 habs
  obtain ⟨hfm, _, hm1, hm2⟩ := mul_rounds (ofInt L) (ofInt d) hfL hfd _ _
    (rep_neg_two_pow 126 (by norm_num)) (rep_two_pow 126 (by norm_num)) hlo hhi
  have hW0 : toRat (ofInt WindowDuration) ≠ 0 := by rw [toRat_window]; norm_num
  have hq : |toRat (mul (ofInt L) (ofInt d)) / toRat (ofInt WindowDuration)| ≤ (2 : ℚ) ^ 126 := by
    rw [toRat_window, abs_div, abs_of_pos (by norm_num : (0 : ℚ) < 60000000000)]
    have h3 : |toRat (mul (ofInt L) (ofInt d))| ≤ (2 : ℚ) ^ 126 := abs_le.2 ⟨hm1, hm2⟩
    rw [div_le_iff₀ (by norm_num)]
    have : (0 : ℚ) ≤ (2 : ℚ) ^ 126 := by positivity
    linarith
  obtain ⟨hqlo, hqhi⟩ := abs_le.1 hq
  exact ⟨hfm, (div_rounds _ _ hfm finite_window hW0 _ _
    (rep_neg_two_pow 126 (by norm_num)) (rep_two_pow 126 (by norm_num)) hqlo hqhi).1⟩

/-- With a non-negative limit, a later instant has leaked at least as much. -/
theorem Bucket.leak_mono (L d1 d2 : Int) (hL : IsInt64 L) (hL0 : 0 ≤ L) (hd1 : IsInt64 d1)
    (hd2 : IsInt64 d2) (h : d1 ≤ d2) :
    toRat (div (mul (ofInt L) (ofInt d1)) (ofInt WindowDuration)) ≤
      toRat (div (mul (ofInt L) (ofInt d2)) (ofInt WindowDuration)) := by
  obtain ⟨hfL, _, _, _⟩ := ofInt_int64 L hL
  obtain ⟨hf1, _, _, _⟩ := ofInt_int64 d1 hd1
  obtain ⟨hf2, _, _, _⟩ := ofInt_int64 d2 hd2
  have hLnn : 0 ≤ toRat (ofInt L) :=
    (ofInt_rounds L 0 9223372036854775808 (by simpa using rep_zero) rep_two_pow_63
      (by exact_mod_cast hL0)
      (by have : (L : ℚ) ≤ ((9223372036854775807 : Int) : ℚ) := by exact_mod_cast hL.2
          push_cast at this; linarith)).2.2.1
  obtain ⟨hm1, hq1⟩ := Bucket.leak_finite L d1 hL hd1
  obtain ⟨hm2, hq2⟩ := Bucket.leak_finite L d2 hL hd2
  have hW0 : toRat (ofInt WindowDuration) ≠ 0 := by rw [toRat_window]; norm_num
  have s1 : toRat (ofInt d1) ≤ toRat (ofInt d2) :=
    (le_iff _ _ hf1 hf2).1 ((ofInt_isRnd d1).le (ofInt_isRnd d2) (by exact_mod_cast h))
  have s2 : toRat (mul (ofInt L) (ofInt d1)) ≤ toRat (mul (ofInt L) (ofInt d2)) :=
    (le_iff _ _ hm1 hm2).1 ((mul_isRnd _ _ hfL hf1).le (mul_isRnd _ _ hfL hf2)
      (mul_le_mul_of_nonneg_left s1 hLnn))
  exact (le_iff _ _ hq1 hq2).1
    ((div_isRnd _ _ hm1 finite_window hW0).le (div_isRnd _ _ hm2 finite_window hW0)
      (by rw [toRat_window]; exact div_le_div_of_nonneg_right s2 (by norm_num)))

/-! ### Registry invariants -/

/-- Every bucket stored by `Add` carries the non-zero limit of the call that wrote it. -/
theorem ReachableBy.limit_ne_zero (oor : F64 → Int) (lim amt : Int → Prop) (p : Counter)
    (t : Int) (h : ReachableBy oor lim amt p t) :
    ∀ key b, p.buckets key = some b → b.LimitPerWindow ≠ 0 := by
  induction h with
  | init t => intro key b hb; exact absurd hb (by simp [NewCounter])
  | step p t now key L a info p' _ ht hL ha hadd ih =>
    intro key' b hb
    rcases Counter.add_cases oor p now key L a with ⟨-, e⟩ | ⟨-, -, e⟩ | ⟨hL0, hc, e⟩
    · rw [e] at hadd
      simp only [Option.some.injEq, Prod.mk.injEq] at hadd
      rw [← hadd.2] at hb
      exact ih key' b hb
    · rw [e] at hadd
      simp only [Option.map_eq_some', Prod.mk.injEq] at hadd
      obtain ⟨r, -, -, hp⟩ := hadd
      rw [← hp] at hb
      exact ih key' b hb
    · rw [e] at hadd
      simp only [Option.map_eq_some', Prod.mk.injEq] at hadd
      obtain ⟨r, -, -, hp⟩ := hadd
      rw [← hp] at hb
      by_cases hk : key' = key
      · subst hk
        simp only [Counter.store, if_true, Option.some.injEq] at hb
        rw [← hb]
        exact hL0
      · simp only [Counter.store, hk, if_false] at hb
        exact ih key' b hb

/-- On a registry whose stored limits are all non-zero, `Add` does not panic. -/
theorem Counter.add_isSome (oor : F64 → Int) (p : Counter) (now : Int) (key : String)
    (L a : Int) (hp : ∀ b, p.buckets key = some b → b.LimitPerWindow ≠ 0) :
    ∃ info p', Counter.Add oor p now key L a = some (info, p') := by
  rcases Counter.add_cases oor p now key L a with ⟨-, e⟩ | ⟨-, -, e⟩ | ⟨hL0, -, e⟩
  · exact ⟨_, _, e⟩
  · have hex : p.buckets key = none ∨ (p.lookup key).LimitPerWindow ≠ 0 := by
      cases hb : p.buckets key with
      | none => exact Or.inl rfl
      | some b =>
        right
        have : p.lookup key = b := by simp [Counter.lookup, hb]
        rw [this]
        exact hp b hb
    obtain ⟨r, hr⟩ := Counter.willReach_lookup_isSome oor p key (wrap64 (Size L - a)) now hex
    rw [hr] at e
    exact ⟨_, _, e⟩
  · obtain ⟨r, hr⟩ := Bucket.willReach_isSome oor ((p.lookup key).Plus now L a)
      (wrap64 (Size L - 1)) now hL0
    rw [hr] at e
    exact ⟨_, _, e⟩

/-- The leakage of an `int64` limit over an `int64` duration is finite and of magnitude
at most `2^126`. -/
theorem Bucket.leak_range (L d : Int) (hL : IsInt64 L) (hd : IsInt64 d) :
    Finite (div (mul (ofInt L) (ofInt d)) (ofInt WindowDuration)) ∧
      -(2 : ℚ) ^ 126 ≤ toRat (div (mul (ofInt L) (ofInt d)) (ofInt WindowDuration)) ∧
      toRat (div (mul (ofInt L) (ofInt d)) (ofInt WindowDuration)) ≤ (2 : ℚ) ^ 126 := by
  obtain ⟨hfL, _, hL1, hL2⟩ := ofInt_int64 L hL
  obtain ⟨hfd, _, hd1, hd2⟩ := ofInt_int64 d hd
  have habs : |toRat (ofInt L) * toRat (ofInt d)| ≤ (2 : ℚ) ^ 126 := by
    rw [abs_mul]
    have h1 : |toRat (ofInt L)| ≤ 9223372036854775808 := abs_le.2 ⟨hL1, hL2⟩
    have h2 : |toRat (ofInt d)| ≤ 9223372036854775808 := abs_le.2 ⟨hd1, hd2⟩
    calc |toRat (ofInt L)| * |toRat (ofInt d)|
        ≤ 9223372036854775808 * 9223372036854775808 :=
          mul_le_mul h1 h2 (abs_nonneg _) (by norm_num)
      _ = (2 : ℚ) ^ 126 := by norm_num
  obtain ⟨hlo, hhi⟩ := abs_le.1 habs
  obtain ⟨hfm, _, hm1, hm2⟩ := mul_rounds (ofInt L) (ofInt d) hfL hfd _ _
    (rep_neg_two_pow 126 (by norm_num)) (rep_two_pow 126 (by norm_num)) hlo hhi
  have hW0 : toRat (ofInt WindowDuration) ≠ 0 := by rw [toRat_window]; norm_num
  have hq : |toRat (mul (ofInt L) (ofInt d)) / toRat (ofInt WindowDuration)| ≤ (2 : ℚ) ^ 126 := by
    rw [toRat_window, abs_div, abs_of_pos (by norm_num : (0 : ℚ) < 60000000000)]
    have h3 : |toRat (mul (ofInt L) (ofInt d))| ≤ (2 : ℚ) ^ 126 := abs_le.2 ⟨hm1, hm2⟩
    rw [div_le_iff₀ (by norm_num)]
    have : (0 : ℚ) ≤ (2 : ℚ) ^ 126 := by positivity
    linarith
  obtain ⟨hqlo, hqhi⟩ := abs_le.1 hq
  obtain ⟨h1, -, h3, h4⟩ := div_rounds _ _ hfm finite_window hW0 _ _
    (rep_neg_two_pow 126 (by norm_num)) (rep_two_pow 126 (by norm_num)) hqlo hqhi
  exact ⟨h1, h3, h4⟩

/-- The fill of a bucket within its capacity, at or after its last write, is a finite
number between `0` and the capacity of its stored limit. -/
theorem Bucket.InCapacity.fill_bounds (b : Bucket) (t now : Int) (hb : b.InCapacity t)
    (ht : t ≤ now) :
    Finite (b.countAt now) ∧ 0 ≤ toRat (b.countAt now) ∧
      toRat (b.countAt now) ≤ ((Size b.LimitPerWindow : Int) : ℚ) := by
  obtain ⟨hL1, hL2, hU, hCf, hCv, hC0, hC1⟩ := hb
  have hL : IsInt64 b.LimitPerWindow := by constructor <;> omega
  have hSb := size_bounds b.LimitPerWindow
  have hd := timeSub_isInt64 now b.UpdatedAt
  have hd0 : 0 ≤ timeSub now b.UpdatedAt := by
    unfold timeSub; split_ifs <;> omega
  obtain ⟨hQ1, -, hQ4⟩ := Bucket.leak_range _ _ hL hd
  have hQ3 : 0 ≤ toRat (div (mul (ofInt b.LimitPerWindow) (ofInt (timeSub now b.UpdatedAt)))
      (ofInt WindowDuration)) := by
    have := Bucket.leak_mono b.LimitPerWindow 0 _ hL (by omega) (by decide) hd hd0
    rw [(leak_zero _ hL).2] at this
    exact this
  have hS0' : (0 : ℚ) ≤ ((Size b.LimitPerWindow : Int) : ℚ) := le_trans hC0 hC1
  have hS0 : 0 ≤ Size b.LimitPerWindow := by exact_mod_cast hS0'
  obtain ⟨hR1, -, hR3, hR4⟩ := sub_rounds _ _ hCf hQ1 (-(2 : ℚ) ^ 126)
    ((Size b.LimitPerWindow : Int) : ℚ)
    (rep_neg_two_pow 126 (by norm_num)) (rep_abs_int _ (by omega) (by omega))
    (by linarith) (by linarith)
  obtain ⟨hM1, hM2, -⟩ := max0_val _ hR1
  have e1 : b.countAt now = max0 (sub b.Count
      (div (mul (ofInt b.LimitPerWindow) (ofInt (timeSub now b.UpdatedAt)))
        (ofInt WindowDuration))) := rfl
  rw [e1]
  exact ⟨hM1, by rw [hM2]; exact le_max_left _ _, by rw [hM2]; exact max_le hS0' hR4⟩

/-- The bucket written by an admitted call is within its capacity: the admission check
bounds its count by the capacity. -/
theorem Bucket.inCapacity_of_admitted (oor : F64 → Int) (b : Bucket) (now L a : Int)
    (hf : Finite (b.countAt now)) (hc : toRat (b.countAt now) ≤ 153722867)
    (hL1 : 1 ≤ L) (hL2 : L ≤ 9223372036854775807) (ha : AmountInRange a)
    (hadm : ¬ Size L < (b.Plus now L a).CountAt oor now) :
    (b.Plus now L a).InCapacity now := by
  obtain ⟨ha0, ha1⟩ := ha
  have hc0 := Bucket.countAt_toRat_nonneg b now
  have ha0' : (0 : ℚ) ≤ (a : ℚ) := by exact_mod_cast ha0
  have ha1' : (a : ℚ) ≤ 4611686018427387904 := by exact_mod_cast ha1
  obtain ⟨hI1, -, hI3, hI4⟩ := ofInt_rounds a 0 4611686018427387904
    (by simpa using rep_zero)
    (rep_pos 1 62 (by norm_num) (by norm_num) (by norm_num) _ (by norm_num)) ha0' ha1'
  obtain ⟨hN1, hN2, hN3, hN4⟩ := add_rounds _ _ hf hI1 0 4611686018695823360
    (by simpa using rep_zero)
    (rep_pos 17179869185 28 (by norm_num) (by norm_num) (by norm_num) _ (by norm_num))
    (by linarith) (by linarith)
  have hL : IsInt64 L := by unfold IsInt64; omega
  obtain ⟨hC1, hC3⟩ := Bucket.countAt_self now L _ hL hN1 hN2 hN3
  have hplus : b.Plus now L a =
      { UpdatedAt := now, LimitPerWindow := L, Count := add (b.countAt now) (ofInt a) } := rfl
  have hceil0 : 0 ≤ ⌈toRat (add (b.countAt now) (ofInt a))⌉ := Int.ceil_nonneg hN3
  have hceil1 : ⌈toRat (add (b.countAt now) (ofInt a))⌉ ≤ 4611686018695823360 :=
    Int.ceil_le.2 (by push_cast; exact hN4)
  have hcount : (b.Plus now L a).CountAt oor now = ⌈toRat (add (b.countAt now) (ofInt a))⌉ := by
    unfold Bucket.CountAt
    rw [toInt64_ceil oor _ (by rw [hplus]; exact hC1) (Bucket.countAt_valid _ _)
      (by rw [hplus, hC3]; unfold IsInt64; omega), hplus, hC3]
  rw [hcount] at hadm
  have hle : toRat (add (b.countAt now) (ofInt a)) ≤ ((Size L : Int) : ℚ) := by
    have h1 : ⌈toRat (add (b.countAt now) (ofInt a))⌉ ≤ Size L := by omega
    exact Int.ceil_le.1 h1
  exact ⟨hL1, hL2, le_refl _, hN1, hN2, hN3, hle⟩

theorem Bucket.InCapacity.later (b : Bucket) (t now : Int) (hb : b.InCapacity t)
    (ht : t ≤ now) : b.InCapacity now := by
  obtain ⟨h1, h2, h3, h4⟩ := hb
  exact ⟨h1, h2, by omega, h4⟩

/-- Registry invariant for non-negative `int64` limits and amounts `0 .. 2^62`: every
stored bucket is within its capacity. -/
theorem ReachableBy.inCapacity (oor : F64 → Int) (p : Counter) (t : Int)
    (h : ReachableBy oor LimitNonneg AmountInRange p t) :
    ∀ key b, p.buckets key = some b → b.InCapacity t := by
  induction h with
  | init t => intro key b hb; exact absurd hb (by simp [NewCounter])
  | step p t now key L a info p' _ ht hL ha hadd ih =>
    intro key' b hb
    rcases Counter.add_cases oor p now key L a with ⟨-, e⟩ | ⟨-, -, e⟩ | ⟨hL0, hc, e⟩
    · rw [e] at hadd
      simp only [Option.some.injEq, Prod.mk.injEq] at hadd
      rw [← hadd.2] at hb
      exact (ih key' b hb).later _ _ _ ht
    · rw [e] at hadd
      simp only [Option.map_eq_some', Prod.mk.injEq] at hadd
      obtain ⟨r, -, -, hp⟩ := hadd
      rw [← hp] at hb
      exact (ih key' b hb).later _ _ _ ht
    · rw [e] at hadd
      simp only [Option.map_eq_some', Prod.mk.injEq] at hadd
      obtain ⟨r, -, -, hp⟩ := hadd
      rw [← hp] at hb
      by_cases hk : key' = key
      · subst hk
        simp only [Counter.store, if_true, Option.some.injEq] at hb
        rw [← hb]
        obtain ⟨hL1, hL2⟩ := hL
        have hfc : Finite ((p.lookup key').countAt now) ∧
            toRat ((p.lookup key').countAt now) ≤ 153722867 := by
          cases hlk : p.buckets key' with
          | none =>
            rw [Counter.lookup_of_none p key' hlk, Bucket.zeroBucket_countAt]
            exact ⟨trivial, by simp [zero, toRat]⟩
          | some b0 =>
            have hb0 := ih key' b0 hlk
            have : p.lookup key' = b0 := by simp [Counter.lookup, hlk]
            rw [this]
            obtain ⟨h1, -, h3⟩ := hb0.fill_bounds _ _ _ ht
            have hS3 := (size_bounds b0.LimitPerWindow).2
            refine ⟨h1, le_trans h3 ?_⟩
            exact_mod_cast hS3
        exact Bucket.inCapacity_of_admitted oor _ now L a hfc.1 hfc.2 (by omega) hL2 ha hc
      · simp only [Counter.store, hk, if_false] at hb
        exact (ih key' b hb).later _ _ _ ht

/-! ### Rounding error on a grid -/

/-- A correct rounding of a non-negative value of at most `(2^53 - 1) * 2^g` is within
`2^g` of it. -/
theorem F64.Rounds.grid {r : F64} {v : ℚ} (h : Rounds r v) (g : Int) (hg1 : -1074 ≤ g)
    (hg2 : g ≤ 971) (hv0 : 0 ≤ v) (hv1 : v ≤ 9007199254740991 * (2 : ℚ) ^ g) :
    Finite r ∧ Valid r ∧ v - (2 : ℚ) ^ g ≤ toRat r ∧ toRat r ≤ v + (2 : ℚ) ^ g := by
  have hp := two_zpow_pos g
  have hx0 : 0 ≤ v / (2 : ℚ) ^ g := div_nonneg hv0 hp.le
  have hx1 : v / (2 : ℚ) ^ g ≤ 9007199254740991 := by
    rw [div_le_iff₀ hp]; exact hv1
  have hxv : v / (2 : ℚ) ^ g * (2 : ℚ) ^ g = v := div_mul_cancel₀ v hp.ne'
  have hfl : ((⌊v / (2 : ℚ) ^ g⌋₊ : Nat) : ℚ) ≤ v / (2 : ℚ) ^ g := Nat.floor_le hx0
  have hfl2 : v / (2 : ℚ) ^ g < ((⌊v / (2 : ℚ) ^ g⌋₊ : Nat) : ℚ) + 1 := Nat.lt_floor_add_one _
  have hce : v / (2 : ℚ) ^ g ≤ ((⌈v / (2 : ℚ) ^ g⌉₊ : Nat) : ℚ) := Nat.le_ceil _
  have hce2 : ((⌈v / (2 : ℚ) ^ g⌉₊ : Nat) : ℚ) < v / (2 : ℚ) ^ g + 1 := Nat.ceil_lt_add_one hx0
  have hcek : ⌈v / (2 : ℚ) ^ g⌉₊ ≤ 9007199254740991 := by
    rw [Nat.ceil_le]; exact_mod_cast hx1
  have hflk : ⌊v / (2 : ℚ) ^ g⌋₊ ≤ 9007199254740991 := le_trans (Nat.floor_le_ceil _) hcek
  obtain ⟨h1, h2, h3, h4⟩ := h (((⌊v / (2 : ℚ) ^ g⌋₊ : Nat) : ℚ) * (2 : ℚ) ^ g)
    (((⌈v / (2 : ℚ) ^ g⌉₊ : Nat) : ℚ) * (2 : ℚ) ^ g)
    (rep_pos _ g (by omega) hg1 hg2 _ rfl) (rep_pos _ g (by omega) hg1 hg2 _ rfl)
    (by rw [← hxv]; exact mul_le_mul_of_nonneg_right
          (by rw [hxv]; exact hfl) hp.le)
    (by rw [← hxv]; exact mul_le_mul_of_nonneg_right
          (by rw [hxv]; exact hce) hp.le)
  refine ⟨h1, h2, le_trans ?_ h3, le_trans h4 ?_⟩
  · have : (v / (2 : ℚ) ^ g - 1) * (2 : ℚ) ^ g ≤
        ((⌊v / (2 : ℚ) ^ g⌋₊ : Nat) : ℚ) * (2 : ℚ) ^ g :=
      mul_le_mul_of_nonneg_right (by linarith) hp.le
    rw [sub_mul, hxv, one_mul] at this
    exact this
  · have : ((⌈v / (2 : ℚ) ^ g⌉₊ : Nat) : ℚ) * (2 : ℚ) ^ g ≤
        (v / (2 : ℚ) ^ g + 1) * (2 : ℚ) ^ g :=
      mul_le_mul_of_nonneg_right (by linarith) hp.le
    rw [add_mul, hxv, one_mul] at this
    exact this

theorem two_zpow_neg_25 : (2 : ℚ) ^ (-25 : Int) = 1 / 33554432 := by
  rw [zpow_neg]; norm_num

theorem two_zpow_10 : (2 : ℚ) ^ (10 : Int) = 1024 := by norm_num

/-- Adding an amount to a fill within the capacity range, when the sum stays within it,
loses at most `2^-25` to rounding. -/
theorem F64.add_amount_lower (f : F64) (a : Int) (hf : Finite f) (hf0 : 0 ≤ toRat f)
    (hf1 : toRat f ≤ 153722867) (ha0 : 0 ≤ a) (ha1 : a ≤ 4611686018427387904)
    (hle : toRat (add f (ofInt a)) ≤ 153722867) :
    toRat f + (a : ℚ) - 1 / 33554432 ≤ toRat (add f (ofInt a)) := by
  have ha0' : (0 : ℚ) ≤ (a : ℚ) := by exact_mod_cast ha0
  have ha1' : (a : ℚ) ≤ 4611686018427387904 := by exact_mod_cast ha1
  have r28 : Rep |(200000000 : ℚ)| :=
    rep_pos 200000000 0 (by norm_num) (by norm_num) (by norm_num) _ (by norm_num)
  obtain ⟨hI1, -, hI3, hI4⟩ := ofInt_rounds a 0 4611686018427387904
    (by simpa using rep_zero)
    (rep_pos 1 62 (by norm_num) (by norm_num) (by norm_num) _ (by norm_num)) ha0' ha1'
  have hr := add_rounds f (ofInt a) hf hI1
  have hv : toRat f + toRat (ofInt a) < 200000000 := by
    by_contra hc
    push_neg at hc
    have := (hr 200000000 9223372036854775808 r28 rep_two_pow_63 hc (by linarith)).2.2.1
    linarith
  have hasmall : a < 9007199254740992 := by
    by_contra hc
    push_neg at hc
    have hc' : (9007199254740992 : ℚ) ≤ (a : ℚ) := by exact_mod_cast hc
    have := (ofInt_rounds a 9007199254740992 4611686018427387904
      (rep_pos 1 53 (by norm_num) (by norm_num) (by norm_num) _ (by norm_num))
      (rep_pos 1 62 (by norm_num) (by norm_num) (by norm_num) _ (by norm_num))
      hc' ha1').2.2.1
    linarith
  obtain ⟨-, -, hta⟩ := ofInt_exact a (by omega) hasmall
  rw [hta] at hr hv
  have hg := hr.grid (-25) (by norm_num) (by norm_num) (by linarith)
    (by rw [two_zpow_neg_25]; linarith)
  rw [two_zpow_neg_25] at hg
  exact hg.2.2.1

/-- The fill of a bucket in good standing is at least its count minus the exact leakage,
up to a rounding loss of `3 * 2^-25`. -/
theorem Bucket.Good.countAt_lower (b : Bucket) (t now : Int) (hb : b.Good t) (ht : t ≤ now) :
    toRat b.Count - (b.LimitPerWindow : ℚ) * ((now - b.UpdatedAt : Int) : ℚ) / 60000000000
        - 3 / 33554432 ≤ toRat (b.countAt now) := by
  have hnn := Bucket.countAt_toRat_nonneg b now
  obtain ⟨hL1, hL2, hU, hCf, hCv, hC0, hC1⟩ := hb
  obtain ⟨hS1, hS2, hS3⟩ := size_pos_le _ hL1 hL2
  by_cases hl : toRat b.Count
      ≤ (b.LimitPerWindow : ℚ) * ((now - b.UpdatedAt : Int) : ℚ) / 60000000000
  · linarith
  · push_neg at hl
    have hL1' : (1 : ℚ) ≤ (b.LimitPerWindow : ℚ) := by exact_mod_cast hL1
    have hS2' : ((Size b.LimitPerWindow : Int) : ℚ) ≤ (b.LimitPerWindow : ℚ) := by
      exact_mod_cast hS2
    have hS3' : ((Size b.LimitPerWindow : Int) : ℚ) ≤ 153722867 := by exact_mod_cast hS3
    have hd0 : 0 ≤ now - b.UpdatedAt := by omega
    have hd0' : (0 : ℚ) ≤ ((now - b.UpdatedAt : Int) : ℚ) := by exact_mod_cast hd0
    have hlt : (b.LimitPerWindow : ℚ) * ((now - b.UpdatedAt : Int) : ℚ)
        < toRat b.Count * 60000000000 := by
      rwa [div_lt_iff₀ (by norm_num)] at hl
    have hdW : now - b.UpdatedAt < 60000000000 := by
      by_contra hc
      push_neg at hc
      have hc' : (60000000000 : ℚ) ≤ ((now - b.UpdatedAt : Int) : ℚ) := by exact_mod_cast hc
      have h1 : (b.LimitPerWindow : ℚ) * 60000000000
          ≤ (b.LimitPerWindow : ℚ) * ((now - b.UpdatedAt : Int) : ℚ) :=
        mul_le_mul_of_nonneg_left hc' (by linarith)
      have h2 : toRat b.Count * 60000000000 ≤ (b.LimitPerWindow : ℚ) * 60000000000 :=
        mul_le_mul_of_nonneg_right (by linarith) (by norm_num)
      linarith
    have hts : timeSub now b.UpdatedAt = now - b.UpdatedAt :=
      timeSub_eq _ _ (by constructor <;> omega)
    obtain ⟨hA1, -, hA3⟩ := ofInt_exact b.LimitPerWindow (by omega) (by omega)
    obtain ⟨hD1, -, hD3⟩ := ofInt_exact (now - b.UpdatedAt) (by omega) (by omega)
    have hP0 : (0 : ℚ) ≤ (b.LimitPerWindow : ℚ) * ((now - b.UpdatedAt : Int) : ℚ) :=
      mul_nonneg (by linarith) hd0'
    have hP1 : (b.LimitPerWindow : ℚ) * ((now - b.UpdatedAt : Int) : ℚ)
        ≤ 9223372020000000000 := by
      have : toRat b.Count * 60000000000 ≤ 153722867 * 60000000000 :=
        mul_le_mul_of_nonneg_right (by linarith) (by norm_num)
      norm_num at this
      linarith
    have hm := mul_rounds (ofInt b.LimitPerWindow) (ofInt (now - b.UpdatedAt)) hA1 hD1
    rw [hA3, hD3] at hm
    obtain ⟨hm1, -, -, hm4⟩ := hm.grid 10 (by norm_num) (by norm_num) hP0
      (by rw [two_zpow_10]; linarith)
    rw [two_zpow_10] at hm4
    have hm0 : 0 ≤ toRat (mul (ofInt b.LimitPerWindow) (ofInt (now - b.UpdatedAt))) :=
      (hm 0 9223372036854775808 (by simpa using rep_zero) rep_two_pow_63 hP0
        (by linarith)).2.2.1
    have hW0 : toRat (ofInt WindowDuration) ≠ 0 := by rw [toRat_window]; norm_num
    have hq := div_rounds _ _ hm1 finite_window hW0
    rw [toRat_window] at hq
    have hq0 : (0 : ℚ) ≤ toRat (mul (ofInt b.LimitPerWindow) (ofInt (now - b.UpdatedAt)))
        / 60000000000 := div_nonneg hm0 (by norm_num)
    have hq1 : toRat (mul (ofInt b.LimitPerWindow) (ofInt (now - b.UpdatedAt))) / 60000000000
        ≤ (b.LimitPerWindow : ℚ) * ((now - b.UpdatedAt : Int) : ℚ) / 60000000000
          + 1 / 58593750 := by
      rw [div_add' _ _ _ (by norm_num : (60000000000 : ℚ) ≠ 0)]
      apply div_le_div_of_nonneg_right _ (by norm_num : (0 : ℚ) ≤ 60000000000)
      linarith
    have hlS : (b.LimitPerWindow : ℚ) * ((now - b.UpdatedAt : Int) : ℚ) / 60000000000
        ≤ 153722867 := by
      rw [div_le_iff₀ (by norm_num)]; linarith
    obtain ⟨hq2, -, hq3, hq4⟩ := hq.grid (-25) (by norm_num) (by norm_num) hq0
      (by rw [two_zpow_neg_25]; linarith)
    rw [two_zpow_neg_25] at hq4
    have hleak0 := (Bucket.leak_nonneg b.LimitPerWindow (now - b.UpdatedAt) hL1 hL2 hd0
      (by constructor <;> omega)).2.1
    have hs := sub_rounds b.Count _ hCf hq2
    have e1 : b.countAt now = max0 (sub b.Count
        (div (mul (ofInt b.LimitPerWindow) (ofInt (now - b.UpdatedAt)))
          (ofInt WindowDuration))) := by
      rw [← hts]; rfl
    by_cases hpos : 0 ≤ toRat b.Count
        - toRat (div (mul (ofInt b.LimitPerWindow) (ofInt (now - b.UpdatedAt)))
            (ofInt WindowDuration))
    · obtain ⟨hs1, -, hs3, -⟩ := hs.grid (-25) (by norm_num) (by norm_num) hpos
        (by rw [two_zpow_neg_25]; linarith)
      rw [two_zpow_neg_25] at hs3
      obtain ⟨-, hM2, -⟩ := max0_val _ hs1
      rw [e1, hM2]
      refine le_trans ?_ (le_max_right _ _)
      linarith
    · push_neg at hpos
      linarith

/-! ### The rate bound -/

/-- One call keeps the bound covered: a rejected call leaves the registry as it is, and
an admitted call of amount `a` covers `B + a - 2^-23`. -/
theorem Counter.add_rateInv (oor : F64 → Int) (p : Counter) (key : String) (L τ now a : Int)
    (B : ℚ) (hL1 : 1 ≤ L) (hL2 : L ≤ 9223371976) (hτ : τ ≤ now) (ha : AmountInRange a)
    (hinv : p.RateInv key L τ B) :
    ∃ info q, Counter.Add oor p now key L a = some (info, q) ∧
      q.RateInv key L now (B + (if info.Allowed then (a : ℚ) - 1 / 8388608 else 0)) := by
  have hL0 : L ≠ 0 := by omega
  have hLpos : (0 : ℚ) ≤ (L : ℚ) := by exact_mod_cast (by omega : 0 ≤ L)
  have hτ' : (τ : ℚ) ≤ (now : ℚ) := by exact_mod_cast hτ
  have hmonoτ : (L : ℚ) * (τ : ℚ) / 60000000000 ≤ (L : ℚ) * (now : ℚ) / 60000000000 :=
    div_le_div_of_nonneg_right (mul_le_mul_of_nonneg_left hτ' hLpos) (by norm_num)
  have hex : p.buckets key = none ∨ (p.lookup key).LimitPerWindow ≠ 0 := by
    rcases hinv with ⟨hn, -⟩ | ⟨b, hb, hbL, -, -⟩
    · exact Or.inl hn
    · right; rw [Counter.lookup_of_some p key b hb, hbL]; exact hL0
  rcases Counter.add_cases oor p now key L a with ⟨h0, -⟩ | ⟨-, -, e⟩ | ⟨-, hadm, e⟩
  · exact absurd h0 hL0
  · obtain ⟨r, hr⟩ := Counter.willReach_lookup_isSome oor p key (wrap64 (Size L - a)) now hex
    rw [hr] at e
    refine ⟨_, p, e, ?_⟩
    simp only [Option.map_some', Bool.false_eq_true, if_false, add_zero]
    rcases hinv with ⟨hn, hB⟩ | ⟨b, hb, hbL, hg, hB⟩
    · exact Or.inl ⟨hn, le_trans hB hmonoτ⟩
    · exact Or.inr ⟨b, hb, hbL, hg.mono _ _ _ hτ, hB⟩
  · obtain ⟨r, hr⟩ := Bucket.willReach_isSome oor ((p.lookup key).Plus now L a)
      (wrap64 (Size L - 1)) now hL0
    rw [hr] at e
    refine ⟨_, p.store key ((p.lookup key).Plus now L a), e, ?_⟩
    simp only [Option.map_some', if_true]
    -- the fill of the existing bucket at `now`
    have hfill : Finite ((p.lookup key).countAt now) ∧
        toRat ((p.lookup key).countAt now) ≤ 153722867 ∧
        B - (L : ℚ) * (now : ℚ) / 60000000000 - 3 / 33554432
          ≤ toRat ((p.lookup key).countAt now) := by
      rcases hinv with ⟨hn, hB⟩ | ⟨b, hb, hbL, hg, hB⟩
      · rw [Counter.lookup_of_none p key hn, Bucket.zeroBucket_countAt]
        have hz : toRat zero = 0 := by simp [zero, toRat]
        rw [hz]
        exact ⟨trivial, by norm_num, by linarith⟩
      · rw [Counter.lookup_of_some p key b hb]
        obtain ⟨h1, -, h3⟩ := hg.countAt_bounds _ _ _ hτ
        have hlow := hg.countAt_lower _ _ _ hτ
        obtain ⟨-, -, hS3⟩ := size_pos_le _ hg.1 hg.2.1
        have hS3' : ((Size b.LimitPerWindow : Int) : ℚ) ≤ 153722867 := by exact_mod_cast hS3
        refine ⟨h1, le_trans h3 hS3', ?_⟩
        rw [hbL] at hlow
        have hsplit : (L : ℚ) * ((now - b.UpdatedAt : Int) : ℚ) / 60000000000
            = (L : ℚ) * (now : ℚ) / 60000000000 - (L : ℚ) * (b.UpdatedAt : ℚ) / 60000000000 := by
          push_cast; ring
        rw [hsplit] at hlow
        linarith
    have hgood := Bucket.good_of_admitted oor (p.lookup key) now L a hfill.1 hfill.2.1
      hL1 hL2 ha hadm
    have hcnt : ((p.lookup key).Plus now L a).Count
        = F64.add ((p.lookup key).countAt now) (ofInt a) := rfl
    have hSz : ((Size L : Int) : ℚ) ≤ 153722867 := by
      exact_mod_cast (size_pos_le L hL1 hL2).2.2
    have hcle : toRat (F64.add ((p.lookup key).countAt now) (ofInt a)) ≤ 153722867 := by
      have := hgood.2.2.2.2.2.2
      rw [hcnt] at this
      exact le_trans this hSz
    have hlow := add_amount_lower ((p.lookup key).countAt now) a hfill.1
      (Bucket.countAt_toRat_nonneg _ _) hfill.2.1 ha.1 ha.2 hcle
    refine Or.inr ⟨(p.lookup key).Plus now L a, ?_, rfl, hgood, ?_⟩
    · show (if key = key then some ((p.lookup key).Plus now L a) else p.buckets key) = _
      exact if_pos rfl
    · rw [hcnt]
      have hU : ((p.lookup key).Plus now L a).UpdatedAt = now := rfl
      rw [hU]
      linarith [hfill.2.2]

/-- The rate bound from a covered bound: the calls of a sequence at non-decreasing times
admit at most the capacity plus the leakage, up to `2^-23` per admitted call. -/
theorem Counter.addSeq_rateInv (oor : F64 → Int) (key : String) (L : Int) (hL1 : 1 ≤ L)
    (hL2 : L ≤ 9223371976) :
    ∀ (calls : List (Int × Int)) (p : Counter) (τ : Int) (B : ℚ),
      List.Chain (fun x y : Int => x ≤ y) τ (calls.map Prod.fst) →
      (∀ c ∈ calls, AmountInRange c.2) → p.RateInv key L τ B →
      ∃ infos q, Counter.addSeq oor key L p calls = some (infos, q) ∧
        B + (admittedSum infos calls : ℚ) - (admittedCount infos : ℚ) / 8388608
          ≤ ((Size L : Int) : ℚ) + (L : ℚ) * (lastTime τ calls : ℚ) / 60000000000 := by
  intro calls
  induction calls with
  | nil =>
    intro p τ B _ _ hinv
    refine ⟨[], p, rfl, ?_⟩
    simp only [admittedSum, admittedCount, lastTime, Int.cast_zero, Nat.cast_zero, zero_div,
      add_zero, sub_zero]
    have hS : (1 : ℚ) ≤ ((Size L : Int) : ℚ) := by exact_mod_cast (size_pos_le L hL1 hL2).1
    rcases hinv with ⟨-, hB⟩ | ⟨b, -, hbL, hg, hB⟩
    · linarith
    · have hLpos : (0 : ℚ) ≤ (L : ℚ) := by exact_mod_cast (by omega : 0 ≤ L)
      have hU : (b.UpdatedAt : ℚ) ≤ (τ : ℚ) := by exact_mod_cast hg.2.2.1
      have hmono : (L : ℚ) * (b.UpdatedAt : ℚ) / 60000000000 ≤ (L : ℚ) * (τ : ℚ) / 60000000000 :=
        div_le_div_of_nonneg_right (mul_le_mul_of_nonneg_left hU hLpos) (by norm_num)
      have hc := hg.2.2.2.2.2.2
      rw [hbL] at hc
      linarith
  | cons c rest ih =>
    obtain ⟨now, a⟩ := c
    intro p τ B hch hall hinv
    simp only [List.map_cons, List.chain_cons] at hch
    have ha := hall (now, a) (List.mem_cons_self _ _)
    have hrest : ∀ c ∈ rest, AmountInRange c.2 := fun c hc => hall c (List.mem_cons_of_mem _ hc)
    obtain ⟨info, q, hadd, hq⟩ := Counter.add_rateInv oor p key L τ now a B hL1 hL2 hch.1 ha hinv
    obtain ⟨infos, q', hrun, hbound⟩ := ih q now _ hch.2 hrest hq
    refine ⟨info :: infos, q', ?_, ?_⟩
    · simp only [Counter.addSeq, hadd, hrun]
    · simp only [admittedSum, admittedCount, lastTime]
      cases hA : info.Allowed
      · simp only [hA, Bool.false_eq_true, if_false, add_zero, zero_add] at hbound ⊢
        exact hbound
      · simp only [hA, if_true] at hbound ⊢
        push_cast
        linarith

/-! ### Recovery after a window for any stored limit, and numbers next to an integer -/

/-- One full window after its last write a bucket within its capacity has leaked out:
its fill is zero. -/
theorem Bucket.InCapacity.fill_window (b : Bucket) (t now : Int) (hb : b.InCapacity t)
    (hw : b.UpdatedAt + 60000000000 ≤ now) :
    Finite (b.countAt now) ∧ toRat (b.countAt now) = 0 := by
  obtain ⟨hL1, hL2, hU, hCf, hCv, hC0, hC1⟩ := hb
  have hSb := size_bounds b.LimitPerWindow
  have hS0' : (0 : ℚ) ≤ ((Size b.LimitPerWindow : Int) : ℚ) := le_trans hC0 hC1
  have hS0 : 0 ≤ Size b.LimitPerWindow := by exact_mod_cast hS0'
  have hSL : Size b.LimitPerWindow ≤ b.LimitPerWindow := by
    by_cases hr : b.LimitPerWindow ≤ 9223371976
    · exact (size_pos_le _ hL1 hr).2.1
    · omega
  have hSL' : ((Size b.LimitPerWindow : Int) : ℚ) ≤ (b.LimitPerWindow : ℚ) := by
    exact_mod_cast hSL
  have hd := timeSub_isInt64 now b.UpdatedAt
  have hd0 : 60000000000 ≤ timeSub now b.UpdatedAt := by
    unfold timeSub; split_ifs <;> omega
  have hLq : (b.LimitPerWindow : ℚ) ≤ 9223372036854775808 := by
    have : b.LimitPerWindow ≤ (9223372036854775808 : Int) := by omega
    exact_mod_cast this
  obtain ⟨hA1, -, hA3, hA4⟩ := ofInt_rounds b.LimitPerWindow
    ((Size b.LimitPerWindow : Int) : ℚ) 9223372036854775808
    (rep_abs_int _ (by omega) (by omega)) rep_two_pow_63 hSL' hLq
  have hd0' : (60000000000 : ℚ) ≤ ((timeSub now b.UpdatedAt : Int) : ℚ) := by
    exact_mod_cast hd0
  have hd1' : ((timeSub now b.UpdatedAt : Int) : ℚ) ≤ 9223372036854775808 := by
    unfold IsInt64 at hd
    have : timeSub now b.UpdatedAt ≤ (9223372036854775808 : Int) := by omega
    exact_mod_cast this
  obtain ⟨hD1, -, hD3, hD4⟩ := ofInt_rounds (timeSub now b.UpdatedAt) 60000000000
    9223372036854775808
    (rep_pos 60000000000 0 (by norm_num) (by norm_num) (by norm_num) _ (by norm_num))
    rep_two_pow_63 hd0' hd1'
  have hrepSW : Rep |((Size b.LimitPerWindow : Int) : ℚ) * 60000000000| := by
    refine rep_pos (29296875 * (Size b.LimitPerWindow).toNat) 11 (by omega) (by norm_num)
      (by norm_num) _ ?_
    have : ((Size b.LimitPerWindow : Int) : ℚ) = (((Size b.LimitPerWindow).toNat : Nat) : ℚ) := by
      have h : Size b.LimitPerWindow = (((Size b.LimitPerWindow).toNat : Nat) : Int) := by omega
      conv_lhs => rw [h]
      rfl
    rw [this]
    push_cast
    norm_num
    ring
  obtain ⟨hP1, -, hP3, hP4⟩ := mul_rounds _ _ hA1 hD1
    (((Size b.LimitPerWindow : Int) : ℚ) * 60000000000) ((2 : ℚ) ^ 126)
    hrepSW (rep_two_pow 126 (by norm_num))
    (mul_le_mul hA3 hD3 (by norm_num) (le_trans hS0' hA3))
    (by calc toRat (ofInt b.LimitPerWindow) * toRat (ofInt (timeSub now b.UpdatedAt))
            ≤ 9223372036854775808 * 9223372036854775808 :=
              mul_le_mul hA4 hD4 (by linarith) (by norm_num)
          _ = (2 : ℚ) ^ 126 := by norm_num)
  have hW0 : toRat (ofInt WindowDuration) ≠ 0 := by rw [toRat_window]; norm_num
  obtain ⟨hQ1, -, hQ3, hQ4⟩ := div_rounds _ _ hP1 finite_window hW0
    ((Size b.LimitPerWindow : Int) : ℚ) ((2 : ℚ) ^ 126)
    (rep_abs_int _ (by omega) (by omega)) (rep_two_pow 126 (by norm_num))
    (by rw [toRat_window, le_div_iff₀ (by norm_num)]; exact hP3)
    (by rw [toRat_window, div_le_iff₀ (by norm_num)]
        calc toRat (mul (ofInt b.LimitPerWindow) (ofInt (timeSub now b.UpdatedAt)))
            ≤ (2 : ℚ) ^ 126 := hP4
          _ ≤ (2 : ℚ) ^ 126 * 60000000000 := by norm_num)
  obtain ⟨hR1, -, hR3, hR4⟩ := sub_rounds _ _ hCf hQ1 (-(2 : ℚ) ^ 126) 0
    (rep_neg_two_pow 126 (by norm_num)) (by simpa using rep_zero)
    (by linarith) (by linarith)
  obtain ⟨hM1, hM2, -⟩ := max0_val _ hR1
  have e1 : b.countAt now = max0 (sub b.Count
      (div (mul (ofInt b.LimitPerWindow) (ofInt (timeSub now b.UpdatedAt)))
        (ofInt WindowDuration))) := rfl
  rw [e1]
  exact ⟨hM1, by rw [hM2]; exact max_eq_left hR4⟩

theorem F64.rep_int_le_two_pow_53 (z : Int) (h0 : 0 ≤ z) (h1 : z ≤ 9007199254740992) :
    Rep |(z : ℚ)| := by
  rcases lt_or_eq_of_le h1 with h | h
  · exact rep_abs_int z (by omega) h
  · rw [h]
    have := rep_two_pow 53 (by norm_num)
    have e : ((2 : ℚ) ^ 53) = ((9007199254740992 : Int) : ℚ) := by norm_num
    rwa [e] at this

/-- The value just above the integer `z` on the grid of the binade of `2^p`, for
`0 ≤ z < 2^p` and `p ≤ 52`, is a binary64 number. -/
theorem F64.rep_int_succ_grid (z : Int) (p : Nat) (hp : p ≤ 52) (h0 : 0 ≤ z)
    (h1 : z + 1 ≤ 2 ^ p) : Rep |(z : ℚ) + 1 / (2 : ℚ) ^ (52 - p)| := by
  have hq : (0 : ℚ) < (2 : ℚ) ^ (52 - p) := by positivity
  have hm : ((z.toNat + 1 : Nat) : Int) ≤ ((2 ^ p : Nat) : Int) := by
    push_cast
    rw [Int.toNat_of_nonneg h0]
    exact h1
  have hm' : z.toNat + 1 ≤ 2 ^ p := by exact_mod_cast hm
  have hpq : 2 ^ p * 2 ^ (52 - p) = (4503599627370496 : Nat) := by
    rw [← pow_add, Nat.add_sub_cancel' hp]
    norm_num
  have hk : z.toNat * 2 ^ (52 - p) + 1 < 9007199254740992 := by
    have h2 : (z.toNat + 1) * 2 ^ (52 - p) ≤ 2 ^ p * 2 ^ (52 - p) :=
      Nat.mul_le_mul_right _ hm'
    have h3 : 1 ≤ 2 ^ (52 - p) := Nat.one_le_two_pow
    rw [hpq, Nat.add_mul, one_mul] at h2
    omega
  refine rep_pos (z.toNat * 2 ^ (52 - p) + 1) (-((52 - p : Nat) : Int)) hk (by omega) (by omega)
    _ ?_
  have hz : (z : ℚ) = ((z.toNat : Nat) : ℚ) := by
    have h : z = ((z.toNat : Nat) : Int) := by omega
    conv_lhs => rw [h]
    rfl
  rw [hz, zpow_neg, zpow_natCast]
  push_cast
  field_simp

/-! ## Properties of `Counter.Add` -/

/-- On the registry whose bucket for `"k"` has a zero stored limit and the count 5, a
bucket that `Add` never writes, the call `Add("k", 60, 1)` has
`newBucket.CountAt(now) = 6 > Size(60) = 1` and returns no `Info`: the rejected branch
divides by the stored limit in `WillReach` and panics. -/
theorem Counter.add_zero_stored_limit_panics :
    Size 60 < ((zeroLimitRegistry.lookup "k").Plus t0 60 1).CountAt oorAmd64 t0 ∧
      Counter.Add oorAmd64 zeroLimitRegistry t0 "k" 60 1 = none :=
  ⟨by decide, by rfl⟩

/-- The decision of `Add` on a registry in which the key is absent or its bucket has a
non-zero stored limit: for `L ≠ 0`, `Add` returns an `Info`, with `allowed = false`
exactly when `newBucket.CountAt(now) > Size(L)` for `newBucket = existing.Plus(now, L, a)`,
and `allowed = true` in every other case. -/
theorem Counter.add_decision (oor : F64 → Int) (p : Counter) (now : Int) (key : String)
    (L a : Int) (hL : L ≠ 0)
    (hreg : p.buckets key = none ∨ (p.lookup key).LimitPerWindow ≠ 0) :
    ∃ info p', Counter.Add oor p now key L a = some (info, p') ∧
      (info.Allowed = false ↔ Size L < ((p.lookup key).Plus now L a).CountAt oor now) ∧
      (info.Allowed = true ↔ ¬ Size L < ((p.lookup key).Plus now L a).CountAt oor now) := by
  unfold Counter.Add
  simp only [hL, if_false]
  by_cases hc : Size L < ((p.lookup key).Plus now L a).CountAt oor now
  · obtain ⟨r, hr⟩ := Counter.willReach_lookup_isSome oor p key (wrap64 (Size L - a)) now hreg
    simp only [gt_iff_lt, hc, if_true, hr]
    exact ⟨_, _, rfl, by simp, by simp⟩
  · obtain ⟨r, hr⟩ := Bucket.willReach_isSome oor ((p.lookup key).Plus now L a)
      (wrap64 (Size L - 1)) now hL
    simp only [gt_iff_lt, hc, if_false, hr]
    exact ⟨_, _, rfl, by simp, by simp⟩

/-- C1: for every registry reachable from `NewCounter()` by `Add` calls (whatever their
limits and amounts), and every key, limit `L ≠ 0`, amount and time, `Add` returns an
`Info`, with `allowed = false` exactly when `newBucket.CountAt(now) > Size(L)` for
`newBucket = existing.Plus(now, L, a)`, where `existing` is the registry's bucket for the
key (the zero-value bucket when the key is absent), and `allowed = true` in every other
case. -/
theorem add_rejects_iff (oor : F64 → Int) (p : Counter) (t : Int)
    (hreach : ReachableBy oor (fun _ => True) (fun _ => True) p t) (now : Int)
    (key : String) (L a : Int) (hL : L ≠ 0) :
    ∃ info p', Counter.Add oor p now key L a = some (info, p') ∧
      (info.Allowed = false ↔ Size L < ((p.lookup key).Plus now L a).CountAt oor now) ∧
      (info.Allowed = true ↔ ¬ Size L < ((p.lookup key).Plus now L a).CountAt oor now) ∧
      (p.buckets key = none → p.lookup key = zeroBucket) ∧
      (∀ b, p.buckets key = some b → p.lookup key = b) := by
  have hreg : p.buckets key = none ∨ (p.lookup key).LimitPerWindow ≠ 0 := by
    cases hb : p.buckets key with
    | none => exact Or.inl rfl
    | some b =>
      right
      rw [Counter.lookup_of_some p key b hb]
      exact ReachableBy.limit_ne_zero oor _ _ p t hreach key b hb
  obtain ⟨info, p', h1, h2, h3⟩ := Counter.add_decision oor p now key L a hL hreg
  exact ⟨info, p', h1, h2, h3, Counter.lookup_of_none p key,
    fun b hb => Counter.lookup_of_some p key b hb⟩

/-- Witness for `add_rejects_iff`: the registry after one admitted call, and a second
call at the same instant. -/
theorem add_rejects_iff_witness :
    ReachableBy oorAmd64 (fun _ => True) (fun _ => True) (afterFirst 60 1) t0 ∧
      ∃ info p', Counter.Add oorAmd64 (afterFirst 60 1) t0 "k" 60 1 = some (info, p') ∧
        (info.Allowed = false ↔
          Size 60 < (((afterFirst 60 1).lookup "k").Plus t0 60 1).CountAt oorAmd64 t0) ∧
        (info.Allowed = true ↔
          ¬ Size 60 < (((afterFirst 60 1).lookup "k").Plus t0 60 1).CountAt oorAmd64 t0) ∧
        ((afterFirst 60 1).buckets "k" = none → (afterFirst 60 1).lookup "k" = zeroBucket) ∧
        (∀ b, (afterFirst 60 1).buckets "k" = some b → (afterFirst 60 1).lookup "k" = b) :=
  ⟨afterFirst_reachable oorAmd64 _ _ trivial trivial,
   add_rejects_iff oorAmd64 (afterFirst 60 1) t0
     (afterFirst_reachable oorAmd64 _ _ trivial trivial) t0 "k" 60 1 (by decide)⟩

/-- C2: whenever `Add` returns `allowed = false`, the registry after the call is the
registry before the call. -/
theorem add_rejected_registry_unchanged (oor : F64 → Int) (p : Counter) (now : Int)
    (key : String) (L a : Int) (info : Info) (p' : Counter)
    (h : Counter.Add oor p now key L a = some (info, p')) (hrej : info.Allowed = false) :
    p' = p := by
  rcases Counter.add_cases oor p now key L a with ⟨-, e⟩ | ⟨-, -, e⟩ | ⟨-, -, e⟩
  · rw [e] at h
    simp only [Option.some.injEq, Prod.mk.injEq] at h
    exact h.2.symm
  · rw [e] at h
    simp only [Option.map_eq_some', Prod.mk.injEq] at h
    obtain ⟨r, -, -, hp⟩ := h
    exact hp.symm
  · rw [e] at h
    simp only [Option.map_eq_some', Prod.mk.injEq] at h
    obtain ⟨r, -, hi, -⟩ := h
    rw [← hi] at hrej
    exact Bool.noConfusion hrej

/-- Witness for `add_rejected_registry_unchanged`: the second of two immediate
one-token calls under limit 60 is rejected and leaves the registry as it was. -/
theorem add_rejected_registry_unchanged_witness :
    Counter.Add oorAmd64 (afterFirst 60 1) t0 "k" 60 1 =
        some ({ Bucket := "k", ResetAt := t0 + 1000000000, BucketSize := 1, Remaining := 0,
                Allowed := false }, afterFirst 60 1) ∧
      afterFirst 60 1 = afterFirst 60 1 :=
  ⟨by rfl,
   add_rejected_registry_unchanged oorAmd64 (afterFirst 60 1) t0 "k" 60 1
    { Bucket := "k", ResetAt := t0 + 1000000000, BucketSize := 1, Remaining := 0,
      Allowed := false }
    (afterFirst 60 1) (by rfl) (by rfl)⟩

/-- C3: whenever `Add(key, L, a)` with `L ≠ 0` is admitted at `now`, the registry
afterwards maps `key` to `existing.Plus(now, L, a)`, and the `Info` has `bucket = key`,
`bucketSize = Size(L)`, `remaining = Size(L) - newBucket.CountAt(now)` (Go's `int64`
subtraction, which is the exact difference whenever the count is an exact conversion),
`resetAt = newBucket.WillReach(Size(L) - 1, now)` and `allowed = true`. -/
theorem add_admitted_result (oor : F64 → Int) (p : Counter) (now : Int)
    (key : String) (L a : Int) (info : Info) (p' : Counter) (hL : L ≠ 0)
    (h : Counter.Add oor p now key L a = some (info, p')) (hadm : info.Allowed = true) :
    p'.buckets key = some ((p.lookup key).Plus now L a) ∧
      info.Bucket = key ∧
      info.BucketSize = Size L ∧
      info.Remaining = wrap64 (Size L - ((p.lookup key).Plus now L a).CountAt oor now) ∧
      (F64.ExactInt64 (F64.ceil (((p.lookup key).Plus now L a).countAt now)) →
        info.Remaining = Size L - ((p.lookup key).Plus now L a).CountAt oor now) ∧
      ((p.lookup key).Plus now L a).WillReach oor (Size L - 1) now = some info.ResetAt ∧
      info.Allowed = true := by
  obtain ⟨hS1, hS2⟩ := size_bounds L
  have hw : wrap64 (Size L - 1) = Size L - 1 :=
    wrap64_eq_self _ (by unfold IsInt64; omega)
  rcases Counter.add_cases oor p now key L a with ⟨h0, -⟩ | ⟨-, -, e⟩ | ⟨-, hc, e⟩
  · exact absurd h0 hL
  · rw [e] at h
    simp only [Option.map_eq_some', Prod.mk.injEq] at h
    obtain ⟨r, -, hi, -⟩ := h
    rw [← hi] at hadm
    exact Bool.noConfusion hadm
  · rw [e, hw] at h
    simp only [Option.map_eq_some', Prod.mk.injEq] at h
    obtain ⟨r, hr, hi, hp⟩ := h
    subst hi; subst hp
    refine ⟨?_, rfl, rfl, rfl, fun hex => ?_, hr, rfl⟩
    · simp [Counter.store]
    · have h0 := Bucket.countAt_int_nonneg oor _ now hex
      exact wrap64_eq_self _ (by unfold IsInt64; omega)

/-- Witness for `add_admitted_result`: the first one-token call under limit 60. -/
theorem add_admitted_result_witness :
    Counter.Add oorAmd64 NewCounter t0 "k" 60 1 =
        some ({ Bucket := "k", ResetAt := t0 + 1000000000, BucketSize := 1, Remaining := 0,
                Allowed := true }, afterFirst 60 1) ∧
      ((afterFirst 60 1).buckets "k" = some ((NewCounter.lookup "k").Plus t0 60 1) ∧
        "k" = "k" ∧
        (1 : Int) = Size 60 ∧
        (0 : Int) =
          wrap64 (Size 60 - ((NewCounter.lookup "k").Plus t0 60 1).CountAt oorAmd64 t0) ∧
        (F64.ExactInt64 (F64.ceil (((NewCounter.lookup "k").Plus t0 60 1).countAt t0)) →
          (0 : Int) = Size 60 - ((NewCounter.lookup "k").Plus t0 60 1).CountAt oorAmd64 t0) ∧
        ((NewCounter.lookup "k").Plus t0 60 1).WillReach oorAmd64 (Size 60 - 1) t0
          = some (t0 + 1000000000) ∧
        true = true) :=
  ⟨by rfl,
   add_admitted_result oorAmd64 NewCounter t0 "k" 60 1
    { Bucket := "k", ResetAt := t0 + 1000000000, BucketSize := 1, Remaining := 0,
      Allowed := true }
    (afterFirst 60 1) (by decide) (by rfl) (by rfl)⟩

/-- C4: for every key, amount `N`, registry and time, `Add(key, 0, N)` returns an `Info`
with `bucket = key`, `allowed = true`, `bucketSize = 0` and `remaining = 0` (and
`resetAt = now`), and leaves the registry unchanged. -/
theorem add_zero_limit (oor : F64 → Int) (p : Counter) (now : Int) (key : String) (N : Int) :
    Counter.Add oor p now key 0 N =
      some ({ Bucket := key, ResetAt := now, BucketSize := 0, Remaining := 0, Allowed := true },
        p) := by
  unfold Counter.Add
  simp


/-- C5 (as stated, refuted): the registry holds for `"k"` the bucket that
`Add("k", 60, 2^63-1)` at `t0` writes on amd64 (count `2^63`); 61500 seconds later the
one-token call `Add("k", 9223372037, 1)`, whose capacity `Size(9223372037)` has
overflowed to `-153722866`, is rejected and reports `remaining = 9223372036701114382`,
the wrapped `int64` difference, which is not below the amount 1. -/
theorem add_rejected_remaining_counterexample :
    Counter.Add oorAmd64 (afterFirst 60 9223372036854775807) (t0 + 61500000000000) "k"
        9223372037 1 =
      some ({ Bucket := "k", ResetAt := t0 + 61500000000000, BucketSize := -153722866,
              Remaining := 9223372036701114382, Allowed := false },
        afterFirst 60 9223372036854775807) ∧
      ¬ ((9223372036701114382 : Int) < 1) :=
  ⟨by rfl, by decide⟩

/-- C5 (amended): whenever `Add(key, L, a)` with `a ≥ 1` is rejected, the capacity
`Size(L)` is not negative and the reported count of the pre-call bucket is an exact
conversion (the fill is finite and below `2^63`), the `remaining` it reports is strictly
less than `a`; in particular such a rejected one-token call reports `remaining = 0`. -/
theorem add_rejected_remaining (oor : F64 → Int) (p : Counter) (now : Int) (key : String)
    (L a : Int) (info : Info) (p' : Counter)
    (h : Counter.Add oor p now key L a = some (info, p')) (hrej : info.Allowed = false)
    (ha : 1 ≤ a) (hL : IsInt64 L) (hS : 0 ≤ Size L)
    (hex : ExactInt64 (ceil ((p.lookup key).countAt now))) :
    info.Remaining < a ∧ (a = 1 → info.Remaining = 0) := by
  have hlt : info.Remaining < a ∧ 0 ≤ info.Remaining := by
    rcases Counter.add_cases oor p now key L a with ⟨-, e⟩ | ⟨-, hc, e⟩ | ⟨-, -, e⟩
    · rw [e] at h
      simp only [Option.some.injEq, Prod.mk.injEq] at h
      rw [← h.1] at hrej
      exact Bool.noConfusion hrej
    · rw [e] at h
      simp only [Option.map_eq_some', Prod.mk.injEq] at h
      obtain ⟨r, -, hi, -⟩ := h
      rw [← hi]
      obtain ⟨hf, hE, hEr⟩ := toInt64_ceil_exact oor _ (Bucket.countAt_valid _ _) hex
      have hE' : (p.lookup key).CountAt oor now = ⌈toRat ((p.lookup key).countAt now)⌉ := hE
      have hE0 : 0 ≤ ⌈toRat ((p.lookup key).countAt now)⌉ :=
        Int.ceil_nonneg (Bucket.countAt_toRat_nonneg _ _)
      obtain ⟨-, hS2⟩ := size_bounds L
      unfold IsInt64 at hEr
      show max 0 (wrap64 (Size L - (p.lookup key).CountAt oor now)) < a ∧
        0 ≤ max 0 (wrap64 (Size L - (p.lookup key).CountAt oor now))
      rw [hE', wrap64_eq_self _ (by unfold IsInt64; omega)]
      refine ⟨?_, le_max_left _ _⟩
      apply max_lt (by omega)
      by_cases hES : Size L ≤ ⌈toRat ((p.lookup key).countAt now)⌉
      · omega
      · by_cases hbig : Size L < a
        · omega
        · have := Bucket.countAt_plus_le oor (p.lookup key) now L a hL hf ha (by omega)
          omega
    · rw [e] at h
      simp only [Option.map_eq_some', Prod.mk.injEq] at h
      obtain ⟨r, -, hi, -⟩ := h
      rw [← hi] at hrej
      exact Bool.noConfusion hrej
  exact ⟨hlt.1, fun h1 => by omega⟩

/-- Witness for `add_rejected_remaining`: the second of two immediate one-token calls
under limit 60. -/
theorem add_rejected_remaining_witness :
    Counter.Add oorAmd64 (afterFirst 60 1) t0 "k" 60 1 =
        some ({ Bucket := "k", ResetAt := t0 + 1000000000, BucketSize := 1, Remaining := 0,
                Allowed := false }, afterFirst 60 1) ∧
      ((0 : Int) < 1 ∧ ((1 : Int) = 1 → (0 : Int) = 0)) :=
  ⟨by rfl,
   add_rejected_remaining oorAmd64 (afterFirst 60 1) t0 "k" 60 1
    { Bucket := "k", ResetAt := t0 + 1000000000, BucketSize := 1, Remaining := 0,
      Allowed := false }
    (afterFirst 60 1) (by rfl) rfl (by decide) (by decide) (by decide) (by decide)⟩

/-- C6: for distinct keys `k ≠ k2`, a call `Add(k, L1, a1)` changes neither the bucket
stored for `k2` nor the outcome (the `Info`, or the panic) of a following
`Add(k2, L2, a2)` at any given time. -/
theorem add_independent_keys (oor : F64 → Int) (p : Counter) (now1 : Int) (k k2 : String)
    (L1 a1 : Int) (info1 : Info) (p1 : Counter) (hk : k ≠ k2)
    (h : Counter.Add oor p now1 k L1 a1 = some (info1, p1)) :
    p1.buckets k2 = p.buckets k2 ∧
      ∀ (now2 L2 a2 : Int),
        (Counter.Add oor p1 now2 k2 L2 a2).map Prod.fst
          = (Counter.Add oor p now2 k2 L2 a2).map Prod.fst := by
  have hp : p1 = p ∨ ∃ b, p1 = p.store k b := by
    rcases Counter.add_cases oor p now1 k L1 a1 with ⟨-, e⟩ | ⟨-, -, e⟩ | ⟨-, -, e⟩
    · rw [e] at h
      simp only [Option.some.injEq, Prod.mk.injEq] at h
      exact Or.inl h.2.symm
    · rw [e] at h
      simp only [Option.map_eq_some', Prod.mk.injEq] at h
      obtain ⟨r, -, -, hp⟩ := h
      exact Or.inl hp.symm
    · rw [e] at h
      simp only [Option.map_eq_some', Prod.mk.injEq] at h
      obtain ⟨r, -, -, hp⟩ := h
      exact Or.inr ⟨_, hp.symm⟩
  rcases hp with hp | ⟨b, hp⟩
  · subst hp
    exact ⟨rfl, fun _ _ _ => rfl⟩
  · subst hp
    refine ⟨by simp [Counter.store, Ne.symm hk], fun now2 L2 a2 => ?_⟩
    exact Counter.add_info_congr oor _ _ now2 k2 L2 a2
      (Counter.lookup_store_ne p k k2 b (Ne.symm hk))

/-- Witness for `add_independent_keys`: an admitted call on `"k"` and the key `"j"`. -/
theorem add_independent_keys_witness :
    (afterFirst 60 1).buckets "j" = NewCounter.buckets "j" ∧
      ∀ (now2 L2 a2 : Int),
        (Counter.Add oorAmd64 (afterFirst 60 1) now2 "j" L2 a2).map Prod.fst
          = (Counter.Add oorAmd64 NewCounter now2 "j" L2 a2).map Prod.fst :=
  add_independent_keys oorAmd64 NewCounter t0 "k" "j" 60 1
    { Bucket := "k", ResetAt := t0 + 1000000000, BucketSize := 1, Remaining := 0,
      Allowed := true }
    (afterFirst 60 1) (by decide) (by rfl)

/-- C7 (as stated, refuted): with the out-of-range conversion of amd64, the call
`Add("k", 60, 2^63-1)` on the empty registry is admitted and reports the negative
`remaining = -9223372036854775807`. -/
theorem add_remaining_nonneg_counterexample :
    Counter.Add oorAmd64 NewCounter t0 "k" 60 9223372036854775807 =
      some ({ Bucket := "k", ResetAt := t0, BucketSize := 1,
              Remaining := -9223372036854775807, Allowed := true },
        afterFirst 60 9223372036854775807) ∧
      (-9223372036854775807 : Int) < 0 :=
  ⟨by rfl, by decide⟩

/-- C7 (amended): the `remaining` field of the `Info` returned by `Add` is never
negative, in the unlimited, the rejected and the admitted branch alike, whenever the
count of the hypothetical new bucket converts to `int64` exactly (it is finite and below
`2^63`). -/
theorem add_remaining_nonneg (oor : F64 → Int) (p : Counter) (now : Int) (key : String)
    (L a : Int) (info : Info) (p' : Counter)
    (h : Counter.Add oor p now key L a = some (info, p'))
    (hex : F64.ExactInt64 (F64.ceil (((p.lookup key).Plus now L a).countAt now))) :
    0 ≤ info.Remaining := by
  rcases Counter.add_cases oor p now key L a with ⟨-, e⟩ | ⟨-, -, e⟩ | ⟨-, hc, e⟩
  · rw [e] at h
    simp only [Option.some.injEq, Prod.mk.injEq] at h
    rw [← h.1]
  · rw [e] at h
    simp only [Option.map_eq_some', Prod.mk.injEq] at h
    obtain ⟨r, -, hi, -⟩ := h
    rw [← hi]
    exact le_max_left _ _
  · rw [e] at h
    simp only [Option.map_eq_some', Prod.mk.injEq] at h
    obtain ⟨r, -, hi, -⟩ := h
    rw [← hi]
    have h0 := Bucket.countAt_int_nonneg oor _ now hex
    have hS := wrap64_isInt64
      (Int.tdiv (wrap64 (wrap64 (wrap64 (L * BurstTolerance) + WindowDuration) - 1))
        WindowDuration)
    have hS' : IsInt64 (Size L) := hS
    show 0 ≤ wrap64 (Size L - ((p.lookup key).Plus now L a).CountAt oor now)
    rw [wrap64_eq_self]
    · omega
    · unfold IsInt64 at hS' ⊢
      omega

/-- Witness for `add_remaining_nonneg`: the first one-token call under limit 60, whose
new count 1 is an exact conversion. -/
theorem add_remaining_nonneg_witness :
    Counter.Add oorAmd64 NewCounter t0 "k" 60 1 =
        some ({ Bucket := "k", ResetAt := t0 + 1000000000, BucketSize := 1, Remaining := 0,
                Allowed := true }, afterFirst 60 1) ∧
      F64.ExactInt64 (F64.ceil (((NewCounter.lookup "k").Plus t0 60 1).countAt t0)) ∧
      (0 : Int) ≤ 0 :=
  ⟨by rfl, by decide,
   add_remaining_nonneg oorAmd64 NewCounter t0 "k" 60 1
    { Bucket := "k", ResetAt := t0 + 1000000000, BucketSize := 1, Remaining := 0,
      Allowed := true }
    (afterFirst 60 1) (by rfl) (by decide)⟩

/-- C8 (the code at the failing input): under limit 7 (capacity 1), after an admitted
one-token call at `t0`, the same call at `t0` is rejected and reports
`resetAt = t0 + 8571428571`; the same call made at that instant, with no call in
between, is rejected again. -/
theorem add_at_resetAt_rejected (oor : F64 → Int) :
    Counter.Add oor NewCounter t0 "k" 7 1 =
        some ({ Bucket := "k", ResetAt := t0 + 8571428571, BucketSize := 1, Remaining := 0,
                Allowed := true }, afterFirst 7 1) ∧
      Counter.Add oor (afterFirst 7 1) t0 "k" 7 1 =
        some ({ Bucket := "k", ResetAt := t0 + 8571428571, BucketSize := 1, Remaining := 0,
                Allowed := false }, afterFirst 7 1) ∧
      Counter.Add oor (afterFirst 7 1) (t0 + 8571428571) "k" 7 1 =
        some ({ Bucket := "k", ResetAt := t0 + 8571428571, BucketSize := 1, Remaining := 0,
                Allowed := false }, afterFirst 7 1) :=
  ⟨by rfl, by rfl, by rfl⟩

/-- C9: with limit 60 (capacity 1) and a fresh key, a first `Add(key, 60, 1)` at `t0` is
admitted with `remaining = 0`, and a second `Add(key, 60, 1)` at any `t1` with
`t0 ≤ t1 < t0 + 1 second` is rejected with `remaining = 0` and a `resetAt` strictly
after `t1` (it leaves the registry as the first call left it). -/
theorem add_exhaustion (oor : F64 → Int) (p : Counter) (key : String) (t0 t1 : Int)
    (hfresh : p.buckets key = none) (h01 : t0 ≤ t1) (h1 : t1 < t0 + 1000000000) :
    ∃ info1 p1 info2,
      Counter.Add oor p t0 key 60 1 = some (info1, p1) ∧
      info1.Allowed = true ∧ info1.BucketSize = 1 ∧ info1.Remaining = 0 ∧
      Counter.Add oor p1 t1 key 60 1 = some (info2, p1) ∧
      info2.Allowed = false ∧ info2.Remaining = 0 ∧ t1 < info2.ResetAt := by
  have hS : Size 60 = 1 := by decide
  have hlook : p.lookup key = zeroBucket := Counter.lookup_of_none p key hfresh
  have hplus : (p.lookup key).Plus t0 60 1
      = { UpdatedAt := t0, LimitPerWindow := 60, Count := one } := by
    rw [hlook]; exact Bucket.plus_zeroBucket_one t0
  have hc1 : Bucket.CountAt oor { UpdatedAt := t0, LimitPerWindow := 60, Count := one } t0 = 1 := by
    have e : Bucket.countAt { UpdatedAt := t0, LimitPerWindow := 60, Count := one } t0 =
        max0 (sub one (div (mul (ofInt 60) (ofInt (timeSub t0 t0))) (ofInt WindowDuration))) := rfl
    rw [timeSub_self] at e
    unfold Bucket.CountAt
    rw [e]
    rfl
  have hw0 : wrap64 (1 - 1) = 0 := by decide
  -- the first call
  have hfirst : Counter.Add oor p t0 key 60 1 =
      some ({ Bucket := key, ResetAt := t0 + 1000000000, BucketSize := 1, Remaining := 0,
              Allowed := true },
        p.store key { UpdatedAt := t0, LimitPerWindow := 60, Count := one }) := by
    rcases Counter.add_cases oor p t0 key 60 1 with ⟨h0, -⟩ | ⟨-, hc, -⟩ | ⟨-, -, e⟩
    · exact absurd h0 (by norm_num)
    · rw [hplus, hc1, hS] at hc
      exact absurd hc (by norm_num)
    · rw [e, hplus, hc1, hS, hw0, Bucket.willReach_one oor t0 t0 (by omega)]
      rfl
  -- the second call
  obtain ⟨hf, hv, hlo, hhi⟩ := Bucket.countAt_one_bounds t0 t1 h01 h1
  have hceil : ⌈toRat (Bucket.countAt { UpdatedAt := t0, LimitPerWindow := 60, Count := one } t1)⌉
      = 1 := by
    rw [Int.ceil_eq_iff]
    constructor
    · push_cast; linarith
    · push_cast; linarith
  have hc2 : Bucket.CountAt oor { UpdatedAt := t0, LimitPerWindow := 60, Count := one } t1 = 1 := by
    unfold Bucket.CountAt
    rw [toInt64_ceil oor _ hf hv (by rw [hceil]; unfold IsInt64; omega), hceil]
  have hnew := Bucket.countAt_plus_one oor
    { UpdatedAt := t0, LimitPerWindow := 60, Count := one } t1 hf hlo hhi
  have hsecond : Counter.Add oor
      (p.store key { UpdatedAt := t0, LimitPerWindow := 60, Count := one }) t1 key 60 1 =
      some ({ Bucket := key, ResetAt := t0 + 1000000000, BucketSize := 1, Remaining := 0,
              Allowed := false },
        p.store key { UpdatedAt := t0, LimitPerWindow := 60, Count := one }) := by
    rcases Counter.add_cases oor
      (p.store key { UpdatedAt := t0, LimitPerWindow := 60, Count := one }) t1 key 60 1
      with ⟨h0, -⟩ | ⟨-, -, e⟩ | ⟨-, hc, -⟩
    · exact absurd h0 (by norm_num)
    · rw [e, Counter.lookup_store_self, hc2, hS, hw0,
        Bucket.willReach_one oor t0 t1 (by omega)]
      rfl
    · rw [Counter.lookup_store_self, hnew, hS] at hc
      exact absurd (by norm_num : (1 : Int) < 2) hc
  exact ⟨_, _, _, hfirst, rfl, rfl, rfl, hsecond, rfl, rfl, h1⟩

/-- Witness for `add_exhaustion`: the empty registry and a second call 5ns after the
first. -/
theorem add_exhaustion_witness :
    ∃ info1 p1 info2,
      Counter.Add oorAmd64 NewCounter t0 "k" 60 1 = some (info1, p1) ∧
      info1.Allowed = true ∧ info1.BucketSize = 1 ∧ info1.Remaining = 0 ∧
      Counter.Add oorAmd64 p1 (t0 + 5) "k" 60 1 = some (info2, p1) ∧
      info2.Allowed = false ∧ info2.Remaining = 0 ∧ t0 + 5 < info2.ResetAt :=
  add_exhaustion oorAmd64 NewCounter "k" t0 (t0 + 5) rfl (by decide) (by decide)

/-- C10 (as stated, refuted): the registry after the admitted call `Add("k", 60, 1)` at
`t0` is reachable with limits and amounts `≥ 0`, its bucket for `"k"` was written at
`t0`, and the one-token call `Add("k", 9223372037, 1)` a full window later is rejected:
the capacity `Size(9223372037)` has overflowed `int64` to `-153722866`. -/
theorem add_recovery_counterexample :
    ReachableBy oorAmd64 (fun L => 0 ≤ L ∧ IsInt64 L) (fun a => 0 ≤ a ∧ IsInt64 a)
        (afterFirst 60 1) t0 ∧
      (afterFirst 60 1).buckets "k" = some { UpdatedAt := t0, LimitPerWindow := 60, Count := F64.one } ∧
      Counter.Add oorAmd64 (afterFirst 60 1) (t0 + 60000000000) "k" 9223372037 1 =
        some ({ Bucket := "k", ResetAt := t0 + 60000000000, BucketSize := -153722866,
                Remaining := 0, Allowed := false }, afterFirst 60 1) :=
  ⟨afterFirst_reachable oorAmd64 _ _ (by decide) (by decide), by rfl, by rfl⟩

/-- C10 (amended): in every registry reachable from `NewCounter()` by `Add` calls with
non-negative `int64` limits and amounts `0 .. 2^62` at non-decreasing times, for every
key, a one-token call `Add(key, L, 1)` with `L ≥ 1` whose capacity `Size L` is at least 1
(as it is for every `L` from 1 to 9223371976), made at least one full window after that
key's bucket was last written, is admitted. -/
theorem add_recovery (oor : F64 → Int) (p : Counter) (t : Int)
    (hreach : ReachableBy oor LimitNonneg AmountInRange p t) (key : String) (L now : Int)
    (hL1 : 1 ≤ L) (hL2 : L ≤ 9223372036854775807) (hS1 : 1 ≤ Size L)
    (hw : ∀ b, p.buckets key = some b → b.UpdatedAt + 60000000000 ≤ now) :
    (∃ info p', Counter.Add oor p now key L 1 = some (info, p') ∧ info.Allowed = true) ∧
      ∀ L' : Int, 1 ≤ L' → L' ≤ 9223371976 → 1 ≤ Size L' := by
  refine ⟨?_, fun L' h1 h2 => (size_pos_le L' h1 h2).1⟩
  have hc : Finite ((p.lookup key).countAt now) ∧ toRat ((p.lookup key).countAt now) = 0 := by
    cases hlk : p.buckets key with
    | none =>
      rw [Counter.lookup_of_none p key hlk, Bucket.zeroBucket_countAt]
      exact ⟨trivial, by simp [zero, toRat]⟩
    | some b0 =>
      have : p.lookup key = b0 := by simp [Counter.lookup, hlk]
      rw [this]
      exact (ReachableBy.inCapacity oor p t hreach key b0 hlk).fill_window _ _ _ (hw b0 hlk)
  obtain ⟨hf, hz⟩ := hc
  obtain ⟨hI1, -, hI3⟩ := ofInt_exact 1 (by norm_num) (by norm_num)
  obtain ⟨hN1, hN2, hN3⟩ := (add_rounds _ _ hf hI1).exact (by
    rw [hz, hI3]
    exact rep_pos 1 0 (by norm_num) (by norm_num) (by norm_num) _ (by norm_num))
  rw [hz, hI3] at hN3
  have hL : IsInt64 L := by unfold IsInt64; omega
  obtain ⟨hC1, hC3⟩ := Bucket.countAt_self now L _ hL hN1 hN2 (by rw [hN3]; norm_num)
  have hplus : (p.lookup key).Plus now L 1 =
      { UpdatedAt := now, LimitPerWindow := L,
        Count := add ((p.lookup key).countAt now) (ofInt 1) } := rfl
  have hceil : ⌈toRat (((p.lookup key).Plus now L 1).countAt now)⌉ = 1 := by
    rw [hplus, hC3, hN3]
    norm_num
  have hcount : ((p.lookup key).Plus now L 1).CountAt oor now = 1 := by
    unfold Bucket.CountAt
    rw [toInt64_ceil oor _ (by rw [hplus]; exact hC1) (Bucket.countAt_valid _ _)
      (by rw [hceil]; unfold IsInt64; omega), hceil]
  rcases Counter.add_cases oor p now key L 1 with ⟨h0, -⟩ | ⟨-, hlt, -⟩ | ⟨-, -, e⟩
  · omega
  · rw [hcount] at hlt
    omega
  · obtain ⟨r, hr⟩ := Bucket.willReach_isSome oor ((p.lookup key).Plus now L 1)
      (wrap64 (Size L - 1)) now (by show L ≠ 0; omega)
    rw [e, hr]
    exact ⟨_, _, rfl, rfl⟩

/-- Witness for `add_recovery`: one minute after the admitted call `Add("k", 60, 1)`. -/
theorem add_recovery_witness :
    ∃ info p', Counter.Add oorAmd64 (afterFirst 60 1) (t0 + 60000000000) "k" 60 1
        = some (info, p') ∧ info.Allowed = true :=
  (add_recovery oorAmd64 (afterFirst 60 1) t0
    (afterFirst_reachable oorAmd64 _ _ ⟨by decide, by decide⟩ ⟨by decide, by decide⟩)
    "k" 60 (t0 + 60000000000) (by decide) (by decide) (by decide)
    (afterFirst_window 60 1)).1

/-- With the out-of-range conversion of amd64 the amount `2^63-1` is admitted under
limit 60 and leaves a count of `2^63`; 61500 seconds later a one-token call under limit
60 is still rejected. -/
theorem add_recovery_amd64_amount :
    Counter.Add oorAmd64 NewCounter t0 "k" 60 9223372036854775807 =
        some ({ Bucket := "k", ResetAt := t0, BucketSize := 1,
                Remaining := -9223372036854775807, Allowed := true },
          afterFirst 60 9223372036854775807) ∧
      Counter.Add oorAmd64 (afterFirst 60 9223372036854775807) (t0 + 61500000000000) "k" 60 1 =
        some ({ Bucket := "k", ResetAt := t0 + 61500000000000, BucketSize := 1,
                Remaining := 0, Allowed := false },
          afterFirst 60 9223372036854775807) :=
  ⟨by rfl, by rfl⟩

/-! ## Properties of `Size`, `countAt`, `Plus`, `WillReach` and sequences of calls -/

/-- C11 (as stated, refuted): with the amd64 conversion, on a fresh key under limit 60
(capacity 1) the single call of amount `2^63 - 1` is admitted, with a negative
`remaining`, although `0 + (2^63 - 1) ≤ Size 60` is false; the admission rule of the
claim rejects it. -/
theorem add_same_instant_counterexample :
    (1 : Int) ≤ 60 ∧ (0 : Int) ≤ 9223372036854775807 ∧ Size 60 = 1 ∧
      (Counter.addAll oorAmd64 t0 "k" 60 NewCounter [9223372036854775807]).map
          (fun r => r.1.map Info.observed) = some [some (-9223372036854775807)] ∧
      admissionRule (Size 60) 0 [9223372036854775807] = [none] :=
  ⟨by decide, by decide, by decide, by rfl, by decide⟩

/-- C11 (amended): for a sequence of `Add` calls on one fresh key at one instant under one
limit `L ≥ 1` (an `int64`) with amounts from `0` to `2^62`, no call panics, call `i` is
admitted exactly when the sum of the amounts admitted before it plus its amount is at most
`Size L`, and an admitted call reports `remaining = Size L` minus the sum admitted
including it; hence of `N` one-token calls exactly the first `min N (Size L)` are
admitted. -/
theorem add_same_instant (oor : F64 → Int) (p : Counter) (now : Int) (key : String) (L : Int)
    (amounts : List Int) (hfresh : p.buckets key = none) (hL : IsInt64 L) (hL1 : 1 ≤ L)
    (hamounts : ∀ a ∈ amounts, 0 ≤ a ∧ a ≤ 4611686018427387904) :
    (∃ infos q, Counter.addAll oor now key L p amounts = some (infos, q) ∧
      infos.map Info.observed = admissionRule (Size L) 0 amounts) ∧
    ∀ N : Nat, ∃ infos q, Counter.addAll oor now key L p (List.replicate N 1) = some (infos, q) ∧
      infos.map (fun info => info.Allowed) =
        List.replicate (min N (Size L).toNat) true ++
          List.replicate (N - min N (Size L).toNat) false := by
  have hinv : p.HoldsAt key now L 0 := ⟨le_refl _, by norm_num, Or.inl ⟨hfresh, rfl⟩⟩
  refine ⟨Counter.addAll_holdsAt oor now key L hL (by omega) amounts p 0 hamounts hinv, ?_⟩
  intro N
  obtain ⟨infos, q, hrun, hobs⟩ := Counter.addAll_holdsAt oor now key L hL (by omega)
    (List.replicate N 1) p 0
    (fun a ha => by rw [List.eq_of_mem_replicate ha]; exact ⟨by norm_num, by norm_num⟩) hinv
  refine ⟨infos, q, hrun, ?_⟩
  have h1 := admissionRule_ones (Size L) N 0
  rw [← hobs, List.map_map, sub_zero] at h1
  rw [← h1]
  apply List.map_congr_left
  intro info _
  exact (Info.observed_isSome info).symm

theorem add_same_instant_witness :
    NewCounter.buckets "k" = none ∧ IsInt64 120 ∧ (1 : Int) ≤ 120 ∧
      (∀ a ∈ [1, 0, 1, 1, 5, 0], (0 : Int) ≤ a ∧ a ≤ 4611686018427387904) ∧
      ((∃ infos q, Counter.addAll oorAmd64 t0 "k" 120 NewCounter [1, 0, 1, 1, 5, 0] =
          some (infos, q) ∧
        infos.map Info.observed = admissionRule (Size 120) 0 [1, 0, 1, 1, 5, 0]) ∧
      ∀ N : Nat, ∃ infos q,
        Counter.addAll oorAmd64 t0 "k" 120 NewCounter (List.replicate N 1) = some (infos, q) ∧
        infos.map (fun info => info.Allowed) =
          List.replicate (min N (Size 120).toNat) true ++
            List.replicate (N - min N (Size 120).toNat) false) :=
  ⟨rfl, by decide, by decide, by decide,
   add_same_instant oorAmd64 NewCounter t0 "k" 120 [1, 0, 1, 1, 5, 0] rfl (by decide)
     (by decide) (by decide)⟩

/-- C12 (as stated, refuted): `Size 0 = 0`, which is below 1 although `0 ≥ 0`; and for
the limit 9223372037 the multiplication by 10^9 overflows `int64` and the capacity is
negative. -/
theorem size_ge_one_counterexample :
    (0 : Int) ≤ 0 ∧ Size 0 = 0 ∧ ¬ (1 ≤ Size 0) ∧
      (0 : Int) ≤ 9223372037 ∧ Size 9223372037 = -153722866 ∧ ¬ (1 ≤ Size 9223372037) :=
  ⟨by decide, by decide, by decide, by decide, by decide, by decide⟩

/-- C12 (amended): for every limit from 1 to 9223371976 (the limits for which
`limit * 10^9 + 60 * 10^9` fits `int64`), `Size` is at least 1. -/
theorem size_ge_one (L : Int) (h1 : 1 ≤ L) (h2 : L ≤ 9223371976) : 1 ≤ Size L :=
  (size_pos_le L h1 h2).1

theorem size_ge_one_witness : (1 : Int) ≤ 60 ∧ (60 : Int) ≤ 9223371976 ∧ 1 ≤ Size 60 :=
  ⟨by decide, by decide, size_ge_one 60 (by decide) (by decide)⟩

/-- C13: for a limit `L ≥ 1` with `L * 10^9 + 60 * 10^9` an `int64`, `Size L` is the exact
ceiling of `L / 60`; and `Size 1 = 1`, `Size 60 = 1`, `Size 120 = 2`, `Size 3600 = 60`. -/
theorem size_eq_ceil (L : Int) (h1 : 1 ≤ L)
    (h2 : IsInt64 (L * 1000000000 + 60 * 1000000000)) :
    Size L = ⌈(L : ℚ) / 60⌉ ∧ Size 1 = 1 ∧ Size 60 = 1 ∧ Size 120 = 2 ∧ Size 3600 = 60 := by
  refine ⟨?_, by decide, by decide, by decide, by decide⟩
  have h3 : L ≤ 9223371976 := by
    have := h2.2
    omega
  rw [size_in_range L (by omega) h3]
  symm
  rw [Int.ceil_eq_iff]
  have ha : 60000000000 * ((L * 1000000000 + 59999999999) / 60000000000)
      ≤ L * 1000000000 + 59999999999 := Int.mul_ediv_self_le (by norm_num)
  have hb : L * 1000000000 + 59999999999
      < 60000000000 * ((L * 1000000000 + 59999999999) / 60000000000) + 60000000000 :=
    Int.lt_mul_ediv_self_add (by norm_num)
  generalize (L * 1000000000 + 59999999999) / 60000000000 = z at ha hb
  have hz1 : 60 * z - 60 < L := by omega
  have hz2 : L ≤ 60 * z := by omega
  have hz1' : (60 : ℚ) * z - 60 < L := by exact_mod_cast hz1
  have hz2' : (L : ℚ) ≤ 60 * z := by exact_mod_cast hz2
  constructor
  · rw [lt_div_iff₀ (by norm_num)]; linarith
  · rw [div_le_iff₀ (by norm_num)]; linarith

theorem size_eq_ceil_witness :
    (1 : Int) ≤ 61 ∧ IsInt64 (61 * 1000000000 + 60 * 1000000000) ∧
      (Size 61 = ⌈((61 : Int) : ℚ) / 60⌉ ∧ Size 1 = 1 ∧ Size 60 = 1 ∧ Size 120 = 2 ∧
        Size 3600 = 60) :=
  ⟨by decide, by decide, size_eq_ceil 61 (by decide) (by decide)⟩

/-- C14 (as stated, refuted): the bucket with `UpdatedAt = t0`, `LimitPerWindow = -60`
and `Count = 0`, which the admitted call `Add("k", -60, 0)` stores, has fill `0` at `t0`
and fill `1` one second later, and `1 <= 0` is false. -/
theorem countAt_antitone_counterexample :
    t0 ≤ t0 + 1000000000 ∧
      Bucket.countAt { UpdatedAt := t0, LimitPerWindow := -60, Count := zero } t0 = zero ∧
      Bucket.countAt { UpdatedAt := t0, LimitPerWindow := -60, Count := zero }
        (t0 + 1000000000) = one ∧
      F64.le one zero = false ∧
      ((Counter.Add oorAmd64 NewCounter t0 "k" (-60) 0).map
          (fun r => (r.1.Allowed, r.2.buckets "k")) =
        some (true, some { UpdatedAt := t0, LimitPerWindow := -60, Count := zero })) :=
  ⟨by decide, by rfl, by rfl, by rfl, by rfl⟩

/-- C14 (amended): for every bucket whose `LimitPerWindow` is a non-negative `int64` and
whose `Count` is not NaN, and every `t1 ≤ t2`, the decayed fill at `t2` is `<=` the
decayed fill at `t1` (the `float64` comparison). -/
theorem countAt_antitone (b : Bucket) (t1 t2 : Int) (hL : IsInt64 b.LimitPerWindow)
    (hL0 : 0 ≤ b.LimitPerWindow) (hC : b.Count ≠ nan) (h : t1 ≤ t2) :
    F64.le (b.countAt t2) (b.countAt t1) = true := by
  have hd1 := timeSub_isInt64 t1 b.UpdatedAt
  have hd2 := timeSub_isInt64 t2 b.UpdatedAt
  have hq1 := (Bucket.leak_finite b.LimitPerWindow _ hL hd1).2
  have hq2 := (Bucket.leak_finite b.LimitPerWindow _ hL hd2).2
  have hmono := Bucket.leak_mono b.LimitPerWindow _ _ hL hL0 hd1 hd2
    (timeSub_mono t1 t2 b.UpdatedAt h)
  have e : ∀ t, b.countAt t = max0 (sub b.Count
      (div (mul (ofInt b.LimitPerWindow) (ofInt (timeSub t b.UpdatedAt)))
        (ofInt WindowDuration))) := fun _ => rfl
  rw [e t1, e t2]
  apply max0_mono
  cases hc : b.Count with
  | nan => exact absurd hc hC
  | inf s =>
    cases hx : div (mul (ofInt b.LimitPerWindow) (ofInt (timeSub t1 b.UpdatedAt)))
        (ofInt WindowDuration) with
    | nan => rw [hx] at hq1; exact False.elim hq1
    | inf u => rw [hx] at hq1; exact False.elim hq1
    | fin u a c =>
      cases hy : div (mul (ofInt b.LimitPerWindow) (ofInt (timeSub t2 b.UpdatedAt)))
          (ofInt WindowDuration) with
      | nan => rw [hy] at hq2; exact False.elim hq2
      | inf u => rw [hy] at hq2; exact False.elim hq2
      | fin u2 a2 c2 => cases s <;> rfl
  | fin s m e =>
    exact (sub_isRnd (fin s m e) _ trivial hq2).le (sub_isRnd (fin s m e) _ trivial hq1)
      (by linarith)

theorem countAt_antitone_witness :
    IsInt64 60 ∧ (0 : Int) ≤ 60 ∧ one ≠ nan ∧ t0 ≤ t0 + 500000000 ∧
      F64.le (Bucket.countAt { UpdatedAt := t0, LimitPerWindow := 60, Count := one }
          (t0 + 500000000))
        (Bucket.countAt { UpdatedAt := t0, LimitPerWindow := 60, Count := one } t0) = true :=
  ⟨by decide, by decide, by decide, by decide,
   countAt_antitone { UpdatedAt := t0, LimitPerWindow := 60, Count := one } t0
     (t0 + 500000000) (by decide) (by decide) (by decide) (by decide)⟩

/-- C15 (as stated, refuted): with the amd64 conversion, the bucket left by the admitted
call `Add("k", 60, 2^63 - 1)` at `t0` holds the fill `2^63`, and `CountAt` at `t0`
reports `-2^63`, which is negative. -/
theorem countAt_ceiling_counterexample :
    Bucket.countAt (zeroBucket.Plus t0 60 9223372036854775807) t0 =
        fin false 4503599627370496 11 ∧
      Bucket.CountAt oorAmd64 (zeroBucket.Plus t0 60 9223372036854775807) t0 =
        -9223372036854775808 ∧
      ¬ (0 ≤ Bucket.CountAt oorAmd64 (zeroBucket.Plus t0 60 9223372036854775807) t0) :=
  ⟨by rfl, by rfl, by decide⟩

/-- C15 (amended): when the ceiling of the decayed fill `b.countAt t`, which is
`max(0, Count - L * (t - UpdatedAt) / 1 minute)` in `float64`, is finite with an `int64`
value, `b.CountAt t` is the ceiling of that fill, is never negative, and is `0` only when
the fill is exactly `0`; the fill `10.1` (the `float64` nearest to `101/10`) reports
`11`. -/
theorem countAt_ceiling (oor : F64 → Int) (b : Bucket) (t : Int)
    (hex : ExactInt64 (ceil (b.countAt t))) :
    b.countAt t =
        max0 (sub b.Count
          (div (mul (ofInt b.LimitPerWindow) (ofInt (timeSub t b.UpdatedAt)))
            (ofInt WindowDuration))) ∧
      b.CountAt oor t = ⌈toRat (b.countAt t)⌉ ∧ 0 ≤ b.CountAt oor t ∧
      (b.CountAt oor t = 0 ↔ toRat (b.countAt t) = 0) ∧
      div (ofInt 101) (ofInt 10) = fin false 5685794529555251 (-49) ∧
      Bucket.CountAt oor { UpdatedAt := t0, LimitPerWindow := 60,
                           Count := fin false 5685794529555251 (-49) } t0 = 11 := by
  obtain ⟨_, hc, _⟩ := toInt64_ceil_exact oor (b.countAt t) (Bucket.countAt_valid b t) hex
  have hC : b.CountAt oor t = ⌈toRat (b.countAt t)⌉ := hc
  have hnn := Bucket.countAt_toRat_nonneg b t
  refine ⟨rfl, hC, ?_, ?_, by rfl, by rfl⟩
  · rw [hC]; exact Int.ceil_nonneg hnn
  · rw [hC, Int.ceil_eq_zero_iff]
    constructor
    · intro h
      exact le_antisymm h.2 hnn
    · intro h
      rw [h]
      exact ⟨by norm_num, le_refl _⟩

theorem countAt_ceiling_witness :
    ExactInt64 (ceil (Bucket.countAt { UpdatedAt := t0, LimitPerWindow := 60, Count := one }
        (t0 + 500000000))) ∧
      Bucket.CountAt oorAmd64 { UpdatedAt := t0, LimitPerWindow := 60, Count := one }
        (t0 + 500000000) = 1 ∧
      0 ≤ Bucket.CountAt oorAmd64 { UpdatedAt := t0, LimitPerWindow := 60, Count := one }
        (t0 + 500000000) :=
  ⟨by decide, by rfl,
   (countAt_ceiling oorAmd64 { UpdatedAt := t0, LimitPerWindow := 60, Count := one }
     (t0 + 500000000) (by decide)).2.2.1⟩

/-- C16: `b.Plus now newLimit add` has `UpdatedAt = now`, `LimitPerWindow = newLimit` and
`Count = b.countAt now + add`, where the decay in `b.countAt now` is computed with the
limit stored in `b`; the resulting `Count` does not depend on `newLimit`. -/
theorem plus_fields (b : Bucket) (now newLimit add : Int) :
    (b.Plus now newLimit add).UpdatedAt = now ∧
      (b.Plus now newLimit add).LimitPerWindow = newLimit ∧
      (b.Plus now newLimit add).Count = F64.add (b.countAt now) (ofInt add) ∧
      b.countAt now =
        max0 (sub b.Count
          (div (mul (ofInt b.LimitPerWindow) (ofInt (timeSub now b.UpdatedAt)))
            (ofInt WindowDuration))) ∧
      ∀ otherLimit : Int, (b.Plus now otherLimit add).Count = (b.Plus now newLimit add).Count :=
  ⟨rfl, rfl, rfl, rfl, fun _ => rfl⟩

/-- C17: `WillReach count now` returns exactly `now` when `count` is negative, and when
the stored `Count` (a well-formed `float64` that is minus infinity or finite) is at most
`count`, equality included, whether `count` is taken exactly or as `float64(count)`;
`count` is an `int64`. -/
theorem willReach_returns_now (oor : F64 → Int) (b : Bucket) (count now : Int)
    (hc : IsInt64 count) (hv : Valid b.Count)
    (h : count < 0 ∨ b.Count = inf true ∨
      (Finite b.Count ∧ (toRat b.Count ≤ (count : ℚ) ∨ toRat b.Count ≤ toRat (ofInt count)))) :
    b.WillReach oor count now = some now := by
  simp only [Bucket.WillReach]
  by_cases h1 : count < 0
  · rw [if_pos h1]
  · rw [if_neg h1]
    have hle : le0 (sub b.Count (ofInt count)) = true := by
      obtain ⟨hF, hV, _, hhi⟩ := ofInt_int64 count hc
      rcases h with h | h | ⟨hf, hle⟩
      · exact absurd h h1
      · rw [h]
        cases hx : ofInt count with
        | nan => rw [hx] at hF; exact False.elim hF
        | inf s => rw [hx] at hF; exact False.elim hF
        | fin s m e => rfl
      · have hlow : toRat b.Count ≤ toRat (ofInt count) := by
          rcases hle with hle | hle
          · exact ((ofInt_rounds count) (toRat b.Count) 9223372036854775808
              (rep_of_valid _ hf hv) rep_two_pow_63 hle
              (by have : (count : ℚ) ≤ ((9223372036854775807 : Int) : ℚ) := by
                    exact_mod_cast hc.2
                  push_cast at this; linarith)).2.2.1
          · exact hle
        cases hx : b.Count with
        | nan => rw [hx] at hf; exact False.elim hf
        | inf s => rw [hx] at hf; exact False.elim hf
        | fin s m e =>
          cases hy : ofInt count with
          | nan => rw [hy] at hF; exact False.elim hF
          | inf s => rw [hy] at hF; exact False.elim hF
          | fin t k f =>
            rw [hx, hy] at hlow
            show le0 (F64.add (fin s m e) (neg (fin t k f))) = true
            have hn : neg (fin t k f) = fin (!t) k f := rfl
            rw [hn]
            apply le0_add_of_nonpos
            have : toRat (fin (!t) k f) = - toRat (fin t k f) := by
              rw [← hn]; exact toRat_neg _
            rw [this]; linarith
    rw [if_pos hle]

theorem willReach_returns_now_witness :
    IsInt64 1 ∧ Valid one ∧
      ((1 : Int) < 0 ∨ one = inf true ∨
        (Finite one ∧ (toRat one ≤ ((1 : Int) : ℚ) ∨ toRat one ≤ toRat (ofInt 1)))) ∧
      Bucket.WillReach oorAmd64 { UpdatedAt := t0, LimitPerWindow := 60, Count := one } 1
        (t0 + 5) = some (t0 + 5) :=
  ⟨by decide, by decide, Or.inr (Or.inr ⟨trivial, Or.inl (by rw [toRat_one]; norm_num)⟩),
   willReach_returns_now oorAmd64 { UpdatedAt := t0, LimitPerWindow := 60, Count := one } 1
     (t0 + 5) (by decide) (by decide)
     (Or.inr (Or.inr ⟨trivial, Or.inl (by rw [toRat_one]; norm_num)⟩))⟩

/-- C18 (the code at the failing input): for the bucket with `UpdatedAt = t0`,
`LimitPerWindow = 7` and `Count = 1`, `WillReach 0 t0` is `t0 + 8571428571`, and the
decayed fill at that instant is `7737125885706240 * 2^(-87)`, which is greater than the
requested count 0 (`CountAt` there is 1). -/
theorem willReach_fill_above_count (oor : F64 → Int) :
    (0 : Int) < 7 ∧ (0 : Int) ≤ 0 ∧ t0 ≤ t0 ∧
      Bucket.WillReach oor { UpdatedAt := t0, LimitPerWindow := 7, Count := one } 0 t0 =
        some (t0 + 8571428571) ∧
      Bucket.countAt { UpdatedAt := t0, LimitPerWindow := 7, Count := one } (t0 + 8571428571) =
        fin false 7737125885706240 (-87) ∧
      ((0 : Int) : ℚ) < toRat (fin false 7737125885706240 (-87)) ∧
      Bucket.CountAt oor { UpdatedAt := t0, LimitPerWindow := 7, Count := one }
        (t0 + 8571428571) = 1 := by
  refine ⟨by decide, by decide, le_refl _, by rfl, by rfl, ?_, by rfl⟩
  rw [toRat_fin]
  have : sgnQ false = 1 := rfl
  rw [this]
  positivity

/-- C19: the `resetAt` reported by `Add` is never before `now`, in the unlimited, the
admitted and the rejected branch alike. -/
theorem add_resetAt_ge_now (oor : F64 → Int) (p : Counter) (now : Int) (key : String)
    (L a : Int) (info : Info) (p' : Counter)
    (h : Counter.Add oor p now key L a = some (info, p')) : now ≤ info.ResetAt := by
  rcases Counter.add_cases oor p now key L a with ⟨_, h0⟩ | ⟨_, _, h0⟩ | ⟨_, _, h0⟩
  · rw [h0] at h
    simp only [Option.some.injEq, Prod.mk.injEq] at h
    rw [← h.1]
  · rw [h0, Option.map_eq_some'] at h
    obtain ⟨r, hr, he⟩ := h
    simp only [Prod.mk.injEq] at he
    rw [← he.1]
    exact Bucket.willReach_ge oor _ _ now r hr
  · rw [h0, Option.map_eq_some'] at h
    obtain ⟨r, hr, he⟩ := h
    simp only [Prod.mk.injEq] at he
    rw [← he.1]
    exact Bucket.willReach_ge oor _ _ now r hr

theorem add_resetAt_ge_now_witness :
    Counter.Add oorAmd64 (afterFirst 60 1) t0 "k" 60 1 =
        some ({ Bucket := "k", ResetAt := t0 + 1000000000, BucketSize := 1, Remaining := 0,
                Allowed := false }, afterFirst 60 1) ∧
      t0 ≤ (Info.mk "k" (t0 + 1000000000) 1 0 false).ResetAt :=
  ⟨by rfl, add_resetAt_ge_now oorAmd64 (afterFirst 60 1) t0 "k" 60 1
    (Info.mk "k" (t0 + 1000000000) 1 0 false) (afterFirst 60 1) (by rfl)⟩

/-! ## Properties of `Plus`, the rate bound and the registry invariants -/

/-- C21 (as stated, refuted): `float64` addition rounds. For the bucket with
`UpdatedAt = t0`, limit 60 and `Count = 1`, half a second later the fill is `0.5` and
`CountAt` is 1, but after `Plus` of `2^53` tokens `CountAt` is `2^53`, not `2^53 + 1`;
and for a bucket whose fill is the least positive `float64`, `CountAt` is 1 before and
after `Plus` of one token. -/
theorem plus_countAt_counterexample :
    (0 : Int) ≤ 9007199254740992 ∧
      Bucket.CountAt oorAmd64 { UpdatedAt := t0, LimitPerWindow := 60, Count := one }
        (t0 + 500000000) = 1 ∧
      Bucket.CountAt oorAmd64
        (Bucket.Plus { UpdatedAt := t0, LimitPerWindow := 60, Count := one }
          (t0 + 500000000) 60 9007199254740992) (t0 + 500000000) = 9007199254740992 ∧
      Bucket.CountAt oorAmd64
        { UpdatedAt := t0, LimitPerWindow := 60, Count := fin false 1 (-1074) } t0 = 1 ∧
      Bucket.CountAt oorAmd64
        (Bucket.Plus { UpdatedAt := t0, LimitPerWindow := 60, Count := fin false 1 (-1074) }
          t0 60 1) t0 = 1 :=
  ⟨by decide, by rfl, by rfl, by rfl, by rfl⟩

/-- C21 (amended): for every bucket `b`, time `now`, `int64` limit `L` and amount
`a ≥ 0`, when the decayed fill of `b` at `now` is finite and `⌈fill⌉ + a ≤ 2^53`,
`(b.Plus now L a).CountAt now = b.CountAt now + a` holds exactly when the `float64` sum
`fill + a` stored by `Plus` is still above `⌈fill⌉ + a - 1`, that is, when the addition
has not rounded the fractional part of the fill away; this is so whenever
`⌈fill⌉ + a ≤ 2^p` for some `p ≤ 52` and the fill exceeds the integer `⌈fill⌉ - 1` below
it by at least `2^(p - 52)`, in particular for every fill that is an integer. -/
theorem plus_countAt (oor : F64 → Int) (b : Bucket) (now L a : Int) (hL : IsInt64 L)
    (ha0 : 0 ≤ a) (hf : Finite (b.countAt now))
    (hn : ⌈toRat (b.countAt now)⌉ + a ≤ 9007199254740992) :
    ((b.Plus now L a).CountAt oor now = b.CountAt oor now + a ↔
        ((⌈toRat (b.countAt now)⌉ + a - 1 : Int) : ℚ) < toRat (b.Plus now L a).Count) ∧
      (∀ p : Nat, p ≤ 52 → ⌈toRat (b.countAt now)⌉ + a ≤ 2 ^ p →
        1 / (2 : ℚ) ^ (52 - p) ≤ toRat (b.countAt now) - ((⌈toRat (b.countAt now)⌉ : ℚ) - 1) →
        (b.Plus now L a).CountAt oor now = b.CountAt oor now + a) ∧
      (toRat (b.countAt now) = (⌈toRat (b.countAt now)⌉ : ℚ) →
        (b.Plus now L a).CountAt oor now = b.CountAt oor now + a) := by
  have hnn := Bucket.countAt_toRat_nonneg b now
  have hv := Bucket.countAt_valid b now
  have hc0 : 0 ≤ ⌈toRat (b.countAt now)⌉ := Int.ceil_nonneg hnn
  have hfc : toRat (b.countAt now) ≤ (⌈toRat (b.countAt now)⌉ : ℚ) := Int.le_ceil _
  have ha0' : (0 : ℚ) ≤ (a : ℚ) := by exact_mod_cast ha0
  obtain ⟨hfa, -, hta⟩ := (ofInt_rounds a).exact (rep_int_le_two_pow_53 a ha0 (by omega))
  have hr := add_rounds (b.countAt now) (ofInt a) hf hfa
  rw [hta] at hr
  have hrepn := rep_int_le_two_pow_53 (⌈toRat (b.countAt now)⌉ + a) (by omega) hn
  obtain ⟨hfN, hvN, hN0, hN1⟩ := hr 0 ((⌈toRat (b.countAt now)⌉ + a : Int) : ℚ)
    (by simpa using rep_zero) hrepn (by linarith) (by push_cast; linarith)
  obtain ⟨hfc2, htc⟩ := Bucket.countAt_self now L _ hL hfN hvN hN0
  have hcnt : (b.Plus now L a).Count = F64.add (b.countAt now) (ofInt a) := rfl
  have hold : b.CountAt oor now = ⌈toRat (b.countAt now)⌉ :=
    toInt64_ceil oor _ hf hv (by constructor <;> omega)
  have hceil0 : 0 ≤ ⌈toRat (F64.add (b.countAt now) (ofInt a))⌉ := Int.ceil_nonneg hN0
  have hceil1 : ⌈toRat (F64.add (b.countAt now) (ofInt a))⌉ ≤ ⌈toRat (b.countAt now)⌉ + a :=
    Int.ceil_le.2 hN1
  have hnew : (b.Plus now L a).CountAt oor now
      = ⌈toRat (F64.add (b.countAt now) (ofInt a))⌉ := by
    show toInt64 oor (ceil (Bucket.countAt
      (Bucket.mk now L (F64.add (b.countAt now) (ofInt a))) now)) = _
    rw [toInt64_ceil oor _ hfc2 (Bucket.countAt_valid _ _)
      (by rw [htc]; constructor <;> omega), htc]
  have hiff : (b.Plus now L a).CountAt oor now = b.CountAt oor now + a ↔
      ((⌈toRat (b.countAt now)⌉ + a - 1 : Int) : ℚ) < toRat (b.Plus now L a).Count := by
    rw [hnew, hold, hcnt, Int.ceil_eq_iff]
    constructor
    · intro h
      have := h.1
      push_cast at this ⊢
      linarith
    · intro h
      refine ⟨?_, hN1⟩
      push_cast at h ⊢
      linarith
  have hgrid : ∀ p : Nat, p ≤ 52 → ⌈toRat (b.countAt now)⌉ + a ≤ 2 ^ p →
      1 / (2 : ℚ) ^ (52 - p) ≤ toRat (b.countAt now) - ((⌈toRat (b.countAt now)⌉ : ℚ) - 1) →
      (b.Plus now L a).CountAt oor now = b.CountAt oor now + a := by
    intro p hp hnp hδ
    rw [hiff, hcnt]
    by_cases hn0 : ⌈toRat (b.countAt now)⌉ + a ≤ 0
    · have : ((⌈toRat (b.countAt now)⌉ + a - 1 : Int) : ℚ) < 0 := by
        have : ⌈toRat (b.countAt now)⌉ + a - 1 < 0 := by omega
        exact_mod_cast this
      linarith
    · have hrepg := rep_int_succ_grid (⌈toRat (b.countAt now)⌉ + a - 1) p hp (by omega)
        (by omega)
      have hq : (0 : ℚ) < 1 / (2 : ℚ) ^ (52 - p) := by positivity
      obtain ⟨-, -, hlo, -⟩ := hr _ ((⌈toRat (b.countAt now)⌉ + a : Int) : ℚ) hrepg hrepn
        (by push_cast; linarith) (by push_cast; linarith)
      linarith
  refine ⟨hiff, hgrid, ?_⟩
  intro hint
  rw [hiff, hcnt]
  obtain ⟨-, -, hlo, -⟩ := hr ((⌈toRat (b.countAt now)⌉ + a : Int) : ℚ)
    ((⌈toRat (b.countAt now)⌉ + a : Int) : ℚ) hrepn hrepn
    (by push_cast; linarith) (by push_cast; linarith)
  push_cast at hlo ⊢
  linarith

/-- Witness for `plus_countAt`: the bucket with limit 120 and `Count = 1`, one nanosecond
after its write, has the fractional fill `9007199236726593 * 2^-53`; adding one token
takes `CountAt` from 1 to 2. -/
theorem plus_countAt_witness :
    IsInt64 120 ∧ (0 : Int) ≤ 1 ∧
      Bucket.countAt { UpdatedAt := t0, LimitPerWindow := 120, Count := one } (t0 + 1)
        = fin false 9007199236726593 (-53) ∧
      Bucket.CountAt oorAmd64
        (Bucket.Plus { UpdatedAt := t0, LimitPerWindow := 120, Count := one } (t0 + 1) 120 1)
        (t0 + 1)
        = Bucket.CountAt oorAmd64 { UpdatedAt := t0, LimitPerWindow := 120, Count := one }
            (t0 + 1) + 1 := by
  have e : Bucket.countAt { UpdatedAt := t0, LimitPerWindow := 120, Count := one } (t0 + 1)
      = fin false 9007199236726593 (-53) := by rfl
  have hx : toRat (fin false 9007199236726593 (-53))
      = 9007199236726593 / 9007199254740992 := by
    rw [toRat_fin]
    have h1 : sgnQ false = 1 := rfl
    have h2 : (2 : ℚ) ^ (-53 : Int) = 1 / 9007199254740992 := by
      rw [zpow_neg]; norm_num
    rw [h1, h2]
    norm_num
  have hc : ⌈(9007199236726593 / 9007199254740992 : ℚ)⌉ = 1 := by
    rw [Int.ceil_eq_iff]; norm_num
  exact ⟨by decide, by decide, e,
    (plus_countAt oorAmd64 { UpdatedAt := t0, LimitPerWindow := 120, Count := one }
      (t0 + 1) 120 1 (by decide) (by decide) (by decide)
      (by rw [e, hx, hc]; norm_num)).2.1 1 (by norm_num)
      (by rw [e, hx, hc]; norm_num)
      (by rw [e, hx, hc]; norm_num)⟩

/-- C22 (as stated, refuted): under limit 8571428571 (capacity 142857143), whatever the
conversion, a call of 142857143 tokens at `t0` and a call of one token 7 nanoseconds
later are both admitted on a fresh key (the fill `142857142.00000000005` rounds to
`142857142`), so 142857144 tokens are admitted, above
`142857143 + 8571428571 * 7 / (6 * 10^10)`. With the amd64 conversion, under limit 60 the
single call of `2^63 - 1` tokens is admitted; and under limit 9223372037 the capacity
overflows to a negative number, below the sum 0 of a rejected call of 0 tokens. -/
theorem add_rate_bound_counterexample :
    (∀ oor : F64 → Int,
      (Counter.addSeq oor "k" 8571428571 NewCounter [(t0, 142857143), (t0 + 7, 1)]).map
        (fun r => (r.1.map (fun info => info.Allowed),
          admittedSum r.1 [(t0, 142857143), (t0 + 7, 1)])) =
        some ([true, true], 142857144)) ∧
      lastTime t0 [(t0 + 7, 1)] - t0 = 7 ∧
      ¬ ((142857144 : ℚ) ≤
        ((Size 8571428571 : Int) : ℚ) + (8571428571 : ℚ) * (7 : ℚ) / 60000000000) ∧
      (Counter.addSeq oorAmd64 "k" 60 NewCounter [(t0, 9223372036854775807)]).map
        (fun r => admittedSum r.1 [(t0, 9223372036854775807)]) =
        some 9223372036854775807 ∧
      ¬ ((9223372036854775807 : ℚ) ≤ ((Size 60 : Int) : ℚ) + (60 : ℚ) * (0 : ℚ) / 60000000000) ∧
      (Counter.addSeq oorAmd64 "k" 9223372037 NewCounter [(t0, 0)]).map
        (fun r => admittedSum r.1 [(t0, 0)]) = some 0 ∧
      ¬ ((0 : ℚ) ≤ ((Size 9223372037 : Int) : ℚ) + (9223372037 : ℚ) * (0 : ℚ) / 60000000000) := by
  have h1 : Size 8571428571 = 142857143 := by decide
  have h2 : Size 60 = 1 := by decide
  have h3 : Size 9223372037 = -153722866 := by decide
  refine ⟨fun oor => by rfl, by decide, ?_, by rfl, ?_, by rfl, ?_⟩
  · rw [h1]; norm_num
  · rw [h2]; norm_num
  · rw [h3]; norm_num

/-- C22 (amended): for every sequence of `Add` calls on one key, starting from a fresh
key, with a fixed limit `L` from 1 to 9223371976, amounts from `0` to `2^62` and
non-decreasing call times `t_1 ≤ ... ≤ t_n`, no call panics and the sum of the amounts of
the admitted calls is at most `Size L + L * (t_n - t_1) / 1 minute + m / 2^23`, where `m`
is the number of admitted calls (the allowance for `float64` rounding). -/
theorem add_rate_bound (oor : F64 → Int) (p : Counter) (key : String) (L t1 a1 : Int)
    (rest : List (Int × Int)) (hfresh : p.buckets key = none) (hL1 : 1 ≤ L)
    (hL2 : L ≤ 9223371976)
    (htimes : List.Chain (fun x y : Int => x ≤ y) t1 (rest.map Prod.fst))
    (hamounts : ∀ c ∈ (t1, a1) :: rest, 0 ≤ c.2 ∧ c.2 ≤ 4611686018427387904) :
    ∃ infos q, Counter.addSeq oor key L p ((t1, a1) :: rest) = some (infos, q) ∧
      (admittedSum infos ((t1, a1) :: rest) : ℚ) ≤
        ((Size L : Int) : ℚ) + (L : ℚ) * ((lastTime t1 rest - t1 : Int) : ℚ) / 60000000000
          + (admittedCount infos : ℚ) / 8388608 := by
  obtain ⟨infos, q, hrun, hbound⟩ := Counter.addSeq_rateInv oor key L hL1 hL2
    ((t1, a1) :: rest) p t1 ((L : ℚ) * (t1 : ℚ) / 60000000000)
    (by simp only [List.map_cons, List.chain_cons]; exact ⟨le_refl _, htimes⟩)
    (fun c hc => hamounts c hc) (Or.inl ⟨hfresh, le_refl _⟩)
  refine ⟨infos, q, hrun, ?_⟩
  have hlast : lastTime t1 ((t1, a1) :: rest) = lastTime t1 rest := rfl
  rw [hlast] at hbound
  have hsplit : (L : ℚ) * ((lastTime t1 rest - t1 : Int) : ℚ) / 60000000000
      = (L : ℚ) * (lastTime t1 rest : ℚ) / 60000000000 - (L : ℚ) * (t1 : ℚ) / 60000000000 := by
    push_cast; ring
  rw [hsplit]
  linarith

theorem add_rate_bound_witness :
    NewCounter.buckets "k" = none ∧ (1 : Int) ≤ 60 ∧ (60 : Int) ≤ 9223371976 ∧
      List.Chain (fun x y : Int => x ≤ y) t0
        ([(t0 + 500000000, (1 : Int)), (t0 + 1000000000, 1)].map Prod.fst) ∧
      (∃ infos q,
        Counter.addSeq oorAmd64 "k" 60 NewCounter
            [(t0, 1), (t0 + 500000000, 1), (t0 + 1000000000, 1)] = some (infos, q) ∧
          (admittedSum infos [(t0, 1), (t0 + 500000000, 1), (t0 + 1000000000, 1)] : ℚ) ≤
            ((Size 60 : Int) : ℚ)
              + (60 : ℚ) * ((lastTime t0 [(t0 + 500000000, 1), (t0 + 1000000000, 1)] - t0 : Int) : ℚ)
                / 60000000000
              + (admittedCount infos : ℚ) / 8388608) :=
  ⟨rfl, by decide, by decide,
   List.Chain.cons (by decide) (List.Chain.cons (by decide) List.Chain.nil),
   add_rate_bound oorAmd64 NewCounter "k" 60 t0 1
     [(t0 + 500000000, 1), (t0 + 1000000000, 1)] rfl (by decide) (by decide)
     (List.Chain.cons (by decide) (List.Chain.cons (by decide) List.Chain.nil))
     (by decide)⟩

/-- C23 (as stated, refuted): with the amd64 conversion the call `Add("k", 60, 2^63 - 1)`
on the empty registry is admitted and stores a bucket with limit 60 (capacity 1) whose
count is `2^63`. -/
theorem registry_within_capacity_counterexample :
    (0 : Int) ≤ 60 ∧ (0 : Int) ≤ 9223372036854775807 ∧ Size 60 = 1 ∧
      (Counter.Add oorAmd64 NewCounter t0 "k" 60 9223372036854775807).map
          (fun r => (r.1.Allowed, r.2.buckets "k")) =
        some (true, some { UpdatedAt := t0, LimitPerWindow := 60,
                           Count := fin false 4503599627370496 11 }) ∧
      ((Size 60 : Int) : ℚ) < toRat (fin false 4503599627370496 11) := by
  refine ⟨by decide, by decide, by decide, by rfl, ?_⟩
  have hS : Size 60 = 1 := by decide
  rw [hS, toRat_fin]
  have : sgnQ false = 1 := rfl
  rw [this]
  norm_num

/-- C23 (amended): in every state reachable from `NewCounter()` by `Add` calls at
non-decreasing times with non-negative `int64` limits and amounts from `0` to `2^62`,
every stored bucket has `LimitPerWindow ≥ 1` and a finite `Count` with
`0 ≤ Count ≤ Size(LimitPerWindow)`. -/
theorem registry_within_capacity (oor : F64 → Int) (p : Counter) (t : Int)
    (h : ReachableBy oor LimitNonneg AmountInRange p t) :
    ∀ key b, p.buckets key = some b →
      1 ≤ b.LimitPerWindow ∧ Finite b.Count ∧ 0 ≤ toRat b.Count ∧
        toRat b.Count ≤ ((Size b.LimitPerWindow : Int) : ℚ) := by
  intro key b hb
  obtain ⟨h1, -, -, h4, -, h6, h7⟩ := ReachableBy.inCapacity oor p t h key b hb
  exact ⟨h1, h4, h6, h7⟩

theorem registry_within_capacity_witness :
    ReachableBy oorAmd64 LimitNonneg AmountInRange (afterFirst 60 1) t0 ∧
      (afterFirst 60 1).buckets "k" = some (zeroBucket.Plus t0 60 1) ∧
      (1 ≤ (zeroBucket.Plus t0 60 1).LimitPerWindow ∧ Finite (zeroBucket.Plus t0 60 1).Count ∧
        0 ≤ toRat (zeroBucket.Plus t0 60 1).Count ∧
        toRat (zeroBucket.Plus t0 60 1).Count ≤
          ((Size (zeroBucket.Plus t0 60 1).LimitPerWindow : Int) : ℚ)) :=
  ⟨afterFirst_reachable oorAmd64 _ _ ⟨by decide, by decide⟩ ⟨by decide, by decide⟩,
   afterFirst_bucket 60 1,
   registry_within_capacity oorAmd64 (afterFirst 60 1) t0
     (afterFirst_reachable oorAmd64 _ _ ⟨by decide, by decide⟩ ⟨by decide, by decide⟩)
     "k" _ (afterFirst_bucket 60 1)⟩

/-- C24: in every state reachable from `NewCounter()` by `Add` calls, whatever their
limits and amounts, every stored bucket has `LimitPerWindow ≠ 0` and no `Add` call panics
on the division in `WillReach`; the bucket of the admitted branch carries the limit of
the call, and on the zero-value bucket of an absent key `WillReach` returns `now` before
the division. -/
theorem add_never_divides_by_zero (oor : F64 → Int) (p : Counter) (t : Int)
    (h : ReachableBy oor (fun _ => True) (fun _ => True) p t) :
    (∀ key b, p.buckets key = some b → b.LimitPerWindow ≠ 0) ∧
      (∀ (now : Int) (key : String) (L a : Int),
        ∃ info p', Counter.Add oor p now key L a = some (info, p')) ∧
      (∀ (now : Int) (key : String) (L a : Int),
        ((p.lookup key).Plus now L a).LimitPerWindow = L) ∧
      (∀ key, p.buckets key = none → p.lookup key = zeroBucket) ∧
      (∀ c now : Int, zeroBucket.WillReach oor c now = some now) :=
  ⟨ReachableBy.limit_ne_zero oor _ _ p t h,
   fun now key L a =>
     Counter.add_isSome oor p now key L a
       (fun b hb => ReachableBy.limit_ne_zero oor _ _ p t h key b hb),
   fun _ _ _ _ => rfl,
   fun key hk => Counter.lookup_of_none p key hk,
   fun c now => Bucket.willReach_zeroBucket oor c now⟩

theorem add_never_divides_by_zero_witness :
    ReachableBy oorAmd64 (fun _ => True) (fun _ => True) (afterFirst 60 1) t0 ∧
      (∀ key b, (afterFirst 60 1).buckets key = some b → b.LimitPerWindow ≠ 0) ∧
      ∃ info p', Counter.Add oorAmd64 (afterFirst 60 1) t0 "k" 60 1 = some (info, p') :=
  ⟨afterFirst_reachable oorAmd64 _ _ trivial trivial,
   (add_never_divides_by_zero oorAmd64 (afterFirst 60 1) t0
     (afterFirst_reachable oorAmd64 _ _ trivial trivial)).1,
   (add_never_divides_by_zero oorAmd64 (afterFirst 60 1) t0
     (afterFirst_reachable oorAmd64 _ _ trivial trivial)).2.1 t0 "k" 60 1⟩

end RateLimit
